import Mathlib

/-!
Verification of the base64dq package (a base64 variant with a caller-supplied
64-symbol Unicode alphabet, variable-byte-width symbols, a DFA-based decoder,
and streaming wrappers).

The Go source is shallowly embedded:
* bytes are `Nat` (values < 256 by construction), runes are `Nat` code points;
  the `padChar` field is `Int` because Go uses the sentinel `NoPadding = -1`;
* `[]byte` buffers are `List Nat`; writes into a destination buffer are
  modelled by appending to a list, so "number of bytes stored" is a length;
* Go panics and runtime panics (slice bounds) are `Except String`;
* the pointer-linked DFA built by `buildDFA` is represented by its reachable
  states (`DState`) and a transition function (`Encoding.step`): a node of the
  source trie is determined by the byte path that reaches it, terminal nodes
  share the root's children array, and the padding node is its own subgraph.
-/

namespace Base64dq

/-! ### Bit-operation bridging lemmas

The source packs and unpacks 6-bit groups with `<<`, `>>`, `|`, `&`.  We keep
those operators in the definitions and rewrite them to `*`, `/`, `%`, `+` in
proofs with the lemmas below, after which `omega` can reason about them. -/

theorem lor_mul_pow (a b k : Nat) (h : b < 2 ^ k) : (a * 2 ^ k) ||| b = a * 2 ^ k + b := by
  apply Nat.eq_of_testBit_eq
  intro n
  rw [Nat.testBit_lor, Nat.mul_comm a (2 ^ k), Nat.testBit_mul_pow_two_add a h n,
      Nat.testBit_mul_pow_two]
  rcases Nat.lt_or_ge n k with hn | hn
  · simp [hn, Nat.not_le.mpr hn]
  · have hnk : ¬ n < k := Nat.not_lt.mpr hn
    have hb : b.testBit n = false :=
      Nat.testBit_lt_two_pow (lt_of_lt_of_le h (Nat.pow_le_pow_right (by norm_num) hn))
    simp [hnk, hn, hb]

theorem lor_shiftLeft (a b k : Nat) (h : b < 2 ^ k) : (a <<< k) ||| b = a * 2 ^ k + b := by
  rw [Nat.shiftLeft_eq]; exact lor_mul_pow a b k h

theorem and_63_eq_mod (x : Nat) : x &&& 63 = x % 64 := by
  have h := Nat.and_pow_two_sub_one_eq_mod x 6
  norm_num at h
  exact h

theorem and_0xFF_eq_mod (x : Nat) : x &&& 255 = x % 256 := by
  have h := Nat.and_pow_two_sub_one_eq_mod x 8
  norm_num at h
  exact h

theorem and_0xFFFF_eq_mod (x : Nat) : x &&& 65535 = x % 65536 := by
  have h := Nat.and_pow_two_sub_one_eq_mod x 16
  norm_num at h
  exact h

/-- Go `byte(x)` conversion: truncation modulo 256. -/
def byte (x : Nat) : Nat := x % 256

/-! ### UTF-8 (the pieces of Go package unicode/utf8 the source uses) -/

/-- Mirror of Go `utf8.EncodeRune` (for a nonnegative rune given as `Nat`):
1-byte for < 0x80, 2-byte for < 0x800, the replacement character U+FFFD
(bytes EF BF BD) for surrogates and out-of-range values, otherwise 3- or
4-byte encodings. -/
def utf8EncodeRune (r : Nat) : List Nat :=
  if r < 0x80 then [r]
  else if r < 0x800 then
    [0xC0 ||| (r >>> 6), 0x80 ||| (r &&& 0x3F)]
  else if 0x10FFFF < r ∨ (0xD800 ≤ r ∧ r ≤ 0xDFFF) then
    [0xEF, 0xBF, 0xBD]
  else if r < 0x10000 then
    [0xE0 ||| (r >>> 12), 0x80 ||| ((r >>> 6) &&& 0x3F), 0x80 ||| (r &&& 0x3F)]
  else
    [0xF0 ||| (r >>> 18), 0x80 ||| ((r >>> 12) &&& 0x3F),
     0x80 ||| ((r >>> 6) &&& 0x3F), 0x80 ||| (r &&& 0x3F)]

/-- Mirror of Go `utf8.RuneLen`. -/
def utf8RuneLen (r : Int) : Int :=
  if r < 0 then -1
  else if r < 0x80 then 1
  else if r < 0x800 then 2
  else if 0xD800 ≤ r ∧ r ≤ 0xDFFF then -1
  else if r < 0x10000 then 3
  else if r ≤ 0x10FFFF then 4
  else -1

/-- Mirror of Go `utf8.DecodeRune`: returns the decoded rune and its byte
size; `(0xFFFD, 1)` for an invalid sequence, `(0xFFFD, 0)` for empty input.
Go checks `n < size` before validating continuation bytes; both orders give
`(RuneError, 1)`, so checking bytes as they are peeled off is equivalent. -/
def utf8DecodeRune (s : List Nat) : Nat × Nat :=
  match s with
  | [] => (0xFFFD, 0)
  | b0 :: rest =>
    if b0 < 0x80 then (b0, 1)
    else if b0 < 0xC2 ∨ 0xF4 < b0 then (0xFFFD, 1)
    else
      let sz : Nat := if b0 < 0xE0 then 2 else if b0 < 0xF0 then 3 else 4
      let lo : Nat := if b0 = 0xE0 then 0xA0 else if b0 = 0xF0 then 0x90 else 0x80
      let hi : Nat := if b0 = 0xED then 0x9F else if b0 = 0xF4 then 0x8F else 0xBF
      match rest with
      | [] => (0xFFFD, 1)
      | b1 :: rest1 =>
        if b1 < lo ∨ hi < b1 then (0xFFFD, 1)
        else if sz = 2 then (((b0 &&& 0x1F) <<< 6) ||| (b1 &&& 0x3F), 2)
        else match rest1 with
        | [] => (0xFFFD, 1)
        | b2 :: rest2 =>
          if b2 < 0x80 ∨ 0xBF < b2 then (0xFFFD, 1)
          else if sz = 3 then
            ((((b0 &&& 0x0F) <<< 12) ||| ((b1 &&& 0x3F) <<< 6)) ||| (b2 &&& 0x3F), 3)
          else match rest2 with
          | [] => (0xFFFD, 1)
          | b3 :: _ =>
            if b3 < 0x80 ∨ 0xBF < b3 then (0xFFFD, 1)
            else (((((b0 &&& 0x07) <<< 18) ||| ((b1 &&& 0x3F) <<< 12)) |||
                   ((b2 &&& 0x3F) <<< 6)) ||| (b3 &&& 0x3F), 4)

/-- The rune/size sequence produced by Go `for _, ch := range s` over a byte
string: repeatedly decode one rune and advance by its size (1 on invalid). -/
def runeSeq : List Nat → List (Nat × Nat)
  | [] => []
  | b :: bs =>
    let p := utf8DecodeRune (b :: bs)
    (p.1, p.2) :: runeSeq (bs.drop (p.2 - 1))
termination_by l => l.length
decreasing_by
  simp only [List.length_cons, List.length_drop]
  omega

/-! ### The Encoding configuration (struct Encoding) -/

/-- Mirror of the Go `Encoding` struct.  `encode` is the 64-entry symbol
table (UTF-8 bytes per 6-bit value); `decode` is the `decodeMap` as sorted
(rune, 6-bit value) pairs — the source builds and sorts it, but no operation
modelled here consults it (`decodeMap.search` has no caller in the package);
`maxSize` is the maximum symbol byte width; `padChar` is a rune with the Go
sentinel `NoPadding = -1`; `strict` is the strict-decoding flag.  The lazily
built DFA root is represented by `Encoding.step` below instead of a field. -/
structure Encoding where
  encode : Fin 64 → List Nat
  decode : List (Nat × Nat)
  maxSize : Nat
  padChar : Int
  strict : Bool

/-- Standard padding character U+30FB (Katakana middle dot). -/
def StdPadding : Int := 0x30FB

/-- Sentinel meaning "no padding". -/
def NoPadding : Int := -1

/-- Go slice expression `bs[a:b]` with its bounds panic. -/
def goSlice (bs : List Nat) (a b : Nat) : Except String (List Nat) :=
  if a ≤ b ∧ b ≤ bs.length then .ok ((bs.drop a).take (b - a))
  else .error "slice bounds out of range"

/-- The range loop of `NewEncoding`: collect (byte position, rune) for each
code point, panicking on a 65th code point or on a replacement rune
(`utf8.RuneError`, which Go also yields for invalid UTF-8 sequences). -/
def collectRunes : List (Nat × Nat) → Nat → Nat → Except String (List (Nat × Nat))
  | [], _, _ => .ok []
  | (r, sz) :: rest, i, j =>
    if 64 ≤ j then .error "encoding alphabet is not 64-runes long"
    else if r = 0xFFFD then .error "encoding alphabet contains invalid UTF-8 sequence"
    else do
      let tail ← collectRunes rest (i + sz) (j + 1)
      .ok ((i, r) :: tail)

/-- The symbol-slicing loop of `NewEncoding`: `e.encode[i] = encoder[pos[i]:pos[i+1]]`
for the given index list, with the Go slice-bounds panic. -/
def buildSyms (bs : List Nat) (pos : Nat → Nat) : List Nat → Except String (List (List Nat))
  | [] => .ok []
  | i :: is => do
    let s ← goSlice bs (pos i) (pos (i + 1))
    let rest ← buildSyms bs pos is
    .ok (s :: rest)

/-- Mirror of `NewEncoding`.  Failures (`Except.error`) are the two explicit
panics of the range loop plus the implicit slice-bounds panic of
`encoder[pos[i]:pos[i+1]]`.  Note the source never checks that the alphabet
has at least 64 code points, nor that code points are pairwise distinct. -/
def NewEncoding (encoder : List Nat) : Except String Encoding := do
  let prs ← collectRunes (runeSeq encoder) 0 0
  let pos : Nat → Nat := fun idx =>
    if idx = 64 then encoder.length else ((prs.map Prod.fst).getD idx 0)
  let syms ← buildSyms encoder pos (List.range 64)
  let m1 : Nat := syms.foldl (fun m s => if m < s.length then s.length else m) 1
  let m2 : Nat := if (m1 : Int) < utf8RuneLen StdPadding then (utf8RuneLen StdPadding).toNat else m1
  let runes64 : List Nat := (prs.map Prod.snd) ++ List.replicate (64 - prs.length) 0
  let vals : List Nat := (List.range 64).map (fun j => if j < prs.length then j else 0)
  .ok { encode := fun i => syms.getD i []
        decode := (runes64.zip vals).mergeSort (fun a b => a.1 ≤ b.1)
        maxSize := m2
        padChar := StdPadding
        strict := false }

/-- Mirror of `Encoding.Strict`: a copy with strict decoding enabled. -/
def Encoding.Strict (enc : Encoding) : Encoding :=
  { encode := enc.encode
    decode := enc.decode
    maxSize := enc.maxSize
    padChar := enc.padChar
    strict := true }

/-- Mirror of `Encoding.WithPadding`: a copy with the given padding rune
(or `NoPadding`), panicking when the rune is CR, LF, or the first rune of
an alphabet symbol. -/
def Encoding.WithPadding (enc : Encoding) (padding : Int) : Except String Encoding :=
  if padding = 13 ∨ padding = 10 then .error "invalid padding"
  else if (List.finRange 64).any (fun i => ((utf8DecodeRune (enc.encode i)).1 : Int) = padding) then
    .error "padding contained in alphabet"
  else
    let maxSize := if (enc.maxSize : Int) < utf8RuneLen padding
      then (utf8RuneLen padding).toNat else enc.maxSize
    .ok { encode := enc.encode
          decode := enc.decode
          maxSize := maxSize
          padChar := padding
          strict := enc.strict }

/-! ### Length formulas -/

/-- Mirror of `Encoding.EncodedLen` (Go integer division on nonnegative ints). -/
def Encoding.EncodedLen (enc : Encoding) (n : Nat) : Nat :=
  (if enc.padChar = NoPadding then (n * 8 + 5) / 6 else (n + 2) / 3 * 4) * enc.maxSize

/-- Mirror of `Encoding.DecodedLen`. -/
def Encoding.DecodedLen (enc : Encoding) (n : Nat) : Nat :=
  if enc.padChar = NoPadding then n * 6 / 8 else n / 4 * 3

/-! ### Encoding -/

/-- The UTF-8 bytes of the padding rune as `buildDFA`/`Encode` see them:
Go converts the rune through `uint32`, so any negative rune encodes as the
replacement character.  Only consulted when `padChar ≠ NoPadding`. -/
def Encoding.padBytes (enc : Encoding) : List Nat :=
  if enc.padChar < 0 then [0xEF, 0xBF, 0xBD] else utf8EncodeRune enc.padChar.toNat

/-- The 6-bit group of `v` starting at bit `k`, as a symbol index (the
source writes `enc.encode[val>>k&0x3F]`). -/
def g6 (v k : Nat) : Fin 64 := ⟨(v >>> k) &&& 0x3F, by rw [and_63_eq_mod]; omega⟩

/-- The main 3-byte-block loop of `Encoding.Encode` (four symbols per 24-bit
group); the loop stops when fewer than 3 bytes remain. -/
def encodeBlocks (enc : Encoding) : List Nat → List Nat
  | [] => []
  | [_] => []
  | [_, _] => []
  | b0 :: b1 :: b2 :: rest =>
    enc.encode (g6 (((b0 <<< 16) ||| (b1 <<< 8)) ||| b2) 18) ++
    enc.encode (g6 (((b0 <<< 16) ||| (b1 <<< 8)) ||| b2) 12) ++
    enc.encode (g6 (((b0 <<< 16) ||| (b1 <<< 8)) ||| b2) 6) ++
    enc.encode (g6 (((b0 <<< 16) ||| (b1 <<< 8)) ||| b2) 0) ++
    encodeBlocks enc rest

/-- The final-partial-block handling of `Encoding.Encode` (`remain` = 0, 1
or 2 leftover bytes; padding symbols appended when padding is enabled). -/
def encodeTail (enc : Encoding) : List Nat → List Nat
  | [] => []
  | [b0] =>
    enc.encode (g6 (b0 <<< 16) 18) ++ enc.encode (g6 (b0 <<< 16) 12) ++
    (if enc.padChar ≠ NoPadding then enc.padBytes ++ enc.padBytes else [])
  | b0 :: b1 :: _ =>
    enc.encode (g6 ((b0 <<< 16) ||| (b1 <<< 8)) 18) ++
    enc.encode (g6 ((b0 <<< 16) ||| (b1 <<< 8)) 12) ++
    enc.encode (g6 ((b0 <<< 16) ||| (b1 <<< 8)) 6) ++
    (if enc.padChar ≠ NoPadding then enc.padBytes else [])

/-- Mirror of `Encoding.Encode`; the returned list is the bytes written into
`dst` (whose count is the returned `di`): the full 3-byte blocks followed by
the encoded remainder. -/
def Encoding.Encode (enc : Encoding) (src : List Nat) : List Nat :=
  encodeBlocks enc (src.take (src.length / 3 * 3)) ++
  encodeTail enc (src.drop (src.length / 3 * 3))

/-- Mirror of `Encoding.EncodeToString` (the byte string it returns). -/
def Encoding.EncodeToString (enc : Encoding) (src : List Nat) : List Nat :=
  enc.Encode src

/-! ### The symbol recognizer (buildDFA)

`buildDFA` links mutable nodes into a cyclic graph: a trie over the 64 symbol
encodings whose terminal nodes share the root's children array, a padding
node `pad` (value 64) with a self-loop on CR/LF and a copy of the padding
byte path, and CR/LF self-loops at the root added last (overriding any other
transition on those bytes).  A node of that graph is determined by how it is
reached, so we represent states explicitly and give the transition function
each state's outgoing edges.  The priorities below reproduce the overwrite
order of `buildDFA` (entries first, then the padding path — whose final byte
overwrites unconditionally — then CR/LF at the root); for the alphabets the
constructors accept (distinct code points, hence distinct and prefix-free
UTF-8 encodings not starting with CR/LF) this is exactly the source trie. -/

/-- Boolean list-prefix test (explicit recursion, used by the recognizer). -/
def pfxOf : List Nat → List Nat → Bool
  | [], _ => true
  | _ :: _, [] => false
  | a :: as, b :: bs => a == b && pfxOf as bs

/-- State of the recognizer: the root, an interior trie node reached from the
root by the nonempty byte path `p`, a terminal node for symbol `i` (whose
children are the root's), the padding node, and an interior node of the
padding byte path hanging off the padding node. -/
inductive DState where
  | root : DState
  | mid (p : List Nat) : DState
  | term (i : Fin 64) : DState
  | pad : DState
  | padMid (p : List Nat) : DState
deriving DecidableEq

/-- Terminal lookup: the symbol whose full encoding is `p`.  Later entries of
the alphabet overwrite earlier ones in `buildDFA`, hence the reversed scan. -/
def findSym (enc : Encoding) (p : List Nat) : Option (Fin 64) :=
  ((List.finRange 64).reverse).find? (fun i => enc.encode i == p)

/-- `p` is a nonzero-length strict prelude of some symbol encoding: the byte
paths on which the entry loop of `buildDFA` creates interior (`midNode`)
nodes. -/
def entryPpfx (enc : Encoding) (p : List Nat) : Prop :=
  ∃ i : Fin 64, p ≠ enc.encode i ∧ pfxOf p (enc.encode i) = true

instance (enc : Encoding) (p : List Nat) : Decidable (entryPpfx enc p) :=
  Fintype.decidableExistsFintype

/-- `p` is a strict prelude of the padding bytes. -/
def padPpfx (enc : Encoding) (p : List Nat) : Prop :=
  p ≠ enc.padBytes ∧ pfxOf p enc.padBytes = true

instance (enc : Encoding) (p : List Nat) : Decidable (padPpfx enc p) :=
  instDecidableAnd

/-- Outgoing edges of the root, of a terminal node (children shared with the
root) and of an interior trie node at path `p` (`p = []` for the former two):
CR/LF loop to the root (root only, installed last), the final padding byte
reaches `pad` (installed after the entries, overwriting), a full symbol
encoding reaches its terminal node, and strict preludes of a symbol or of the
padding continue inward. -/
def Encoding.trieStep (enc : Encoding) (p : List Nat) (b : Nat) : Option DState :=
  let q := p ++ [b]
  if p = [] ∧ (b = 10 ∨ b = 13) then some .root
  else if enc.padChar ≠ NoPadding ∧ q = enc.padBytes then some .pad
  else match findSym enc q with
    | some i => some (.term i)
    | none =>
      if entryPpfx enc q ∨ (enc.padChar ≠ NoPadding ∧ padPpfx enc q) then some (.mid q)
      else none

/-- Outgoing edges of the padding node (`p = []`) and of the interior nodes
of its padding byte path: CR/LF loop back to the padding node itself, the
padding encoding leads back to the padding node, its strict preludes continue
inward, anything else rejects. -/
def Encoding.padStep (enc : Encoding) (p : List Nat) (b : Nat) : Option DState :=
  let q := p ++ [b]
  if p = [] ∧ (b = 10 ∨ b = 13) then some .pad
  else if q = enc.padBytes then some .pad
  else if padPpfx enc q then some (.padMid q)
  else none

/-- The transition function of the recognizer. -/
def Encoding.step (enc : Encoding) : DState → Nat → Option DState
  | .root, b => enc.trieStep [] b
  | .term _, b => enc.trieStep [] b
  | .mid p, b => enc.trieStep p b
  | .pad, b => enc.padStep [] b
  | .padMid p, b => enc.padStep p b

/-- The `v` field of each node: `rootNode = -1`, `midNode = -2`,
`paddingNode = 64`, symbol index otherwise.  Interior nodes that exist only
for the padding byte path are created with value `-1` in `buildDFA` (not
`midNode`), both under the root and under the padding node. -/
def Encoding.nodeV (enc : Encoding) : DState → Int
  | .root => -1
  | .mid p => if entryPpfx enc p then -2 else -1
  | .term i => (i : Nat)
  | .pad => 64
  | .padMid _ => -1

/-! ### One-shot decoding (Encoding.Decode) -/

/-- The quantum buffer `var dbuf [4]byte`. -/
structure Dbuf where
  d0 : Nat
  d1 : Nat
  d2 : Nat
  d3 : Nat
deriving DecidableEq

/-- `dbuf[idx] = v`. -/
def Dbuf.set (d : Dbuf) : Nat → Nat → Dbuf
  | 0, v => { d with d0 := v }
  | 1, v => { d with d1 := v }
  | 2, v => { d with d2 := v }
  | 3, v => { d with d3 := v }
  | _, _ => d

/-- `uint(dbuf[0])<<18 | uint(dbuf[1])<<12 | uint(dbuf[2])<<6 | uint(dbuf[3])`. -/
def Dbuf.val (d : Dbuf) : Nat :=
  (((d.d0 <<< 18) ||| (d.d1 <<< 12)) ||| (d.d2 <<< 6)) ||| d.d3

/-- `for i := j % 4; i < 4; i++ { dbuf[i] = 0 }` with the given `j % 4`. -/
def Dbuf.zeroFrom (d : Dbuf) : Nat → Dbuf
  | 0 => ⟨0, 0, 0, 0⟩
  | 1 => ⟨d.d0, 0, 0, 0⟩
  | 2 => ⟨d.d0, d.d1, 0, 0⟩
  | 3 => ⟨d.d0, d.d1, d.d2, 0⟩
  | _ => d

/-- The mutable state of the decode loop.  `out` is the list of bytes stored
into `dst` so far (`k = out.length`); the other fields mirror the local
variables of `Encoding.Decode`. -/
structure LoopSt where
  n : DState
  padCount : Nat
  lastBlock : Nat
  lastRune : Nat
  j : Nat
  dbuf : Dbuf
  out : List Nat

/-- Outcome of the byte loop: an error return (`written` is what had been
stored into `dst` when it fired), a `break LOOP` carrying the position after
the consumed byte and the unconsumed remainder, or falling off the end. -/
inductive LoopRes where
  | err (written : List Nat) (off : Nat) : LoopRes
  | brk (st : LoopSt) (i : Nat) (rest : List Nat) : LoopRes
  | done (st : LoopSt) (i : Nat) : LoopRes

/-- The body of the decode loop after a non-negative node value `v` was read
at byte index `i` (the state already holds the new node): the incorrect-
padding check, the `dbuf` store, and the end-of-quantum block conversion.
Returns either a terminal outcome or the state to continue with.  A `switch
padCount` value above 4 matches no case in Go and falls through; the final
`if n.v < 64` updates `lastRune`. -/
def resolveValue (enc : Encoding) (rest : List Nat) (i : Nat) (st : LoopSt) (v : Int) :
    LoopRes ⊕ LoopSt :=
  if v = 64 ∧ (st.j % 4 = 0 ∨ st.j % 4 = 1) then .inl (.err st.out st.lastRune)
  else
    let padCount := if v = 64 then st.padCount + 1 else st.padCount
    let vv : Nat := if v = 64 then 0 else v.toNat
    let dbuf := st.dbuf.set (st.j % 4) (byte vv)
    let j := st.j + 1
    let lastRune := if enc.nodeV st.n < 64 then i + 1 else st.lastRune
    if j % 4 = 0 then
      let lastBlock := i + 1
      let val := dbuf.val
      match padCount with
      | 0 =>
        let out := st.out ++ [byte (val >>> 16), byte (val >>> 8), byte val]
        .inr ⟨st.n, 0, lastBlock, lastRune, j, dbuf, out⟩
      | 1 =>
        let out := st.out ++ [byte (val >>> 16), byte (val >>> 8)]
        if enc.strict ∧ val &&& 0xFF ≠ 0 then .inl (.err out st.lastRune)
        else .inl (.brk ⟨st.n, 1, lastBlock, st.lastRune, j, dbuf, out⟩ (i + 1) rest)
      | 2 =>
        let out := st.out ++ [byte (val >>> 16)]
        if enc.strict ∧ val &&& 0xFFFF ≠ 0 then .inl (.err out st.lastRune)
        else .inl (.brk ⟨st.n, 2, lastBlock, st.lastRune, j, dbuf, out⟩ (i + 1) rest)
      | 3 => .inl (.err st.out st.lastRune)
      | 4 => .inl (.err st.out st.lastRune)
      | _ => .inr ⟨st.n, padCount, lastBlock, lastRune, j, dbuf, st.out⟩
    else
      .inr ⟨st.n, padCount, st.lastBlock, lastRune, j, dbuf, st.out⟩

/-- The byte loop of `Encoding.Decode` (`LOOP: for ; i < len(src); i++`). -/
def decodeLoop (enc : Encoding) : List Nat → Nat → LoopSt → LoopRes
  | [], i, st => .done st i
  | b :: rest, i, st =>
    match enc.step st.n b with
    | none => .err st.out st.lastRune
    | some n2 =>
      if enc.nodeV n2 < 0 then decodeLoop enc rest (i + 1) { st with n := n2 }
      else match resolveValue enc rest i { st with n := n2 } (enc.nodeV n2) with
        | .inl r => r
        | .inr st2 => decodeLoop enc rest (i + 1) st2

/-- The trailing loop of `Encoding.Decode`: after a padded quantum, only CR
and LF may follow; the first other byte is reported at its offset. -/
def checkTrailing : List Nat → Nat → Option Nat
  | [], _ => none
  | b :: rest, i => if b ≠ 10 ∧ b ≠ 13 then some i else checkTrailing rest (i + 1)

/-- Result of `Encoding.Decode`: `written` is every byte the function stored
into `dst` (also on error paths, where stores can precede the error return),
`ret` the returned count (0 on error), `err` the `CorruptInputError` offset. -/
structure DecodeOut where
  written : List Nat
  ret : Nat
  err : Option Nat
deriving DecidableEq

/-- Mirror of `Encoding.Decode`.  After the loop: the invalid-dangling-rune
check (`n.v < 0 && n.v != rootNode`), the incomplete-quantum handling (error
when padded; emission of the dangling 2- or 3-symbol tail when unpadded),
and the trailing-garbage scan. -/
def Encoding.Decode (enc : Encoding) (src : List Nat) : DecodeOut :=
  match decodeLoop enc src 0 ⟨.root, 0, 0, 0, 0, ⟨0, 0, 0, 0⟩, []⟩ with
  | .err w off => ⟨w, 0, some off⟩
  | .brk st i rest =>
    match checkTrailing rest i with
    | some off => ⟨st.out, 0, some off⟩
    | none => ⟨st.out, st.out.length, none⟩
  | .done st i =>
    if enc.nodeV st.n < 0 ∧ enc.nodeV st.n ≠ -1 then ⟨st.out, 0, some i⟩
    else if st.j % 4 ≠ 0 then
      if enc.padChar ≠ NoPadding then
        if st.padCount = 0 then ⟨st.out, 0, some st.lastBlock⟩ else ⟨st.out, 0, some i⟩
      else
        let dbuf := st.dbuf.zeroFrom (st.j % 4)
        let val := dbuf.val
        match st.j % 4 with
        | 2 =>
          let out := st.out ++ [byte (val >>> 16)]
          if enc.strict ∧ val &&& 0xFFFF ≠ 0 then ⟨out, 0, some st.lastRune⟩
          else ⟨out, out.length, none⟩
        | 3 =>
          let out := st.out ++ [byte (val >>> 16), byte (val >>> 8)]
          if enc.strict ∧ val &&& 0xFF ≠ 0 then ⟨out, 0, some st.lastRune⟩
          else ⟨out, out.length, none⟩
        | _ => ⟨st.out, 0, some i⟩
    else ⟨st.out, st.out.length, none⟩

/-- Mirror of `Encoding.DecodeString`: the returned byte slice `dbuf[:n]`
paired with the error. -/
def Encoding.DecodeString (enc : Encoding) (s : List Nat) : List Nat × Option Nat :=
  let r := enc.Decode s
  (r.written.take r.ret, r.err)

/-! ### The streaming encoder (struct encoder)

The wrapped `io.Writer` is modelled as an infallible byte sink (as in the
package's own tests, which write into a `strings.Builder`), accumulated in
`sink`; hence a sink write never sets `err`. -/

/-- Mirror of the `encoder` struct: `err` is the sticky error flag, `buf` the
0–2 pending bytes (`e.buf[:e.nbuf]`), `sink` everything written to `w`. -/
structure encoder where
  err : Bool
  buf : List Nat
  sink : List Nat
deriving DecidableEq

/-- Mirror of `NewEncoder` (fresh state wrapping an empty sink). -/
def NewEncoder : encoder := ⟨false, [], []⟩

/-- The large-interior-chunk loop of `encoder.Write`: repeatedly encode up to
`len(e.out)/maxSize/4*3` source bytes (a multiple of 3) and write them to the
sink, until fewer than 3 bytes remain.  Returns the new sink and the
remainder.  The `nn = 0` guard is unreachable for encodings built by the
constructors (their `maxSize` is at most 4, so `nn ≥ 192`); Go would spin
forever there. -/
def writeChunks (enc : Encoding) (sink : List Nat) (p : List Nat) : List Nat × List Nat :=
  if h : p.length < 3 then (sink, p)
  else
    let nn0 := 1024 / enc.maxSize / 4 * 3
    let nn := if p.length < nn0 then p.length - p.length % 3 else nn0
    if h3 : nn = 0 then (sink, p)
    else
      have hpos : 0 < nn := Nat.pos_of_ne_zero h3
      writeChunks enc (sink ++ enc.Encode (p.take nn)) (p.drop nn)
termination_by p.length
decreasing_by
  simp only [List.length_drop]
  exact Nat.sub_lt (by omega) hpos

/-- Mirror of `encoder.Write`: returns the new state, the reported count of
consumed bytes, and whether an error was returned.  With an infallible sink
the only error return is the sticky `e.err` check at the top. -/
def encoder.Write (enc : Encoding) (e : encoder) (p : List Nat) : encoder × Nat × Bool :=
  if e.err then (e, 0, true)
  else
    let i := if e.buf ≠ [] then min (3 - e.buf.length) p.length else 0
    let buf2 := e.buf ++ p.take i
    if e.buf ≠ [] ∧ buf2.length < 3 then ({ e with buf := buf2 }, i, false)
    else
      let sink1 := if e.buf ≠ [] then e.sink ++ enc.Encode buf2 else e.sink
      let p1 := p.drop i
      let (sink2, rem) := writeChunks enc sink1 p1
      (⟨false, rem, sink2⟩, i + p1.length, false)

/-- Mirror of `encoder.Close`: flush the 1–2 pending bytes as a final
(possibly padded) quantum; `e.nbuf = 0` afterwards.  Returns the new state
and the returned error. -/
def encoder.Close (enc : Encoding) (e : encoder) : encoder × Bool :=
  if e.err = false ∧ e.buf ≠ [] then
    (⟨false, [], e.sink ++ enc.Encode e.buf⟩, false)
  else (e, e.err)

/-! ### Facts about the Boolean list-prelude test -/

theorem pfxOf_iff (as : List Nat) : ∀ bs : List Nat, pfxOf as bs = true ↔ as <+: bs := by
  induction as with
  | nil => intro bs; simp [pfxOf]
  | cons a as ih =>
    intro bs
    cases bs with
    | nil => simp [pfxOf]
    | cons b bs =>
      simp [pfxOf, ih bs, List.cons_prefix_cons, And.comm]

/-! ### Validity of a configuration

The claims speak of "valid configurations": exactly 64 distinct, non-CR/LF
Unicode scalar values as the alphabet, and a padding symbol (if any) that is
itself a non-CR/LF scalar value outside the alphabet.  `ValidAlphabet` states
that on the embedded structure; the recognizer proofs then only use the
byte-level consequences collected in `Good` (nonempty, prefix-free,
pairwise-distinct symbol encodings not starting with CR/LF), which follow
from UTF-8 being a prefix code on scalar values. -/

/-- A Unicode scalar value other than CR and LF. -/
def ValidRune (r : Nat) : Prop :=
  r ≤ 0x10FFFF ∧ ¬(0xD800 ≤ r ∧ r ≤ 0xDFFF) ∧ r ≠ 10 ∧ r ≠ 13

instance (r : Nat) : Decidable (ValidRune r) := by
  unfold ValidRune; infer_instance

/-- The configuration of the claims: the 64 symbols are the UTF-8 encodings
of 64 distinct valid runes, and the padding symbol is either absent or a
valid rune outside the alphabet. -/
def ValidAlphabet (enc : Encoding) : Prop :=
  ∃ rs : Fin 64 → Nat,
    (∀ i j : Fin 64, rs i = rs j → i = j) ∧
    (∀ i : Fin 64, ValidRune (rs i)) ∧
    (∀ i : Fin 64, enc.encode i = utf8EncodeRune (rs i)) ∧
    (enc.padChar = NoPadding ∨
      (0 ≤ enc.padChar ∧ ValidRune enc.padChar.toNat ∧ ∀ i : Fin 64, rs i ≠ enc.padChar.toNat))

/-! ### Arithmetic form of the UTF-8 encoder -/

theorem utf8EncodeRune_one {r : Nat} (h : r < 0x80) : utf8EncodeRune r = [r] := by
  unfold utf8EncodeRune
  rw [if_pos h]

theorem utf8EncodeRune_two {r : Nat} (h1 : 0x80 ≤ r) (h2 : r < 0x800) :
    utf8EncodeRune r = [192 + r / 64, 128 + r % 64] := by
  unfold utf8EncodeRune
  rw [if_neg (by omega), if_pos h2]
  have e1 : (0xC0 : Nat) ||| (r >>> 6) = 192 + r / 64 := by
    rw [Nat.shiftRight_eq_div_pow]
    have := lor_mul_pow 3 (r / 2 ^ 6) 6 (by omega)
    norm_num at this ⊢
    omega
  have e2 : (0x80 : Nat) ||| (r &&& 0x3F) = 128 + r % 64 := by
    rw [show (0x3F : Nat) = 63 from rfl, and_63_eq_mod]
    have := lor_mul_pow 2 (r % 64) 6 (by omega)
    norm_num at this ⊢
    omega
  rw [e1, e2]

theorem utf8EncodeRune_three {r : Nat} (h1 : 0x800 ≤ r) (h2 : r < 0x10000)
    (hs : ¬(0xD800 ≤ r ∧ r ≤ 0xDFFF)) :
    utf8EncodeRune r = [224 + r / 4096, 128 + r / 64 % 64, 128 + r % 64] := by
  unfold utf8EncodeRune
  rw [if_neg (by omega), if_neg (by omega), if_neg (by omega), if_pos h2]
  have e1 : (0xE0 : Nat) ||| (r >>> 12) = 224 + r / 4096 := by
    rw [Nat.shiftRight_eq_div_pow]
    have := lor_mul_pow 14 (r / 2 ^ 12) 4 (by omega)
    norm_num at this ⊢
    omega
  have e2 : (0x80 : Nat) ||| ((r >>> 6) &&& 0x3F) = 128 + r / 64 % 64 := by
    rw [show (0x3F : Nat) = 63 from rfl, and_63_eq_mod, Nat.shiftRight_eq_div_pow]
    have := lor_mul_pow 2 (r / 2 ^ 6 % 64) 6 (by omega)
    norm_num at this ⊢
    omega
  have e3 : (0x80 : Nat) ||| (r &&& 0x3F) = 128 + r % 64 := by
    rw [show (0x3F : Nat) = 63 from rfl, and_63_eq_mod]
    have := lor_mul_pow 2 (r % 64) 6 (by omega)
    norm_num at this ⊢
    omega
  rw [e1, e2, e3]

theorem utf8EncodeRune_four {r : Nat} (h1 : 0x10000 ≤ r) (h2 : r ≤ 0x10FFFF) :
    utf8EncodeRune r = [240 + r / 262144, 128 + r / 4096 % 64, 128 + r / 64 % 64, 128 + r % 64] := by
  unfold utf8EncodeRune
  rw [if_neg (by omega), if_neg (by omega), if_neg (by omega), if_neg (by omega)]
  have e1 : (0xF0 : Nat) ||| (r >>> 18) = 240 + r / 262144 := by
    rw [Nat.shiftRight_eq_div_pow]
    have := lor_mul_pow 30 (r / 2 ^ 18) 3 (by omega)
    norm_num at this ⊢
    omega
  have e2 : (0x80 : Nat) ||| ((r >>> 12) &&& 0x3F) = 128 + r / 4096 % 64 := by
    rw [show (0x3F : Nat) = 63 from rfl, and_63_eq_mod, Nat.shiftRight_eq_div_pow]
    have := lor_mul_pow 2 (r / 2 ^ 12 % 64) 6 (by omega)
    norm_num at this ⊢
    omega
  have e3 : (0x80 : Nat) ||| ((r >>> 6) &&& 0x3F) = 128 + r / 64 % 64 := by
    rw [show (0x3F : Nat) = 63 from rfl, and_63_eq_mod, Nat.shiftRight_eq_div_pow]
    have := lor_mul_pow 2 (r / 2 ^ 6 % 64) 6 (by omega)
    norm_num at this ⊢
    omega
  have e4 : (0x80 : Nat) ||| (r &&& 0x3F) = 128 + r % 64 := by
    rw [show (0x3F : Nat) = 63 from rfl, and_63_eq_mod]
    have := lor_mul_pow 2 (r % 64) 6 (by omega)
    norm_num at this ⊢
    omega
  rw [e1, e2, e3, e4]

theorem utf8EncodeRune_ne_nil (r : Nat) : utf8EncodeRune r ≠ [] := by
  unfold utf8EncodeRune
  split <;> try simp
  split <;> try simp
  split <;> try simp
  split <;> simp

theorem utf8EncodeRune_length_le (r : Nat) : (utf8EncodeRune r).length ≤ 4 := by
  unfold utf8EncodeRune
  split <;> try simp
  split <;> try simp
  split <;> try simp
  split <;> simp

/-- UTF-8 is a prefix code on valid runes: one encoding is a prefix of
another only for equal runes (lengths are determined by disjoint first-byte
ranges, and equal-length encodings determine the rune). -/
theorem utf8EncodeRune_pfx {r s : Nat} (hr : ValidRune r) (hs : ValidRune s)
    (hp : utf8EncodeRune r <+: utf8EncodeRune s) : r = s := by
  obtain ⟨hr1, hr2, -, -⟩ := hr
  obtain ⟨hs1, hs2, -, -⟩ := hs
  by_cases ha1 : r < 0x80 <;> by_cases ha2 : r < 0x800 <;> by_cases ha3 : r < 0x10000 <;>
    by_cases hb1 : s < 0x80 <;> by_cases hb2 : s < 0x800 <;> by_cases hb3 : s < 0x10000 <;>
      first
      | omega
      | (first
          | rw [utf8EncodeRune_one ha1] at hp
          | rw [utf8EncodeRune_two (by omega) ha2] at hp
          | rw [utf8EncodeRune_three (by omega) ha3 (by omega)] at hp
          | rw [utf8EncodeRune_four (by omega) hr1] at hp
         ;
         first
          | rw [utf8EncodeRune_one hb1] at hp
          | rw [utf8EncodeRune_two (by omega) hb2] at hp
          | rw [utf8EncodeRune_three (by omega) hb3 (by omega)] at hp
          | rw [utf8EncodeRune_four (by omega) hs1] at hp
         ;
         simp only [List.cons_prefix_cons, List.prefix_nil, List.cons_ne_nil,
           List.nil_prefix, and_true, and_false] at hp
         ; try omega)

/-! ### Byte-level consequences of validity -/

/-- The byte-level facts the recognizer proofs need: every symbol encoding is
nonempty, the symbol table is prefix-free (hence pairwise distinct), no
symbol starts with CR or LF, and — when padding is enabled — the padding
bytes are nonempty, do not start with CR/LF, and are prefix-incomparable
with every symbol. -/
def Good (enc : Encoding) : Prop :=
  (∀ i : Fin 64, enc.encode i ≠ []) ∧
  (∀ i j : Fin 64, enc.encode i <+: enc.encode j → i = j) ∧
  (∀ i : Fin 64, ∀ b l, enc.encode i = b :: l → b ≠ 10 ∧ b ≠ 13) ∧
  (enc.padChar ≠ NoPadding →
    enc.padBytes ≠ [] ∧
    (∀ b l, enc.padBytes = b :: l → b ≠ 10 ∧ b ≠ 13) ∧
    (∀ i : Fin 64, ¬ enc.padBytes <+: enc.encode i) ∧
    (∀ i : Fin 64, ¬ enc.encode i <+: enc.padBytes))

theorem utf8EncodeRune_head_ne_nl {r : Nat} (h : ValidRune r) :
    ∀ b l, utf8EncodeRune r = b :: l → b ≠ 10 ∧ b ≠ 13 := by
  intro b l hb
  obtain ⟨h1, h2, h10, h13⟩ := h
  by_cases ha1 : r < 0x80
  · rw [utf8EncodeRune_one ha1] at hb
    cases hb
    omega
  · by_cases ha2 : r < 0x800
    · rw [utf8EncodeRune_two (by omega) ha2] at hb
      cases hb
      omega
    · by_cases ha3 : r < 0x10000
      · rw [utf8EncodeRune_three (by omega) ha3 (by omega)] at hb
        cases hb
        omega
      · rw [utf8EncodeRune_four (by omega) h1] at hb
        cases hb
        omega

/-- A valid configuration satisfies the byte-level facts. -/
theorem ValidAlphabet.good {enc : Encoding} (h : ValidAlphabet enc) : Good enc := by
  obtain ⟨rs, hinj, hval, henc, hpad⟩ := h
  refine ⟨?_, ?_, ?_, ?_⟩
  · intro i
    rw [henc i]
    exact utf8EncodeRune_ne_nil (rs i)
  · intro i j hp
    rw [henc i, henc j] at hp
    exact hinj i j (utf8EncodeRune_pfx (hval i) (hval j) hp)
  · intro i b l hb
    rw [henc i] at hb
    exact utf8EncodeRune_head_ne_nl (hval i) b l hb
  · intro hne
    rcases hpad with hnp | ⟨hge, hvp, hout⟩
    · exact absurd hnp hne
    · have hpb : enc.padBytes = utf8EncodeRune enc.padChar.toNat := by
        unfold Encoding.padBytes
        rw [if_neg (by omega)]
      refine ⟨?_, ?_, ?_, ?_⟩
      · rw [hpb]; exact utf8EncodeRune_ne_nil _
      · rw [hpb]; exact utf8EncodeRune_head_ne_nl hvp
      · intro i hp
        rw [hpb, henc i] at hp
        exact hout i (utf8EncodeRune_pfx hvp (hval i) hp).symm
      · intro i hp
        rw [hpb, henc i] at hp
        exact hout i (utf8EncodeRune_pfx (hval i) hvp hp)

/-! ### Evaluating the recognizer -/

theorem findSym_encode {enc : Encoding} (hg : Good enc) (i : Fin 64) :
    findSym enc (enc.encode i) = some i := by
  unfold findSym
  cases hfind : ((List.finRange 64).reverse).find? (fun j => enc.encode j == enc.encode i) with
  | none =>
    exfalso
    have := List.find?_eq_none.mp hfind i (by simp [List.mem_reverse, List.mem_finRange])
    simp at this
  | some j =>
    have hj := List.find?_some hfind
    simp at hj
    have : j = i := hg.2.1 j i (hj ▸ List.prefix_refl _)
    rw [this]

theorem findSym_none {enc : Encoding} {p : List Nat} (h : ∀ i : Fin 64, enc.encode i ≠ p) :
    findSym enc p = none := by
  unfold findSym
  apply List.find?_eq_none.mpr
  intro j _
  simp [h j]

/-- Root-or-terminal states: those whose outgoing edges are the root's. -/
def RootLike (s : DState) : Prop := s = .root ∨ ∃ i : Fin 64, s = .term i

theorem step_of_rootLike {enc : Encoding} {s : DState} (h : RootLike s) (b : Nat) :
    enc.step s b = enc.trieStep [] b := by
  rcases h with h | ⟨i, h⟩ <;> subst h <;> rfl

theorem nodeV_term (enc : Encoding) (i : Fin 64) : enc.nodeV (.term i) = ((i : Nat) : Int) := rfl

theorem nodeV_mid_neg (enc : Encoding) (p : List Nat) : enc.nodeV (.mid p) < 0 := by
  have h : enc.nodeV (.mid p) = if entryPpfx enc p then (-2 : Int) else -1 := rfl
  rw [h]
  split <;> omega

/-- `contOf` is the continuation applied to a loop-body outcome: a terminal
outcome is returned, a continuing state feeds the rest of the loop. -/
def contOf (enc : Encoding) (rest : List Nat) (i2 : Nat) : LoopRes ⊕ LoopSt → LoopRes
  | .inl r => r
  | .inr st2 => decodeLoop enc rest i2 st2

theorem decodeLoop_cons_reject {enc : Encoding} {b : Nat} {st : LoopSt}
    (h : enc.step st.n b = none) (rest : List Nat) (pos : Nat) :
    decodeLoop enc (b :: rest) pos st = .err st.out st.lastRune := by
  simp only [decodeLoop, h]

theorem decodeLoop_cons_continue {enc : Encoding} {b : Nat} {st : LoopSt} {n2 : DState}
    (h : enc.step st.n b = some n2) (hv : enc.nodeV n2 < 0) (rest : List Nat) (pos : Nat) :
    decodeLoop enc (b :: rest) pos st = decodeLoop enc rest (pos + 1) { st with n := n2 } := by
  simp only [decodeLoop, h]
  rw [if_pos hv]

theorem decodeLoop_cons_resolve {enc : Encoding} {b : Nat} {st : LoopSt} {n2 : DState}
    (h : enc.step st.n b = some n2) (hv : ¬ enc.nodeV n2 < 0) (rest : List Nat) (pos : Nat) :
    decodeLoop enc (b :: rest) pos st =
      contOf enc rest (pos + 1) (resolveValue enc rest pos { st with n := n2 } (enc.nodeV n2)) := by
  simp only [decodeLoop, h]
  rw [if_neg hv]
  cases resolveValue enc rest pos { st with n := n2 } (enc.nodeV n2) <;> rfl

/-! ### Stepping through one symbol or one padding character -/

theorem trieStep_entry_last {enc : Encoding} (hg : Good enc) {i : Fin 64} {p : List Nat} {b : Nat}
    (hsplit : enc.encode i = p ++ [b]) : enc.trieStep p b = some (.term i) := by
  unfold Encoding.trieStep
  rw [if_neg, if_neg]
  · rw [← hsplit, findSym_encode hg i]
  · rintro ⟨hpad, hq⟩
    rw [← hsplit] at hq
    exact (hg.2.2.2 hpad).2.2.2 i (hq ▸ List.prefix_refl _)
  · rintro ⟨rfl, hb⟩
    rw [List.nil_append] at hsplit
    have := hg.2.2.1 i b [] hsplit
    omega

theorem trieStep_entry_mid {enc : Encoding} (hg : Good enc) {i : Fin 64} {p q2 : List Nat}
    {b : Nat} (hsplit : enc.encode i = p ++ b :: q2) (hq : q2 ≠ []) :
    enc.trieStep p b = some (.mid (p ++ [b])) := by
  have hpfx : (p ++ [b]) <+: enc.encode i := ⟨q2, by simpa using hsplit.symm⟩
  have hne : p ++ [b] ≠ enc.encode i := by
    intro he
    rw [hsplit] at he
    have hlen := congrArg List.length he
    have hql : 0 < q2.length := List.length_pos.mpr hq
    simp only [List.length_append, List.length_cons, List.length_nil] at hlen
    omega
  unfold Encoding.trieStep
  rw [if_neg, if_neg]
  · rw [findSym_none, if_pos]
    · left
      exact ⟨i, hne, (pfxOf_iff _ _).mpr hpfx⟩
    · intro j hj
      have hjp : enc.encode j <+: enc.encode i := hj ▸ hpfx
      have := hg.2.1 j i hjp
      subst this
      exact hne (hj.symm)
  · rintro ⟨hpad, hq2⟩
    exact (hg.2.2.2 hpad).2.2.1 i (hq2 ▸ hpfx)
  · rintro ⟨rfl, hb⟩
    rw [List.nil_append] at hsplit
    have := hg.2.2.1 i b q2 hsplit
    omega

theorem trieStep_pad_last {enc : Encoding} (hg : Good enc) (hpad : enc.padChar ≠ NoPadding)
    {p : List Nat} {b : Nat} (hsplit : enc.padBytes = p ++ [b]) :
    enc.trieStep p b = some .pad := by
  unfold Encoding.trieStep
  rw [if_neg, if_pos ⟨hpad, hsplit.symm⟩]
  rintro ⟨rfl, hb⟩
  rw [List.nil_append] at hsplit
  have := (hg.2.2.2 hpad).2.1 b [] hsplit
  omega

theorem trieStep_pad_mid {enc : Encoding} (hg : Good enc) (hpad : enc.padChar ≠ NoPadding)
    {p q2 : List Nat} {b : Nat} (hsplit : enc.padBytes = p ++ b :: q2) (hq : q2 ≠ []) :
    enc.trieStep p b = some (.mid (p ++ [b])) := by
  have hpfx : (p ++ [b]) <+: enc.padBytes := ⟨q2, by simpa using hsplit.symm⟩
  have hne : p ++ [b] ≠ enc.padBytes := by
    intro he
    rw [hsplit] at he
    have hlen := congrArg List.length he
    have hql : 0 < q2.length := List.length_pos.mpr hq
    simp only [List.length_append, List.length_cons, List.length_nil] at hlen
    omega
  unfold Encoding.trieStep
  rw [if_neg, if_neg]
  · rw [findSym_none, if_pos]
    · right
      exact ⟨hpad, hne, (pfxOf_iff _ _).mpr hpfx⟩
    · intro j hj
      exact (hg.2.2.2 hpad).2.2.2 j (hj ▸ hpfx)
  · rintro ⟨-, hq2⟩
    exact hne hq2
  · rintro ⟨rfl, hb⟩
    rw [List.nil_append] at hsplit
    have := (hg.2.2.2 hpad).2.1 b _ hsplit
    omega

theorem padStep_last {enc : Encoding} (hg : Good enc) (hpad : enc.padChar ≠ NoPadding)
    {p : List Nat} {b : Nat} (hsplit : enc.padBytes = p ++ [b]) :
    enc.padStep p b = some .pad := by
  unfold Encoding.padStep
  rw [if_neg, if_pos hsplit.symm]
  rintro ⟨rfl, hb⟩
  rw [List.nil_append] at hsplit
  have := (hg.2.2.2 hpad).2.1 b [] hsplit
  omega

theorem padStep_mid {enc : Encoding} (hg : Good enc) (hpad : enc.padChar ≠ NoPadding)
    {p q2 : List Nat} {b : Nat} (hsplit : enc.padBytes = p ++ b :: q2) (hq : q2 ≠ []) :
    enc.padStep p b = some (.padMid (p ++ [b])) := by
  have hpfx : (p ++ [b]) <+: enc.padBytes := ⟨q2, by simpa using hsplit.symm⟩
  have hne : p ++ [b] ≠ enc.padBytes := by
    intro he
    rw [hsplit] at he
    have hlen := congrArg List.length he
    have hql : 0 < q2.length := List.length_pos.mpr hq
    simp only [List.length_append, List.length_cons, List.length_nil] at hlen
    omega
  unfold Encoding.padStep
  rw [if_neg, if_neg, if_pos ⟨hne, (pfxOf_iff _ _).mpr hpfx⟩]
  · exact hne
  · rintro ⟨rfl, hb⟩
    rw [List.nil_append] at hsplit
    have := (hg.2.2.2 hpad).2.1 b _ hsplit
    omega

/-- Feeding a full symbol encoding to the loop from a root-like state (or
from an interior node already `p` deep into the symbol) walks interior
nodes (all with negative value) and then resolves value `i` at the last
byte. -/
theorem walk_entry {enc : Encoding} (hg : Good enc) (i : Fin 64) :
    ∀ (q p : List Nat), enc.encode i = p ++ q → q ≠ [] →
    ∀ (st : LoopSt) (pos : Nat) (rest : List Nat),
      ((p = [] ∧ RootLike st.n) ∨ (p ≠ [] ∧ st.n = .mid p)) →
      decodeLoop enc (q ++ rest) pos st =
        contOf enc rest (pos + q.length)
          (resolveValue enc rest (pos + q.length - 1) { st with n := .term i } ((i : Nat) : Int)) := by
  intro q
  induction q with
  | nil => intro p _ hq; exact absurd rfl hq
  | cons b q2 ih =>
    intro p hsplit _ st pos rest hstate
    have hstep0 : enc.step st.n b = enc.trieStep p b := by
      rcases hstate with ⟨rfl, hroot⟩ | ⟨-, hmid⟩
      · exact step_of_rootLike hroot b
      · rw [hmid]; rfl
    cases hq2 : q2 with
    | nil =>
      subst hq2
      have hstep : enc.step st.n b = some (.term i) := by
        rw [hstep0]; exact trieStep_entry_last hg hsplit
      have hv : ¬ enc.nodeV (.term i) < 0 := by
        rw [nodeV_term]; omega
      rw [List.cons_append, List.nil_append,
          decodeLoop_cons_resolve hstep hv rest pos]
      rfl
    | cons c q3 =>
      rw [← hq2]
      have hq2ne : q2 ≠ [] := by rw [hq2]; simp
      have hstep : enc.step st.n b = some (.mid (p ++ [b])) := by
        rw [hstep0]; exact trieStep_entry_mid hg hsplit hq2ne
      rw [List.cons_append, decodeLoop_cons_continue hstep (nodeV_mid_neg enc _) _ pos]
      have hih := ih (p ++ [b]) (by rw [hsplit]; simp) hq2ne
        { st with n := .mid (p ++ [b]) } (pos + 1) rest (Or.inr (by simp))
      rw [hih]
      have h1 : pos + 1 + q2.length = pos + (b :: q2).length := by simp; omega
      rw [h1]

/-- Feeding the padding bytes to the loop from a root-like state walks
interior trie nodes and resolves value 64 at the final padding byte. -/
theorem walk_pad_root {enc : Encoding} (hg : Good enc) (hpad : enc.padChar ≠ NoPadding) :
    ∀ (q p : List Nat), enc.padBytes = p ++ q → q ≠ [] →
    ∀ (st : LoopSt) (pos : Nat) (rest : List Nat),
      ((p = [] ∧ RootLike st.n) ∨ (p ≠ [] ∧ st.n = .mid p)) →
      decodeLoop enc (q ++ rest) pos st =
        contOf enc rest (pos + q.length)
          (resolveValue enc rest (pos + q.length - 1) { st with n := .pad } 64) := by
  intro q
  induction q with
  | nil => intro p _ hq; exact absurd rfl hq
  | cons b q2 ih =>
    intro p hsplit _ st pos rest hstate
    have hstep0 : enc.step st.n b = enc.trieStep p b := by
      rcases hstate with ⟨rfl, hroot⟩ | ⟨-, hmid⟩
      · exact step_of_rootLike hroot b
      · rw [hmid]; rfl
    cases hq2 : q2 with
    | nil =>
      subst hq2
      have hstep : enc.step st.n b = some .pad := by
        rw [hstep0]; exact trieStep_pad_last hg hpad hsplit
      have hv : ¬ enc.nodeV .pad < 0 := by
        show ¬ (64 : Int) < 0; omega
      rw [List.cons_append, List.nil_append,
          decodeLoop_cons_resolve hstep hv rest pos]
      rfl
    | cons c q3 =>
      rw [← hq2]
      have hq2ne : q2 ≠ [] := by rw [hq2]; simp
      have hstep : enc.step st.n b = some (.mid (p ++ [b])) := by
        rw [hstep0]; exact trieStep_pad_mid hg hpad hsplit hq2ne
      rw [List.cons_append, decodeLoop_cons_continue hstep (nodeV_mid_neg enc _) _ pos]
      have hih := ih (p ++ [b]) (by rw [hsplit]; simp) hq2ne
        { st with n := .mid (p ++ [b]) } (pos + 1) rest (Or.inr (by simp))
      rw [hih]
      have h1 : pos + 1 + q2.length = pos + (b :: q2).length := by simp; omega
      rw [h1]

/-- Feeding the padding bytes to the loop from the padding state walks the
padding path copy under `pad` and resolves value 64 again. -/
theorem walk_pad_pad {enc : Encoding} (hg : Good enc) (hpad : enc.padChar ≠ NoPadding) :
    ∀ (q p : List Nat), enc.padBytes = p ++ q → q ≠ [] →
    ∀ (st : LoopSt) (pos : Nat) (rest : List Nat),
      ((p = [] ∧ st.n = .pad) ∨ (p ≠ [] ∧ st.n = .padMid p)) →
      decodeLoop enc (q ++ rest) pos st =
        contOf enc rest (pos + q.length)
          (resolveValue enc rest (pos + q.length - 1) { st with n := .pad } 64) := by
  intro q
  induction q with
  | nil => intro p _ hq; exact absurd rfl hq
  | cons b q2 ih =>
    intro p hsplit _ st pos rest hstate
    have hstep0 : enc.step st.n b = enc.padStep p b := by
      rcases hstate with ⟨rfl, hroot⟩ | ⟨-, hmid⟩
      · rw [hroot]; rfl
      · rw [hmid]; rfl
    cases hq2 : q2 with
    | nil =>
      subst hq2
      have hstep : enc.step st.n b = some .pad := by
        rw [hstep0]; exact padStep_last hg hpad hsplit
      have hv : ¬ enc.nodeV .pad < 0 := by
        show ¬ (64 : Int) < 0; omega
      rw [List.cons_append, List.nil_append,
          decodeLoop_cons_resolve hstep hv rest pos]
      rfl
    | cons c q3 =>
      rw [← hq2]
      have hq2ne : q2 ≠ [] := by rw [hq2]; simp
      have hstep : enc.step st.n b = some (.padMid (p ++ [b])) := by
        rw [hstep0]; exact padStep_mid hg hpad hsplit hq2ne
      have hv : enc.nodeV (.padMid (p ++ [b])) < 0 := by
        show (-1 : Int) < 0; omega
      rw [List.cons_append, decodeLoop_cons_continue hstep hv _ pos]
      have hih := ih (p ++ [b]) (by rw [hsplit]; simp) hq2ne
        { st with n := .padMid (p ++ [b]) } (pos + 1) rest (Or.inr (by simp))
      rw [hih]
      have h1 : pos + 1 + q2.length = pos + (b :: q2).length := by simp; omega
      rw [h1]

/-! ### Evaluating the loop body on resolved values -/

theorem fin_cast_ne_64 (i : Fin 64) : ¬ (((i : Nat) : Int) = 64) := by
  have := i.isLt
  omega

theorem byte_fin (i : Fin 64) : byte (i : Nat) = (i : Nat) := by
  have := i.isLt
  unfold byte
  omega

/-- A symbol value lands in a quantum slot other than the last: store and
continue. -/
theorem resolveValue_data_cont (enc : Encoding) (rest : List Nat) (pos : Nat) (st : LoopSt)
    (i : Fin 64) (h4 : (st.j + 1) % 4 ≠ 0) :
    resolveValue enc rest pos st ((i : Nat) : Int) =
      .inr ⟨st.n, st.padCount, st.lastBlock,
            if enc.nodeV st.n < 64 then pos + 1 else st.lastRune,
            st.j + 1, st.dbuf.set (st.j % 4) (i : Nat), st.out⟩ := by
  unfold resolveValue
  rw [if_neg (by rw [not_and_or]; left; exact fin_cast_ne_64 i)]
  simp only [fin_cast_ne_64 i, if_false, if_neg h4, Int.toNat_natCast, byte_fin]

/-- A symbol value completes a quantum with no padding seen: store, emit the
three data bytes, and continue. -/
theorem resolveValue_data_block0 (enc : Encoding) (rest : List Nat) (pos : Nat) (st : LoopSt)
    (i : Fin 64) (h4 : (st.j + 1) % 4 = 0) (hpc : st.padCount = 0) :
    resolveValue enc rest pos st ((i : Nat) : Int) =
      .inr ⟨st.n, 0, pos + 1,
            if enc.nodeV st.n < 64 then pos + 1 else st.lastRune,
            st.j + 1, st.dbuf.set (st.j % 4) (i : Nat),
            st.out ++ [byte ((st.dbuf.set (st.j % 4) (i : Nat)).val >>> 16),
                       byte ((st.dbuf.set (st.j % 4) (i : Nat)).val >>> 8),
                       byte ((st.dbuf.set (st.j % 4) (i : Nat)).val)]⟩ := by
  unfold resolveValue
  rw [if_neg (by rw [not_and_or]; left; exact fin_cast_ne_64 i)]
  simp only [fin_cast_ne_64 i, if_false, if_pos h4, Int.toNat_natCast, byte_fin, hpc]

/-- A padding value in quantum slot 0 or 1: incorrect padding. -/
theorem resolveValue_pad_err (enc : Encoding) (rest : List Nat) (pos : Nat) (st : LoopSt)
    (hj : st.j % 4 = 0 ∨ st.j % 4 = 1) :
    resolveValue enc rest pos st 64 = .inl (.err st.out st.lastRune) := by
  unfold resolveValue
  rw [if_pos ⟨rfl, hj⟩]

/-- A padding value in quantum slot 2: count it, store 0, continue. -/
theorem resolveValue_pad_cont (enc : Encoding) (rest : List Nat) (pos : Nat) (st : LoopSt)
    (hj : st.j % 4 = 2) :
    resolveValue enc rest pos st 64 =
      .inr ⟨st.n, st.padCount + 1, st.lastBlock,
            if enc.nodeV st.n < 64 then pos + 1 else st.lastRune,
            st.j + 1, st.dbuf.set 2 0, st.out⟩ := by
  unfold resolveValue
  rw [if_neg (by rw [hj]; rintro ⟨-, h⟩; omega)]
  have h4 : (st.j + 1) % 4 ≠ 0 := by omega
  simp only [if_pos rfl, if_neg h4, hj]
  rfl

/-- A padding value completes the quantum as its only padding (3 data
symbols + 1 padding): emit two bytes, check strict slack, break. -/
theorem resolveValue_pad_block1 (enc : Encoding) (rest : List Nat) (pos : Nat) (st : LoopSt)
    (hj : st.j % 4 = 3) (hpc : st.padCount = 0) :
    resolveValue enc rest pos st 64 =
      (if enc.strict ∧ (st.dbuf.set 3 0).val &&& 0xFF ≠ 0 then
        .inl (.err (st.out ++ [byte ((st.dbuf.set 3 0).val >>> 16),
                               byte ((st.dbuf.set 3 0).val >>> 8)]) st.lastRune)
      else
        .inl (.brk ⟨st.n, 1, pos + 1, st.lastRune, st.j + 1, st.dbuf.set 3 0,
                    st.out ++ [byte ((st.dbuf.set 3 0).val >>> 16),
                               byte ((st.dbuf.set 3 0).val >>> 8)]⟩ (pos + 1) rest)) := by
  unfold resolveValue
  rw [if_neg (by rw [hj]; rintro ⟨-, h⟩; omega)]
  have h4 : (st.j + 1) % 4 = 0 := by omega
  simp only [if_pos rfl, if_pos h4, hj, hpc]
  rfl

/-- A padding value completes the quantum as its second padding (2 data
symbols + 2 paddings): emit one byte, check strict slack, break. -/
theorem resolveValue_pad_block2 (enc : Encoding) (rest : List Nat) (pos : Nat) (st : LoopSt)
    (hj : st.j % 4 = 3) (hpc : st.padCount = 1) :
    resolveValue enc rest pos st 64 =
      (if enc.strict ∧ (st.dbuf.set 3 0).val &&& 0xFFFF ≠ 0 then
        .inl (.err (st.out ++ [byte ((st.dbuf.set 3 0).val >>> 16)]) st.lastRune)
      else
        .inl (.brk ⟨st.n, 2, pos + 1, st.lastRune, st.j + 1, st.dbuf.set 3 0,
                    st.out ++ [byte ((st.dbuf.set 3 0).val >>> 16)]⟩ (pos + 1) rest)) := by
  unfold resolveValue
  rw [if_neg (by rw [hj]; rintro ⟨-, h⟩; omega)]
  have h4 : (st.j + 1) % 4 = 0 := by omega
  simp only [if_pos rfl, if_pos h4, hj, hpc]
  rfl

theorem nodeV_term_lt64 (enc : Encoding) (i : Fin 64) : enc.nodeV (.term i) < 64 := by
  rw [nodeV_term]
  have := i.isLt
  omega

theorem nodeV_pad_not_lt64 (enc : Encoding) : ¬ enc.nodeV .pad < 64 := by
  show ¬ (64 : Int) < 64
  omega

/-- Consuming one full symbol in quantum slot 0, 1 or 2 from a root-like
state: the loop advances past its bytes, stores its value, and records the
position after it as `lastRune`. -/
theorem consume_data {enc : Encoding} (hg : Good enc) (i : Fin 64) (st : LoopSt)
    (pos : Nat) (rest : List Nat) (hroot : RootLike st.n) (h4 : (st.j + 1) % 4 ≠ 0) :
    decodeLoop enc (enc.encode i ++ rest) pos st =
      decodeLoop enc rest (pos + (enc.encode i).length)
        ⟨.term i, st.padCount, st.lastBlock, pos + (enc.encode i).length, st.j + 1,
         st.dbuf.set (st.j % 4) (i : Nat), st.out⟩ := by
  have hne := hg.1 i
  have hL : 0 < (enc.encode i).length := List.length_pos.mpr hne
  rw [walk_entry hg i (enc.encode i) [] (by simp) hne st pos rest (Or.inl ⟨rfl, hroot⟩),
      resolveValue_data_cont enc rest (pos + (enc.encode i).length - 1) ⟨.term i, st.padCount, st.lastBlock, st.lastRune, st.j, st.dbuf, st.out⟩ i h4]
  simp only [contOf]
  rw [if_pos (nodeV_term_lt64 enc i)]
  have harith : pos + (enc.encode i).length - 1 + 1 = pos + (enc.encode i).length := by omega
  rw [harith]

/-- Consuming one full symbol in quantum slot 3 with no padding seen: the
quantum completes and its three data bytes are emitted. -/
theorem consume_data_block {enc : Encoding} (hg : Good enc) (i : Fin 64) (st : LoopSt)
    (pos : Nat) (rest : List Nat) (hroot : RootLike st.n) (h4 : (st.j + 1) % 4 = 0)
    (hpc : st.padCount = 0) :
    decodeLoop enc (enc.encode i ++ rest) pos st =
      decodeLoop enc rest (pos + (enc.encode i).length)
        ⟨.term i, 0, pos + (enc.encode i).length, pos + (enc.encode i).length, st.j + 1,
         st.dbuf.set (st.j % 4) (i : Nat),
         st.out ++ [byte ((st.dbuf.set (st.j % 4) (i : Nat)).val >>> 16),
                    byte ((st.dbuf.set (st.j % 4) (i : Nat)).val >>> 8),
                    byte ((st.dbuf.set (st.j % 4) (i : Nat)).val)]⟩ := by
  have hne := hg.1 i
  have hL : 0 < (enc.encode i).length := List.length_pos.mpr hne
  rw [walk_entry hg i (enc.encode i) [] (by simp) hne st pos rest (Or.inl ⟨rfl, hroot⟩),
      resolveValue_data_block0 enc rest (pos + (enc.encode i).length - 1) ⟨.term i, st.padCount, st.lastBlock, st.lastRune, st.j, st.dbuf, st.out⟩ i h4 hpc]
  simp only [contOf]
  rw [if_pos (nodeV_term_lt64 enc i)]
  have harith : pos + (enc.encode i).length - 1 + 1 = pos + (enc.encode i).length := by omega
  rw [harith]

/-- Consuming the padding symbol in quantum slot 2 from a root-like state:
the padding is counted, slot 2 stores 0, `lastRune` is not advanced. -/
theorem consume_pad_slot2 {enc : Encoding} (hg : Good enc) (hpad : enc.padChar ≠ NoPadding)
    (st : LoopSt) (pos : Nat) (rest : List Nat) (hroot : RootLike st.n) (hj : st.j % 4 = 2) :
    decodeLoop enc (enc.padBytes ++ rest) pos st =
      decodeLoop enc rest (pos + enc.padBytes.length)
        ⟨.pad, st.padCount + 1, st.lastBlock, st.lastRune, st.j + 1,
         st.dbuf.set 2 0, st.out⟩ := by
  have hne := (hg.2.2.2 hpad).1
  rw [walk_pad_root hg hpad enc.padBytes [] (by simp) hne st pos rest (Or.inl ⟨rfl, hroot⟩),
      resolveValue_pad_cont enc rest (pos + enc.padBytes.length - 1) ⟨.pad, st.padCount, st.lastBlock, st.lastRune, st.j, st.dbuf, st.out⟩ hj]
  simp only [contOf]
  rw [if_neg (nodeV_pad_not_lt64 enc)]

/-- Consuming the padding symbol in quantum slot 3 from the padding state,
as the second padding of its quantum: the quantum completes with one data
byte (strict decoding additionally requires zero low slack). -/
theorem consume_pad_slot3_pad {enc : Encoding} (hg : Good enc) (hpad : enc.padChar ≠ NoPadding)
    (st : LoopSt) (pos : Nat) (rest : List Nat) (hn : st.n = .pad) (hj : st.j % 4 = 3)
    (hpc : st.padCount = 1) :
    decodeLoop enc (enc.padBytes ++ rest) pos st =
      (if enc.strict ∧ (st.dbuf.set 3 0).val &&& 0xFFFF ≠ 0 then
        .err (st.out ++ [byte ((st.dbuf.set 3 0).val >>> 16)]) st.lastRune
      else
        .brk ⟨.pad, 2, pos + enc.padBytes.length, st.lastRune, st.j + 1, st.dbuf.set 3 0,
              st.out ++ [byte ((st.dbuf.set 3 0).val >>> 16)]⟩
          (pos + enc.padBytes.length) rest) := by
  have hne := (hg.2.2.2 hpad).1
  have hL : 0 < enc.padBytes.length := List.length_pos.mpr hne
  rw [walk_pad_pad hg hpad enc.padBytes [] (by simp) hne st pos rest (Or.inl ⟨rfl, hn⟩),
      resolveValue_pad_block2 enc rest (pos + enc.padBytes.length - 1) ⟨.pad, st.padCount, st.lastBlock, st.lastRune, st.j, st.dbuf, st.out⟩ hj hpc]
  have harith : pos + enc.padBytes.length - 1 + 1 = pos + enc.padBytes.length := by omega
  rw [harith]
  split <;> rfl

/-- Consuming the padding symbol in quantum slot 3 from a root-like state,
as the only padding of its quantum: the quantum completes with two data
bytes (strict decoding additionally requires zero low slack). -/
theorem consume_pad_slot3_root {enc : Encoding} (hg : Good enc) (hpad : enc.padChar ≠ NoPadding)
    (st : LoopSt) (pos : Nat) (rest : List Nat) (hroot : RootLike st.n) (hj : st.j % 4 = 3)
    (hpc : st.padCount = 0) :
    decodeLoop enc (enc.padBytes ++ rest) pos st =
      (if enc.strict ∧ (st.dbuf.set 3 0).val &&& 0xFF ≠ 0 then
        .err (st.out ++ [byte ((st.dbuf.set 3 0).val >>> 16),
                         byte ((st.dbuf.set 3 0).val >>> 8)]) st.lastRune
      else
        .brk ⟨.pad, 1, pos + enc.padBytes.length, st.lastRune, st.j + 1, st.dbuf.set 3 0,
              st.out ++ [byte ((st.dbuf.set 3 0).val >>> 16),
                         byte ((st.dbuf.set 3 0).val >>> 8)]⟩
          (pos + enc.padBytes.length) rest) := by
  have hne := (hg.2.2.2 hpad).1
  have hL : 0 < enc.padBytes.length := List.length_pos.mpr hne
  rw [walk_pad_root hg hpad enc.padBytes [] (by simp) hne st pos rest (Or.inl ⟨rfl, hroot⟩),
      resolveValue_pad_block1 enc rest (pos + enc.padBytes.length - 1) ⟨.pad, st.padCount, st.lastBlock, st.lastRune, st.j, st.dbuf, st.out⟩ hj hpc]
  have harith : pos + enc.padBytes.length - 1 + 1 = pos + enc.padBytes.length := by omega
  rw [harith]
  split <;> rfl

/-! ### Packing and unpacking arithmetic -/

theorem pack3_eq (b0 b1 b2 : Nat) (h1 : b1 < 256) (h2 : b2 < 256) :
    ((b0 <<< 16) ||| (b1 <<< 8)) ||| b2 = b0 * 65536 + b1 * 256 + b2 := by
  have p16 : (2 : Nat) ^ 16 = 65536 := by norm_num
  have p8 : (2 : Nat) ^ 8 = 256 := by norm_num
  rw [Nat.shiftLeft_eq, Nat.shiftLeft_eq, p16, p8]
  have e1 : b0 * 65536 ||| b1 * 256 = b0 * 65536 + b1 * 256 := by
    have h := lor_mul_pow b0 (b1 * 256) 16 (by rw [p16]; omega)
    rw [p16] at h
    exact h
  rw [e1]
  have e2 : b0 * 65536 + b1 * 256 = (b0 * 256 + b1) * 256 := by ring
  rw [e2]
  have h3 := lor_mul_pow (b0 * 256 + b1) b2 8 (by rw [p8]; omega)
  rw [p8] at h3
  rw [h3]

theorem pack2_eq (b0 b1 : Nat) (h1 : b1 < 256) :
    (b0 <<< 16) ||| (b1 <<< 8) = b0 * 65536 + b1 * 256 := by
  have p16 : (2 : Nat) ^ 16 = 65536 := by norm_num
  have p8 : (2 : Nat) ^ 8 = 256 := by norm_num
  rw [Nat.shiftLeft_eq, Nat.shiftLeft_eq, p16, p8]
  have h := lor_mul_pow b0 (b1 * 256) 16 (by rw [p16]; omega)
  rw [p16] at h
  exact h

theorem shiftl16_eq (b0 : Nat) : b0 <<< 16 = b0 * 65536 := by
  rw [Nat.shiftLeft_eq]

theorem Dbuf.val_eq (d : Dbuf) (h1 : d.d1 < 64) (h2 : d.d2 < 64) (h3 : d.d3 < 64) :
    d.val = d.d0 * 262144 + d.d1 * 4096 + d.d2 * 64 + d.d3 := by
  unfold Dbuf.val
  have p18 : (2 : Nat) ^ 18 = 262144 := by norm_num
  have p12 : (2 : Nat) ^ 12 = 4096 := by norm_num
  have p6 : (2 : Nat) ^ 6 = 64 := by norm_num
  rw [Nat.shiftLeft_eq, Nat.shiftLeft_eq, Nat.shiftLeft_eq, p18, p12, p6]
  have e1 : d.d0 * 262144 ||| d.d1 * 4096 = d.d0 * 262144 + d.d1 * 4096 := by
    have h := lor_mul_pow d.d0 (d.d1 * 4096) 18 (by rw [p18]; omega)
    rw [p18] at h
    exact h
  rw [e1]
  have e2 : d.d0 * 262144 + d.d1 * 4096 = (d.d0 * 64 + d.d1) * 4096 := by ring
  rw [e2]
  have e3 : (d.d0 * 64 + d.d1) * 4096 ||| d.d2 * 64 = (d.d0 * 64 + d.d1) * 4096 + d.d2 * 64 := by
    have h := lor_mul_pow (d.d0 * 64 + d.d1) (d.d2 * 64) 12 (by rw [p12]; omega)
    rw [p12] at h
    exact h
  rw [e3]
  have e4 : (d.d0 * 64 + d.d1) * 4096 + d.d2 * 64 = ((d.d0 * 64 + d.d1) * 64 + d.d2) * 64 := by
    ring
  rw [e4]
  have e5 := lor_mul_pow ((d.d0 * 64 + d.d1) * 64 + d.d2) d.d3 6 (by rw [p6]; omega)
  rw [p6] at e5
  rw [e5]

theorem shiftr_16 (x : Nat) : x >>> 16 = x / 65536 := by
  rw [Nat.shiftRight_eq_div_pow]

theorem shiftr_8 (x : Nat) : x >>> 8 = x / 256 := by
  rw [Nat.shiftRight_eq_div_pow]

theorem shiftr_18 (x : Nat) : x >>> 18 = x / 262144 := by
  rw [Nat.shiftRight_eq_div_pow]

theorem shiftr_12 (x : Nat) : x >>> 12 = x / 4096 := by
  rw [Nat.shiftRight_eq_div_pow]

theorem shiftr_6 (x : Nat) : x >>> 6 = x / 64 := by
  rw [Nat.shiftRight_eq_div_pow]

/-! ### Consume lemmas with exploded state fields (for syntactic chaining) -/

theorem consume_dataE {enc : Encoding} (hg : Good enc) (i : Fin 64) (n0 : DState)
    (pc lb lr j0 : Nat) (db : Dbuf) (out : List Nat) (pos : Nat) (rest : List Nat)
    (hroot : RootLike n0) (h4 : (j0 + 1) % 4 ≠ 0) :
    decodeLoop enc (enc.encode i ++ rest) pos ⟨n0, pc, lb, lr, j0, db, out⟩ =
      decodeLoop enc rest (pos + (enc.encode i).length)
        ⟨.term i, pc, lb, pos + (enc.encode i).length, j0 + 1, db.set (j0 % 4) (i : Nat), out⟩ :=
  consume_data hg i ⟨n0, pc, lb, lr, j0, db, out⟩ pos rest hroot h4

theorem consume_data_blockE {enc : Encoding} (hg : Good enc) (i : Fin 64) (n0 : DState)
    (lb lr j0 : Nat) (db : Dbuf) (out : List Nat) (pos : Nat) (rest : List Nat)
    (hroot : RootLike n0) (h4 : (j0 + 1) % 4 = 0) :
    decodeLoop enc (enc.encode i ++ rest) pos ⟨n0, 0, lb, lr, j0, db, out⟩ =
      decodeLoop enc rest (pos + (enc.encode i).length)
        ⟨.term i, 0, pos + (enc.encode i).length, pos + (enc.encode i).length, j0 + 1,
         db.set (j0 % 4) (i : Nat),
         out ++ [byte ((db.set (j0 % 4) (i : Nat)).val >>> 16),
                 byte ((db.set (j0 % 4) (i : Nat)).val >>> 8),
                 byte ((db.set (j0 % 4) (i : Nat)).val)]⟩ :=
  consume_data_block hg i ⟨n0, 0, lb, lr, j0, db, out⟩ pos rest hroot h4 rfl

theorem consume_pad_slot2E {enc : Encoding} (hg : Good enc) (hpad : enc.padChar ≠ NoPadding)
    (n0 : DState) (pc lb lr j0 : Nat) (db : Dbuf) (out : List Nat) (pos : Nat) (rest : List Nat)
    (hroot : RootLike n0) (hj : j0 % 4 = 2) :
    decodeLoop enc (enc.padBytes ++ rest) pos ⟨n0, pc, lb, lr, j0, db, out⟩ =
      decodeLoop enc rest (pos + enc.padBytes.length)
        ⟨.pad, pc + 1, lb, lr, j0 + 1, db.set 2 0, out⟩ :=
  consume_pad_slot2 hg hpad ⟨n0, pc, lb, lr, j0, db, out⟩ pos rest hroot hj

theorem consume_pad_slot3_padE {enc : Encoding} (hg : Good enc) (hpad : enc.padChar ≠ NoPadding)
    (lb lr j0 : Nat) (db : Dbuf) (out : List Nat) (pos : Nat) (rest : List Nat)
    (hj : j0 % 4 = 3) :
    decodeLoop enc (enc.padBytes ++ rest) pos ⟨.pad, 1, lb, lr, j0, db, out⟩ =
      (if enc.strict ∧ (db.set 3 0).val &&& 0xFFFF ≠ 0 then
        .err (out ++ [byte ((db.set 3 0).val >>> 16)]) lr
      else
        .brk ⟨.pad, 2, pos + enc.padBytes.length, lr, j0 + 1, db.set 3 0,
              out ++ [byte ((db.set 3 0).val >>> 16)]⟩ (pos + enc.padBytes.length) rest) :=
  consume_pad_slot3_pad hg hpad ⟨.pad, 1, lb, lr, j0, db, out⟩ pos rest rfl hj rfl

theorem consume_pad_slot3_rootE {enc : Encoding} (hg : Good enc) (hpad : enc.padChar ≠ NoPadding)
    (n0 : DState) (lb lr j0 : Nat) (db : Dbuf) (out : List Nat) (pos : Nat) (rest : List Nat)
    (hroot : RootLike n0) (hj : j0 % 4 = 3) :
    decodeLoop enc (enc.padBytes ++ rest) pos ⟨n0, 0, lb, lr, j0, db, out⟩ =
      (if enc.strict ∧ (db.set 3 0).val &&& 0xFF ≠ 0 then
        .err (out ++ [byte ((db.set 3 0).val >>> 16), byte ((db.set 3 0).val >>> 8)]) lr
      else
        .brk ⟨.pad, 1, pos + enc.padBytes.length, lr, j0 + 1, db.set 3 0,
              out ++ [byte ((db.set 3 0).val >>> 16), byte ((db.set 3 0).val >>> 8)]⟩
          (pos + enc.padBytes.length) rest) :=
  consume_pad_slot3_root hg hpad ⟨n0, 0, lb, lr, j0, db, out⟩ pos rest hroot hj rfl

theorem Dbuf.set_chain (d : Dbuf) (a b c e : Nat) :
    (((d.set 0 a).set 1 b).set 2 c).set 3 e = ⟨a, b, c, e⟩ := rfl

/-! ### One full quantum of four data symbols decodes to its three bytes -/

theorem decode_quantum {enc : Encoding} (hg : Good enc) (g0 g1 g2 g3 : Fin 64)
    (n0 : DState) (lb lr j0 : Nat) (db : Dbuf) (out : List Nat) (pos : Nat) (rest : List Nat)
    (hroot : RootLike n0) (hj : j0 % 4 = 0) :
    decodeLoop enc
      (enc.encode g0 ++ (enc.encode g1 ++ (enc.encode g2 ++ (enc.encode g3 ++ rest)))) pos
      ⟨n0, 0, lb, lr, j0, db, out⟩ =
      decodeLoop enc rest
        (pos + (enc.encode g0).length + (enc.encode g1).length + (enc.encode g2).length +
          (enc.encode g3).length)
        ⟨.term g3, 0,
         pos + (enc.encode g0).length + (enc.encode g1).length + (enc.encode g2).length +
           (enc.encode g3).length,
         pos + (enc.encode g0).length + (enc.encode g1).length + (enc.encode g2).length +
           (enc.encode g3).length,
         j0 + 4, ⟨(g0 : Nat), (g1 : Nat), (g2 : Nat), (g3 : Nat)⟩,
         out ++ [byte ((Dbuf.mk (g0 : Nat) (g1 : Nat) (g2 : Nat) (g3 : Nat)).val >>> 16),
                 byte ((Dbuf.mk (g0 : Nat) (g1 : Nat) (g2 : Nat) (g3 : Nat)).val >>> 8),
                 byte ((Dbuf.mk (g0 : Nat) (g1 : Nat) (g2 : Nat) (g3 : Nat)).val)]⟩ := by
  rw [consume_dataE hg g0 n0 0 lb lr j0 db out pos _ hroot (by omega)]
  rw [consume_dataE hg g1 (.term g0) 0 lb (pos + (enc.encode g0).length) (j0 + 1)
      (db.set (j0 % 4) (g0 : Nat)) out (pos + (enc.encode g0).length) _
      (Or.inr ⟨g0, rfl⟩) (by omega)]
  rw [consume_dataE hg g2 (.term g1) 0 lb
      (pos + (enc.encode g0).length + (enc.encode g1).length) (j0 + 1 + 1)
      ((db.set (j0 % 4) (g0 : Nat)).set ((j0 + 1) % 4) (g1 : Nat)) out
      (pos + (enc.encode g0).length + (enc.encode g1).length) _
      (Or.inr ⟨g1, rfl⟩) (by omega)]
  rw [consume_data_blockE hg g3 (.term g2)
      lb (pos + (enc.encode g0).length + (enc.encode g1).length + (enc.encode g2).length)
      (j0 + 1 + 1 + 1)
      (((db.set (j0 % 4) (g0 : Nat)).set ((j0 + 1) % 4) (g1 : Nat)).set ((j0 + 1 + 1) % 4) (g2 : Nat))
      out (pos + (enc.encode g0).length + (enc.encode g1).length + (enc.encode g2).length) rest
      (Or.inr ⟨g2, rfl⟩) (by omega)]
  have e0 : j0 % 4 = 0 := hj
  have e1 : (j0 + 1) % 4 = 1 := by omega
  have e2 : (j0 + 1 + 1) % 4 = 2 := by omega
  have e3 : (j0 + 1 + 1 + 1) % 4 = 3 := by omega
  rw [e0, e1, e2, e3, Dbuf.set_chain]

theorem encodeBlocks_cons (enc : Encoding) (b0 b1 b2 : Nat) (tl : List Nat) :
    encodeBlocks enc (b0 :: b1 :: b2 :: tl) =
      enc.encode (g6 (((b0 <<< 16) ||| (b1 <<< 8)) ||| b2) 18) ++
      (enc.encode (g6 (((b0 <<< 16) ||| (b1 <<< 8)) ||| b2) 12) ++
      (enc.encode (g6 (((b0 <<< 16) ||| (b1 <<< 8)) ||| b2) 6) ++
      (enc.encode (g6 (((b0 <<< 16) ||| (b1 <<< 8)) ||| b2) 0) ++ encodeBlocks enc tl))) := by
  rw [encodeBlocks]
  simp [List.append_assoc]

/-- Reassembling the four 6-bit groups of a 24-bit value gives it back. -/
theorem unpack_val (v : Nat) (hv : v < 16777216) :
    (Dbuf.mk ((g6 v 18 : Fin 64) : Nat) ((g6 v 12 : Fin 64) : Nat)
             ((g6 v 6 : Fin 64) : Nat) ((g6 v 0 : Fin 64) : Nat)).val = v := by
  have h := Dbuf.val_eq
    (Dbuf.mk ((g6 v 18 : Fin 64) : Nat) ((g6 v 12 : Fin 64) : Nat)
             ((g6 v 6 : Fin 64) : Nat) ((g6 v 0 : Fin 64) : Nat))
    (g6 v 12).isLt (g6 v 6).isLt (g6 v 0).isLt
  rw [h]
  show ((v >>> 18) &&& 0x3F) * 262144 + ((v >>> 12) &&& 0x3F) * 4096 +
    ((v >>> 6) &&& 0x3F) * 64 + ((v >>> 0) &&& 0x3F) = v
  rw [shiftr_18, shiftr_12, shiftr_6, Nat.shiftRight_zero,
      and_63_eq_mod, and_63_eq_mod, and_63_eq_mod, and_63_eq_mod]
  omega

theorem bytes_of_val (v b0 b1 b2 : Nat) (hv : v = b0 * 65536 + b1 * 256 + b2)
    (h0 : b0 < 256) (h1 : b1 < 256) (h2 : b2 < 256) :
    byte (v >>> 16) = b0 ∧ byte (v >>> 8) = b1 ∧ byte v = b2 := by
  unfold byte
  rw [shiftr_16, shiftr_8, hv]
  refine ⟨by omega, by omega, by omega⟩

/-- Decoding the encoding of a whole number of 3-byte blocks from a clean
state consumes it all, emits exactly those bytes, and ends in a clean state
whose `lastBlock`/`lastRune` sit at the end of the consumed bytes. -/
theorem decode_blocks {enc : Encoding} (hg : Good enc) :
    ∀ (src3 : List Nat), src3.length % 3 = 0 → (∀ x ∈ src3, x < 256) →
    ∀ (n0 : DState) (lb lr j0 : Nat) (db : Dbuf) (out : List Nat) (pos : Nat) (rest : List Nat),
      RootLike n0 → j0 % 4 = 0 →
      ∃ st2 : LoopSt,
        decodeLoop enc (encodeBlocks enc src3 ++ rest) pos ⟨n0, 0, lb, lr, j0, db, out⟩
          = decodeLoop enc rest (pos + (encodeBlocks enc src3).length) st2 ∧
        RootLike st2.n ∧ st2.j % 4 = 0 ∧ st2.padCount = 0 ∧ st2.out = out ++ src3 ∧
        (src3 = [] → st2 = ⟨n0, 0, lb, lr, j0, db, out⟩) ∧
        (src3 ≠ [] → st2.lastBlock = pos + (encodeBlocks enc src3).length ∧
          st2.lastRune = pos + (encodeBlocks enc src3).length) := by
  suffices h : ∀ (n : Nat) (src3 : List Nat), src3.length = n → src3.length % 3 = 0 →
      (∀ x ∈ src3, x < 256) →
      ∀ (n0 : DState) (lb lr j0 : Nat) (db : Dbuf) (out : List Nat) (pos : Nat) (rest : List Nat),
      RootLike n0 → j0 % 4 = 0 →
      ∃ st2 : LoopSt,
        decodeLoop enc (encodeBlocks enc src3 ++ rest) pos ⟨n0, 0, lb, lr, j0, db, out⟩
          = decodeLoop enc rest (pos + (encodeBlocks enc src3).length) st2 ∧
        RootLike st2.n ∧ st2.j % 4 = 0 ∧ st2.padCount = 0 ∧ st2.out = out ++ src3 ∧
        (src3 = [] → st2 = ⟨n0, 0, lb, lr, j0, db, out⟩) ∧
        (src3 ≠ [] → st2.lastBlock = pos + (encodeBlocks enc src3).length ∧
          st2.lastRune = pos + (encodeBlocks enc src3).length) by
    intro src3
    exact h src3.length src3 rfl
  intro n
  induction n using Nat.strong_induction_on with
  | _ n ih =>
    intro src3 hn h3 hb n0 lb lr j0 db out pos rest hroot hj
    match src3, hn, h3, hb with
    | [], hn, h3, hb =>
      refine ⟨⟨n0, 0, lb, lr, j0, db, out⟩, ?_, hroot, hj, rfl, by simp, fun _ => rfl, ?_⟩
      · show decodeLoop enc ([] ++ rest) pos _ = decodeLoop enc rest (pos + ([] : List Nat).length) _
        simp
      · intro hne
        exact absurd rfl hne
    | [b0], hn, h3, hb => simp at h3
    | [b0, b1], hn, h3, hb => simp at h3
    | b0 :: b1 :: b2 :: tl, hn, h3, hb =>
      have hb0 : b0 < 256 := hb b0 (by simp)
      have hb1 : b1 < 256 := hb b1 (by simp)
      have hb2 : b2 < 256 := hb b2 (by simp)
      have hvlt : ((b0 <<< 16) ||| (b1 <<< 8)) ||| b2 < 16777216 := by
        rw [pack3_eq b0 b1 b2 hb1 hb2]
        omega
      rw [encodeBlocks_cons]
      rw [show (enc.encode (g6 (((b0 <<< 16) ||| (b1 <<< 8)) ||| b2) 18) ++
          (enc.encode (g6 (((b0 <<< 16) ||| (b1 <<< 8)) ||| b2) 12) ++ (enc.encode (g6 (((b0 <<< 16) ||| (b1 <<< 8)) ||| b2) 6) ++ (enc.encode (g6 (((b0 <<< 16) ||| (b1 <<< 8)) ||| b2) 0) ++
            encodeBlocks enc tl)))) ++ rest =
          enc.encode (g6 (((b0 <<< 16) ||| (b1 <<< 8)) ||| b2) 18) ++
          (enc.encode (g6 (((b0 <<< 16) ||| (b1 <<< 8)) ||| b2) 12) ++ (enc.encode (g6 (((b0 <<< 16) ||| (b1 <<< 8)) ||| b2) 6) ++ (enc.encode (g6 (((b0 <<< 16) ||| (b1 <<< 8)) ||| b2) 0) ++
            (encodeBlocks enc tl ++ rest)))) from by simp [List.append_assoc]]
      rw [decode_quantum hg (g6 (((b0 <<< 16) ||| (b1 <<< 8)) ||| b2) 18) (g6 (((b0 <<< 16) ||| (b1 <<< 8)) ||| b2) 12) (g6 (((b0 <<< 16) ||| (b1 <<< 8)) ||| b2) 6) (g6 (((b0 <<< 16) ||| (b1 <<< 8)) ||| b2) 0) n0 lb lr j0 db out pos
          (encodeBlocks enc tl ++ rest) hroot hj]
      have hbytes : [byte ((Dbuf.mk ((g6 (((b0 <<< 16) ||| (b1 <<< 8)) ||| b2) 18 : Fin 64) : Nat) ((g6 (((b0 <<< 16) ||| (b1 <<< 8)) ||| b2) 12 : Fin 64) : Nat)
            ((g6 (((b0 <<< 16) ||| (b1 <<< 8)) ||| b2) 6 : Fin 64) : Nat) ((g6 (((b0 <<< 16) ||| (b1 <<< 8)) ||| b2) 0 : Fin 64) : Nat)).val >>> 16),
          byte ((Dbuf.mk ((g6 (((b0 <<< 16) ||| (b1 <<< 8)) ||| b2) 18 : Fin 64) : Nat) ((g6 (((b0 <<< 16) ||| (b1 <<< 8)) ||| b2) 12 : Fin 64) : Nat)
            ((g6 (((b0 <<< 16) ||| (b1 <<< 8)) ||| b2) 6 : Fin 64) : Nat) ((g6 (((b0 <<< 16) ||| (b1 <<< 8)) ||| b2) 0 : Fin 64) : Nat)).val >>> 8),
          byte ((Dbuf.mk ((g6 (((b0 <<< 16) ||| (b1 <<< 8)) ||| b2) 18 : Fin 64) : Nat) ((g6 (((b0 <<< 16) ||| (b1 <<< 8)) ||| b2) 12 : Fin 64) : Nat)
            ((g6 (((b0 <<< 16) ||| (b1 <<< 8)) ||| b2) 6 : Fin 64) : Nat) ((g6 (((b0 <<< 16) ||| (b1 <<< 8)) ||| b2) 0 : Fin 64) : Nat)).val)] = [b0, b1, b2] := by
        rw [unpack_val (((b0 <<< 16) ||| (b1 <<< 8)) ||| b2) hvlt]
        obtain ⟨e0, e1, e2⟩ := bytes_of_val (((b0 <<< 16) ||| (b1 <<< 8)) ||| b2) b0 b1 b2 (pack3_eq b0 b1 b2 hb1 hb2)
          hb0 hb1 hb2
        rw [e0, e1, e2]
      rw [hbytes]
      have htl3 : tl.length % 3 = 0 := by
        simp only [List.length_cons] at h3
        omega
      have htlb : ∀ x ∈ tl, x < 256 := fun x hx => hb x (by simp [hx])
      have htln : tl.length < n := by
        simp only [List.length_cons] at hn
        omega
      obtain ⟨st2, heq, hr2, hj2, hpc2, hout2, hemp2, hne2⟩ :=
        ih tl.length htln tl rfl htl3 htlb (.term (g6 (((b0 <<< 16) ||| (b1 <<< 8)) ||| b2) 0))
          (pos + (enc.encode (g6 (((b0 <<< 16) ||| (b1 <<< 8)) ||| b2) 18)).length + (enc.encode (g6 (((b0 <<< 16) ||| (b1 <<< 8)) ||| b2) 12)).length +
            (enc.encode (g6 (((b0 <<< 16) ||| (b1 <<< 8)) ||| b2) 6)).length + (enc.encode (g6 (((b0 <<< 16) ||| (b1 <<< 8)) ||| b2) 0)).length)
          (pos + (enc.encode (g6 (((b0 <<< 16) ||| (b1 <<< 8)) ||| b2) 18)).length + (enc.encode (g6 (((b0 <<< 16) ||| (b1 <<< 8)) ||| b2) 12)).length +
            (enc.encode (g6 (((b0 <<< 16) ||| (b1 <<< 8)) ||| b2) 6)).length + (enc.encode (g6 (((b0 <<< 16) ||| (b1 <<< 8)) ||| b2) 0)).length)
          (j0 + 4)
          ⟨((g6 (((b0 <<< 16) ||| (b1 <<< 8)) ||| b2) 18 : Fin 64) : Nat), ((g6 (((b0 <<< 16) ||| (b1 <<< 8)) ||| b2) 12 : Fin 64) : Nat),
            ((g6 (((b0 <<< 16) ||| (b1 <<< 8)) ||| b2) 6 : Fin 64) : Nat), ((g6 (((b0 <<< 16) ||| (b1 <<< 8)) ||| b2) 0 : Fin 64) : Nat)⟩
          (out ++ [b0, b1, b2])
          (pos + (enc.encode (g6 (((b0 <<< 16) ||| (b1 <<< 8)) ||| b2) 18)).length + (enc.encode (g6 (((b0 <<< 16) ||| (b1 <<< 8)) ||| b2) 12)).length +
            (enc.encode (g6 (((b0 <<< 16) ||| (b1 <<< 8)) ||| b2) 6)).length + (enc.encode (g6 (((b0 <<< 16) ||| (b1 <<< 8)) ||| b2) 0)).length)
          rest (Or.inr ⟨g6 (((b0 <<< 16) ||| (b1 <<< 8)) ||| b2) 0, rfl⟩) (by omega)
      have hlenE : (encodeBlocks enc (b0 :: b1 :: b2 :: tl)).length =
          (enc.encode (g6 (((b0 <<< 16) ||| (b1 <<< 8)) ||| b2) 18)).length + (enc.encode (g6 (((b0 <<< 16) ||| (b1 <<< 8)) ||| b2) 12)).length +
          (enc.encode (g6 (((b0 <<< 16) ||| (b1 <<< 8)) ||| b2) 6)).length + (enc.encode (g6 (((b0 <<< 16) ||| (b1 <<< 8)) ||| b2) 0)).length +
          (encodeBlocks enc tl).length := by
        rw [encodeBlocks_cons]
        simp only [List.length_append]
        omega
      have hpos : pos + (enc.encode (g6 (((b0 <<< 16) ||| (b1 <<< 8)) ||| b2) 18)).length + (enc.encode (g6 (((b0 <<< 16) ||| (b1 <<< 8)) ||| b2) 12)).length +
            (enc.encode (g6 (((b0 <<< 16) ||| (b1 <<< 8)) ||| b2) 6)).length + (enc.encode (g6 (((b0 <<< 16) ||| (b1 <<< 8)) ||| b2) 0)).length +
          (encodeBlocks enc tl).length =
          pos + (encodeBlocks enc (b0 :: b1 :: b2 :: tl)).length := by
        rw [hlenE]
        omega
      refine ⟨st2, ?_, hr2, hj2, hpc2, ?_, ?_, ?_⟩
      · rw [heq, hpos, encodeBlocks_cons]
      · rw [hout2]
        simp
      · intro hcontra
        exact absurd hcontra (by simp)
      · intro _
        rcases List.eq_nil_or_concat tl with htl | htlne
        · subst htl
          have hst2 := hemp2 rfl
          subst hst2
          constructor <;>
          · show pos + (enc.encode (g6 (((b0 <<< 16) ||| (b1 <<< 8)) ||| b2) 18)).length + (enc.encode (g6 (((b0 <<< 16) ||| (b1 <<< 8)) ||| b2) 12)).length +
            (enc.encode (g6 (((b0 <<< 16) ||| (b1 <<< 8)) ||| b2) 6)).length + (enc.encode (g6 (((b0 <<< 16) ||| (b1 <<< 8)) ||| b2) 0)).length = _
            simp only [encodeBlocks, List.length_append, List.length_nil]
            omega
        · obtain ⟨l2, a, rfl⟩ := htlne
          have hne : l2.concat a ≠ ([] : List Nat) := by simp
          obtain ⟨hlb, hlr⟩ := hne2 hne
          rw [hlb, hlr]
          constructor <;> rw [hpos, encodeBlocks_cons]
/-! ### Helpers for the final partial quantum -/

theorem Dbuf.set2_chain (d : Dbuf) (a b : Nat) :
    (d.set 0 a).set 1 b = ⟨a, b, d.d2, d.d3⟩ := rfl

theorem Dbuf.set3_chain (d : Dbuf) (a b c : Nat) :
    ((d.set 0 a).set 1 b).set 2 c = ⟨a, b, c, d.d3⟩ := rfl

theorem Dbuf.zeroFrom_two (d : Dbuf) : d.zeroFrom 2 = ⟨d.d0, d.d1, 0, 0⟩ := rfl

theorem Dbuf.zeroFrom_three (d : Dbuf) : d.zeroFrom 3 = ⟨d.d0, d.d1, d.d2, 0⟩ := rfl

theorem rootLike_nodeV {enc : Encoding} {n : DState} (h : RootLike n) :
    ¬ (enc.nodeV n < 0 ∧ enc.nodeV n ≠ -1) := by
  rcases h with h | ⟨i, h⟩ <;> subst h
  · rintro ⟨-, hne⟩
    exact hne rfl
  · rintro ⟨hlt, -⟩
    rw [nodeV_term] at hlt
    omega

theorem pad_nodeV_ok (enc : Encoding) :
    ¬ (enc.nodeV .pad < 0 ∧ enc.nodeV .pad ≠ -1) := by
  rintro ⟨hlt, -⟩
  exact absurd hlt (by show ¬ (64 : Int) < 0; omega)

/-- Arithmetic of a 1-leftover-byte quantum: the two symbol groups of
`b0 << 16` reassemble to a value whose top byte is `b0` and whose low 16
bits (the strict-mode slack) are zero. -/
theorem tail1_arith (b0 : Nat) (h0 : b0 < 256) :
    byte ((Dbuf.mk ((g6 (b0 <<< 16) 18 : Fin 64) : Nat) ((g6 (b0 <<< 16) 12 : Fin 64) : Nat)
      0 0).val >>> 16) = b0 ∧
    (Dbuf.mk ((g6 (b0 <<< 16) 18 : Fin 64) : Nat) ((g6 (b0 <<< 16) 12 : Fin 64) : Nat)
      0 0).val &&& 0xFFFF = 0 := by
  have hval := Dbuf.val_eq (Dbuf.mk ((g6 (b0 <<< 16) 18 : Fin 64) : Nat)
    ((g6 (b0 <<< 16) 12 : Fin 64) : Nat) 0 0) (g6 (b0 <<< 16) 12).isLt
    (by show (0 : Nat) < 64; omega) (by show (0 : Nat) < 64; omega)
  rw [hval]
  show byte (((((b0 <<< 16) >>> 18) &&& 0x3F) * 262144 + (((b0 <<< 16) >>> 12) &&& 0x3F) * 4096 +
      0 * 64 + 0) >>> 16) = b0 ∧
    ((((b0 <<< 16) >>> 18) &&& 0x3F) * 262144 + (((b0 <<< 16) >>> 12) &&& 0x3F) * 4096 +
      0 * 64 + 0) &&& 0xFFFF = 0
  rw [shiftl16_eq, shiftr_18, shiftr_12, and_63_eq_mod, and_63_eq_mod]
  unfold byte
  rw [shiftr_16, and_0xFFFF_eq_mod]
  constructor
  · omega
  · omega

/-- Arithmetic of a 2-leftover-byte quantum: the three symbol groups of
`b0 << 16 | b1 << 8` reassemble to a value whose top bytes are `b0 b1` and
whose low 8 bits (the strict-mode slack) are zero. -/
theorem tail2_arith (b0 b1 : Nat) (h0 : b0 < 256) (h1 : b1 < 256) :
    byte ((Dbuf.mk ((g6 ((b0 <<< 16) ||| (b1 <<< 8)) 18 : Fin 64) : Nat)
      ((g6 ((b0 <<< 16) ||| (b1 <<< 8)) 12 : Fin 64) : Nat)
      ((g6 ((b0 <<< 16) ||| (b1 <<< 8)) 6 : Fin 64) : Nat) 0).val >>> 16) = b0 ∧
    byte ((Dbuf.mk ((g6 ((b0 <<< 16) ||| (b1 <<< 8)) 18 : Fin 64) : Nat)
      ((g6 ((b0 <<< 16) ||| (b1 <<< 8)) 12 : Fin 64) : Nat)
      ((g6 ((b0 <<< 16) ||| (b1 <<< 8)) 6 : Fin 64) : Nat) 0).val >>> 8) = b1 ∧
    (Dbuf.mk ((g6 ((b0 <<< 16) ||| (b1 <<< 8)) 18 : Fin 64) : Nat)
      ((g6 ((b0 <<< 16) ||| (b1 <<< 8)) 12 : Fin 64) : Nat)
      ((g6 ((b0 <<< 16) ||| (b1 <<< 8)) 6 : Fin 64) : Nat) 0).val &&& 0xFF = 0 := by
  have hval := Dbuf.val_eq (Dbuf.mk ((g6 ((b0 <<< 16) ||| (b1 <<< 8)) 18 : Fin 64) : Nat)
      ((g6 ((b0 <<< 16) ||| (b1 <<< 8)) 12 : Fin 64) : Nat)
      ((g6 ((b0 <<< 16) ||| (b1 <<< 8)) 6 : Fin 64) : Nat) 0)
    (g6 ((b0 <<< 16) ||| (b1 <<< 8)) 12).isLt (g6 ((b0 <<< 16) ||| (b1 <<< 8)) 6).isLt
    (by show (0 : Nat) < 64; omega)
  rw [hval]
  show byte ((((((b0 <<< 16) ||| (b1 <<< 8)) >>> 18) &&& 0x3F) * 262144 +
      ((((b0 <<< 16) ||| (b1 <<< 8)) >>> 12) &&& 0x3F) * 4096 +
      ((((b0 <<< 16) ||| (b1 <<< 8)) >>> 6) &&& 0x3F) * 64 + 0) >>> 16) = b0 ∧
    byte ((((((b0 <<< 16) ||| (b1 <<< 8)) >>> 18) &&& 0x3F) * 262144 +
      ((((b0 <<< 16) ||| (b1 <<< 8)) >>> 12) &&& 0x3F) * 4096 +
      ((((b0 <<< 16) ||| (b1 <<< 8)) >>> 6) &&& 0x3F) * 64 + 0) >>> 8) = b1 ∧
    (((((b0 <<< 16) ||| (b1 <<< 8)) >>> 18) &&& 0x3F) * 262144 +
      ((((b0 <<< 16) ||| (b1 <<< 8)) >>> 12) &&& 0x3F) * 4096 +
      ((((b0 <<< 16) ||| (b1 <<< 8)) >>> 6) &&& 0x3F) * 64 + 0) &&& 0xFF = 0
  rw [pack2_eq b0 b1 h1, shiftr_18, shiftr_12, shiftr_6, and_63_eq_mod, and_63_eq_mod,
      and_63_eq_mod]
  unfold byte
  rw [shiftr_16, shiftr_8, and_0xFF_eq_mod]
  refine ⟨by omega, by omega, by omega⟩

/-! ### Round-trip: decode of encode -/

theorem roundtrip_case0 {enc : Encoding} (hg : Good enc) (b : List Nat)
    (hb : ∀ x ∈ b, x < 256) (h0 : b.length % 3 = 0) :
    enc.Decode (enc.Encode b) = ⟨b, b.length, none⟩ := by
  have hn : b.length / 3 * 3 = b.length := by omega
  have hEnc : enc.Encode b = encodeBlocks enc b := by
    unfold Encoding.Encode
    rw [hn, List.take_length, List.drop_length]
    simp [encodeTail]
  rw [hEnc]
  obtain ⟨st2, heq, hr2, hj2, hpc2, hout2, -, -⟩ :=
    decode_blocks hg b h0 hb .root 0 0 0 ⟨0, 0, 0, 0⟩ [] 0 [] (Or.inl rfl) (by omega)
  unfold Encoding.Decode
  rw [show encodeBlocks enc b = encodeBlocks enc b ++ [] from by simp, heq]
  simp only [decodeLoop]
  rw [if_neg (rootLike_nodeV hr2), if_neg (by omega)]
  rw [hout2]
  simp

theorem Dbuf.tail1_chain (d : Dbuf) (a b : Nat) :
    (((d.set 0 a).set 1 b).set 2 0).set 3 0 = ⟨a, b, 0, 0⟩ := rfl

theorem Dbuf.tail2_chain (d : Dbuf) (a b c : Nat) :
    (((d.set 0 a).set 1 b).set 2 c).set 3 0 = ⟨a, b, c, 0⟩ := rfl

theorem Dbuf.tail1_zchain (d : Dbuf) (a b : Nat) :
    ((d.set 0 a).set 1 b).zeroFrom 2 = ⟨a, b, 0, 0⟩ := rfl

theorem Dbuf.tail2_zchain (d : Dbuf) (a b c : Nat) :
    (((d.set 0 a).set 1 b).set 2 c).zeroFrom 3 = ⟨a, b, c, 0⟩ := rfl

theorem roundtrip_case1 {enc : Encoding} (hg : Good enc) (b : List Nat)
    (hb : ∀ x ∈ b, x < 256) (h1 : b.length % 3 = 1) :
    enc.Decode (enc.Encode b) = ⟨b, b.length, none⟩ := by
  have hlen1 : (b.drop (b.length / 3 * 3)).length = 1 := by
    simp only [List.length_drop]
    omega
  obtain ⟨b0, hdrop⟩ := List.length_eq_one.mp hlen1
  have hb0 : b0 < 256 := hb b0 (List.drop_subset _ _ (by rw [hdrop]; simp))
  have htk3 : (b.take (b.length / 3 * 3)).length % 3 = 0 := by
    simp only [List.length_take]
    omega
  have htkb : ∀ x ∈ (b.take (b.length / 3 * 3)), x < 256 := fun x hx => hb x (List.take_subset _ _ hx)
  by_cases hpad : enc.padChar = NoPadding
  · -- no padding: the tail is two bare symbols
    have hEnc : enc.Encode b =
        encodeBlocks enc (b.take (b.length / 3 * 3)) ++
          (enc.encode (g6 (b0 <<< 16) 18) ++ (enc.encode (g6 (b0 <<< 16) 12) ++ [])) := by
      unfold Encoding.Encode
      rw [hdrop]
      show _ ++ encodeTail enc [b0] = _
      rw [encodeTail, if_neg (by simp [hpad])]
      simp [List.append_assoc]
    rw [hEnc]
    unfold Encoding.Decode
    obtain ⟨⟨n2, pc2, lb2, lr2, j2, db2, out2⟩, heq, hr2, hj2, hpc2, hout2, -, -⟩ :=
      decode_blocks hg (b.take (b.length / 3 * 3)) htk3 htkb .root 0 0 0 ⟨0, 0, 0, 0⟩ [] 0
        (enc.encode (g6 (b0 <<< 16) 18) ++ (enc.encode (g6 (b0 <<< 16) 12) ++ [])) (Or.inl rfl) (by omega)
    have hpc2b : pc2 = 0 := hpc2
    subst hpc2b
    have hj2b : j2 % 4 = 0 := hj2
    rw [heq]
    simp only [Nat.zero_add]
    rw [consume_dataE hg (g6 (b0 <<< 16) 18) n2 0 lb2 lr2 j2 db2 out2
        ((encodeBlocks enc (b.take (b.length / 3 * 3))).length) (enc.encode (g6 (b0 <<< 16) 12) ++ []) hr2 (by omega)]
    rw [consume_dataE hg (g6 (b0 <<< 16) 12) (.term (g6 (b0 <<< 16) 18)) 0 lb2 ((encodeBlocks enc (b.take (b.length / 3 * 3))).length + (enc.encode (g6 (b0 <<< 16) 18)).length) (j2 + 1)
        (db2.set (j2 % 4) ((g6 (b0 <<< 16) 18 : Fin 64) : Nat)) out2 ((encodeBlocks enc (b.take (b.length / 3 * 3))).length + (enc.encode (g6 (b0 <<< 16) 18)).length) [] (Or.inr ⟨(g6 (b0 <<< 16) 18), rfl⟩) (by omega)]
    simp only [decodeLoop]
    rw [if_neg (rootLike_nodeV (Or.inr ⟨(g6 (b0 <<< 16) 12), rfl⟩)), if_pos (by omega), if_neg (fun hcon => hcon hpad)]
    have e0 : j2 % 4 = 0 := hj2b
    have e1 : (j2 + 1) % 4 = 1 := by omega
    have e2 : (j2 + 1 + 1) % 4 = 2 := by omega
    rw [e0, e1, e2, Dbuf.tail1_zchain]
    obtain ⟨hbyte, hslack⟩ := tail1_arith b0 hb0
    rw [if_neg (by rintro ⟨-, hs⟩; exact hs hslack)]
    have hout2b : out2 = [] ++ (b.take (b.length / 3 * 3)) := hout2
    rw [hbyte, hout2b]
    have hfin : ([] ++ (b.take (b.length / 3 * 3))) ++ [b0] = b := by
      rw [List.nil_append, ← hdrop, List.take_append_drop]
    rw [hfin]
  · -- padding: the tail is two symbols and two padding characters
    have hEnc : enc.Encode b =
        encodeBlocks enc (b.take (b.length / 3 * 3)) ++
          (enc.encode (g6 (b0 <<< 16) 18) ++ (enc.encode (g6 (b0 <<< 16) 12) ++
            (enc.padBytes ++ (enc.padBytes ++ [])))) := by
      unfold Encoding.Encode
      rw [hdrop]
      show _ ++ encodeTail enc [b0] = _
      rw [encodeTail, if_pos hpad]
      simp [List.append_assoc]
    rw [hEnc]
    unfold Encoding.Decode
    obtain ⟨⟨n2, pc2, lb2, lr2, j2, db2, out2⟩, heq, hr2, hj2, hpc2, hout2, -, -⟩ :=
      decode_blocks hg (b.take (b.length / 3 * 3)) htk3 htkb .root 0 0 0 ⟨0, 0, 0, 0⟩ [] 0
        (enc.encode (g6 (b0 <<< 16) 18) ++ (enc.encode (g6 (b0 <<< 16) 12) ++
          (enc.padBytes ++ (enc.padBytes ++ [])))) (Or.inl rfl) (by omega)
    have hpc2b : pc2 = 0 := hpc2
    subst hpc2b
    have hj2b : j2 % 4 = 0 := hj2
    rw [heq]
    simp only [Nat.zero_add]
    rw [consume_dataE hg (g6 (b0 <<< 16) 18) n2 0 lb2 lr2 j2 db2 out2
        ((encodeBlocks enc (b.take (b.length / 3 * 3))).length) (enc.encode (g6 (b0 <<< 16) 12) ++ (enc.padBytes ++ (enc.padBytes ++ []))) hr2 (by omega)]
    rw [consume_dataE hg (g6 (b0 <<< 16) 12) (.term (g6 (b0 <<< 16) 18)) 0 lb2 ((encodeBlocks enc (b.take (b.length / 3 * 3))).length + (enc.encode (g6 (b0 <<< 16) 18)).length) (j2 + 1)
        (db2.set (j2 % 4) ((g6 (b0 <<< 16) 18 : Fin 64) : Nat)) out2 ((encodeBlocks enc (b.take (b.length / 3 * 3))).length + (enc.encode (g6 (b0 <<< 16) 18)).length) (enc.padBytes ++ (enc.padBytes ++ []))
        (Or.inr ⟨(g6 (b0 <<< 16) 18), rfl⟩) (by omega)]
    rw [consume_pad_slot2E hg hpad (.term (g6 (b0 <<< 16) 12)) 0 lb2 ((encodeBlocks enc (b.take (b.length / 3 * 3))).length + (enc.encode (g6 (b0 <<< 16) 18)).length + (enc.encode (g6 (b0 <<< 16) 12)).length) (j2 + 1 + 1)
        ((db2.set (j2 % 4) ((g6 (b0 <<< 16) 18 : Fin 64) : Nat)).set ((j2 + 1) % 4) ((g6 (b0 <<< 16) 12 : Fin 64) : Nat)) out2 ((encodeBlocks enc (b.take (b.length / 3 * 3))).length + (enc.encode (g6 (b0 <<< 16) 18)).length + (enc.encode (g6 (b0 <<< 16) 12)).length) (enc.padBytes ++ []) (Or.inr ⟨(g6 (b0 <<< 16) 12), rfl⟩) (by omega)]
    simp only [Nat.zero_add]
    rw [consume_pad_slot3_padE hg hpad lb2 ((encodeBlocks enc (b.take (b.length / 3 * 3))).length + (enc.encode (g6 (b0 <<< 16) 18)).length + (enc.encode (g6 (b0 <<< 16) 12)).length) (j2 + 1 + 1 + 1)
        (((db2.set (j2 % 4) ((g6 (b0 <<< 16) 18 : Fin 64) : Nat)).set ((j2 + 1) % 4) ((g6 (b0 <<< 16) 12 : Fin 64) : Nat)).set 2 0) out2 ((encodeBlocks enc (b.take (b.length / 3 * 3))).length + (enc.encode (g6 (b0 <<< 16) 18)).length + (enc.encode (g6 (b0 <<< 16) 12)).length + enc.padBytes.length) [] (by omega)]
    have e0 : j2 % 4 = 0 := hj2b
    have e1 : (j2 + 1) % 4 = 1 := by omega
    rw [e0, e1, Dbuf.tail1_chain]
    obtain ⟨hbyte, hslack⟩ := tail1_arith b0 hb0
    rw [if_neg (by rintro ⟨-, hs⟩; exact hs hslack)]
    have hout2b : out2 = [] ++ (b.take (b.length / 3 * 3)) := hout2
    rw [hbyte, hout2b]
    simp only [checkTrailing]
    have hfin : ([] ++ (b.take (b.length / 3 * 3))) ++ [b0] = b := by
      rw [List.nil_append, ← hdrop, List.take_append_drop]
    rw [hfin]

theorem roundtrip_case2 {enc : Encoding} (hg : Good enc) (b : List Nat)
    (hb : ∀ x ∈ b, x < 256) (h2 : b.length % 3 = 2) :
    enc.Decode (enc.Encode b) = ⟨b, b.length, none⟩ := by
  have hlen2 : (b.drop (b.length / 3 * 3)).length = 2 := by
    simp only [List.length_drop]
    omega
  obtain ⟨b0, b1, hdrop⟩ := List.length_eq_two.mp hlen2
  have hb0 : b0 < 256 := hb b0 (List.drop_subset _ _ (by rw [hdrop]; simp))
  have hb1 : b1 < 256 := hb b1 (List.drop_subset _ _ (by rw [hdrop]; simp))
  have htk3 : (b.take (b.length / 3 * 3)).length % 3 = 0 := by
    simp only [List.length_take]
    omega
  have htkb : ∀ x ∈ (b.take (b.length / 3 * 3)), x < 256 := fun x hx => hb x (List.take_subset _ _ hx)
  by_cases hpad : enc.padChar = NoPadding
  · -- no padding: the tail is three bare symbols
    have hEnc : enc.Encode b =
        encodeBlocks enc (b.take (b.length / 3 * 3)) ++
          (enc.encode (g6 ((b0 <<< 16) ||| (b1 <<< 8)) 18) ++ (enc.encode (g6 ((b0 <<< 16) ||| (b1 <<< 8)) 12) ++ (enc.encode (g6 ((b0 <<< 16) ||| (b1 <<< 8)) 6) ++ []))) := by
      unfold Encoding.Encode
      rw [hdrop]
      show _ ++ encodeTail enc [b0, b1] = _
      rw [encodeTail, if_neg (by simp [hpad])]
      simp [List.append_assoc]
    rw [hEnc]
    unfold Encoding.Decode
    obtain ⟨⟨n2, pc2, lb2, lr2, j2, db2, out2⟩, heq, hr2, hj2, hpc2, hout2, -, -⟩ :=
      decode_blocks hg (b.take (b.length / 3 * 3)) htk3 htkb .root 0 0 0 ⟨0, 0, 0, 0⟩ [] 0
        (enc.encode (g6 ((b0 <<< 16) ||| (b1 <<< 8)) 18) ++ (enc.encode (g6 ((b0 <<< 16) ||| (b1 <<< 8)) 12) ++ (enc.encode (g6 ((b0 <<< 16) ||| (b1 <<< 8)) 6) ++ [])))
        (Or.inl rfl) (by omega)
    have hpc2b : pc2 = 0 := hpc2
    subst hpc2b
    have hj2b : j2 % 4 = 0 := hj2
    rw [heq]
    simp only [Nat.zero_add]
    rw [consume_dataE hg (g6 ((b0 <<< 16) ||| (b1 <<< 8)) 18) n2 0 lb2 lr2 j2 db2 out2
        ((encodeBlocks enc (b.take (b.length / 3 * 3))).length) (enc.encode (g6 ((b0 <<< 16) ||| (b1 <<< 8)) 12) ++ (enc.encode (g6 ((b0 <<< 16) ||| (b1 <<< 8)) 6) ++ [])) hr2 (by omega)]
    rw [consume_dataE hg (g6 ((b0 <<< 16) ||| (b1 <<< 8)) 12) (.term (g6 ((b0 <<< 16) ||| (b1 <<< 8)) 18)) 0 lb2 ((encodeBlocks enc (b.take (b.length / 3 * 3))).length + (enc.encode (g6 ((b0 <<< 16) ||| (b1 <<< 8)) 18)).length) (j2 + 1)
        (db2.set (j2 % 4) ((g6 ((b0 <<< 16) ||| (b1 <<< 8)) 18 : Fin 64) : Nat)) out2 ((encodeBlocks enc (b.take (b.length / 3 * 3))).length + (enc.encode (g6 ((b0 <<< 16) ||| (b1 <<< 8)) 18)).length) (enc.encode (g6 ((b0 <<< 16) ||| (b1 <<< 8)) 6) ++ []) (Or.inr ⟨(g6 ((b0 <<< 16) ||| (b1 <<< 8)) 18), rfl⟩) (by omega)]
    rw [consume_dataE hg (g6 ((b0 <<< 16) ||| (b1 <<< 8)) 6) (.term (g6 ((b0 <<< 16) ||| (b1 <<< 8)) 12)) 0 lb2 ((encodeBlocks enc (b.take (b.length / 3 * 3))).length + (enc.encode (g6 ((b0 <<< 16) ||| (b1 <<< 8)) 18)).length + (enc.encode (g6 ((b0 <<< 16) ||| (b1 <<< 8)) 12)).length) (j2 + 1 + 1)
        ((db2.set (j2 % 4) ((g6 ((b0 <<< 16) ||| (b1 <<< 8)) 18 : Fin 64) : Nat)).set ((j2 + 1) % 4) ((g6 ((b0 <<< 16) ||| (b1 <<< 8)) 12 : Fin 64) : Nat)) out2 ((encodeBlocks enc (b.take (b.length / 3 * 3))).length + (enc.encode (g6 ((b0 <<< 16) ||| (b1 <<< 8)) 18)).length + (enc.encode (g6 ((b0 <<< 16) ||| (b1 <<< 8)) 12)).length) [] (Or.inr ⟨(g6 ((b0 <<< 16) ||| (b1 <<< 8)) 12), rfl⟩) (by omega)]
    simp only [decodeLoop]
    rw [if_neg (rootLike_nodeV (Or.inr ⟨(g6 ((b0 <<< 16) ||| (b1 <<< 8)) 6), rfl⟩)), if_pos (by omega),
        if_neg (fun hcon => hcon hpad)]
    have e0 : j2 % 4 = 0 := hj2b
    have e1 : (j2 + 1) % 4 = 1 := by omega
    have e2 : (j2 + 1 + 1) % 4 = 2 := by omega
    have e3 : (j2 + 1 + 1 + 1) % 4 = 3 := by omega
    rw [e0, e1, e2, e3, Dbuf.tail2_zchain]
    obtain ⟨hbyte0, hbyte1, hslack⟩ := tail2_arith b0 b1 hb0 hb1
    have hout2b : out2 = [] ++ (b.take (b.length / 3 * 3)) := hout2
    rw [hbyte0, hbyte1, hout2b]
    have hfin : ([] ++ (b.take (b.length / 3 * 3))) ++ [b0, b1] = b := by
      rw [List.nil_append, ← hdrop, List.take_append_drop]
    rw [hfin]
    simp [hslack]
  · -- padding: the tail is three symbols and one padding character
    have hEnc : enc.Encode b =
        encodeBlocks enc (b.take (b.length / 3 * 3)) ++
          (enc.encode (g6 ((b0 <<< 16) ||| (b1 <<< 8)) 18) ++ (enc.encode (g6 ((b0 <<< 16) ||| (b1 <<< 8)) 12) ++ (enc.encode (g6 ((b0 <<< 16) ||| (b1 <<< 8)) 6) ++
            (enc.padBytes ++ [])))) := by
      unfold Encoding.Encode
      rw [hdrop]
      show _ ++ encodeTail enc [b0, b1] = _
      rw [encodeTail, if_pos hpad]
      simp [List.append_assoc]
    rw [hEnc]
    unfold Encoding.Decode
    obtain ⟨⟨n2, pc2, lb2, lr2, j2, db2, out2⟩, heq, hr2, hj2, hpc2, hout2, -, -⟩ :=
      decode_blocks hg (b.take (b.length / 3 * 3)) htk3 htkb .root 0 0 0 ⟨0, 0, 0, 0⟩ [] 0
        (enc.encode (g6 ((b0 <<< 16) ||| (b1 <<< 8)) 18) ++ (enc.encode (g6 ((b0 <<< 16) ||| (b1 <<< 8)) 12) ++ (enc.encode (g6 ((b0 <<< 16) ||| (b1 <<< 8)) 6) ++
          (enc.padBytes ++ [])))) (Or.inl rfl) (by omega)
    have hpc2b : pc2 = 0 := hpc2
    subst hpc2b
    have hj2b : j2 % 4 = 0 := hj2
    rw [heq]
    simp only [Nat.zero_add]
    rw [consume_dataE hg (g6 ((b0 <<< 16) ||| (b1 <<< 8)) 18) n2 0 lb2 lr2 j2 db2 out2
        ((encodeBlocks enc (b.take (b.length / 3 * 3))).length) (enc.encode (g6 ((b0 <<< 16) ||| (b1 <<< 8)) 12) ++ (enc.encode (g6 ((b0 <<< 16) ||| (b1 <<< 8)) 6) ++ (enc.padBytes ++ []))) hr2 (by omega)]
    rw [consume_dataE hg (g6 ((b0 <<< 16) ||| (b1 <<< 8)) 12) (.term (g6 ((b0 <<< 16) ||| (b1 <<< 8)) 18)) 0 lb2 ((encodeBlocks enc (b.take (b.length / 3 * 3))).length + (enc.encode (g6 ((b0 <<< 16) ||| (b1 <<< 8)) 18)).length) (j2 + 1)
        (db2.set (j2 % 4) ((g6 ((b0 <<< 16) ||| (b1 <<< 8)) 18 : Fin 64) : Nat)) out2 ((encodeBlocks enc (b.take (b.length / 3 * 3))).length + (enc.encode (g6 ((b0 <<< 16) ||| (b1 <<< 8)) 18)).length) (enc.encode (g6 ((b0 <<< 16) ||| (b1 <<< 8)) 6) ++ (enc.padBytes ++ []))
        (Or.inr ⟨(g6 ((b0 <<< 16) ||| (b1 <<< 8)) 18), rfl⟩) (by omega)]
    rw [consume_dataE hg (g6 ((b0 <<< 16) ||| (b1 <<< 8)) 6) (.term (g6 ((b0 <<< 16) ||| (b1 <<< 8)) 12)) 0 lb2 ((encodeBlocks enc (b.take (b.length / 3 * 3))).length + (enc.encode (g6 ((b0 <<< 16) ||| (b1 <<< 8)) 18)).length + (enc.encode (g6 ((b0 <<< 16) ||| (b1 <<< 8)) 12)).length) (j2 + 1 + 1)
        ((db2.set (j2 % 4) ((g6 ((b0 <<< 16) ||| (b1 <<< 8)) 18 : Fin 64) : Nat)).set ((j2 + 1) % 4) ((g6 ((b0 <<< 16) ||| (b1 <<< 8)) 12 : Fin 64) : Nat)) out2 ((encodeBlocks enc (b.take (b.length / 3 * 3))).length + (enc.encode (g6 ((b0 <<< 16) ||| (b1 <<< 8)) 18)).length + (enc.encode (g6 ((b0 <<< 16) ||| (b1 <<< 8)) 12)).length) (enc.padBytes ++ [])
        (Or.inr ⟨(g6 ((b0 <<< 16) ||| (b1 <<< 8)) 12), rfl⟩) (by omega)]
    rw [consume_pad_slot3_rootE hg hpad (.term (g6 ((b0 <<< 16) ||| (b1 <<< 8)) 6)) lb2 ((encodeBlocks enc (b.take (b.length / 3 * 3))).length + (enc.encode (g6 ((b0 <<< 16) ||| (b1 <<< 8)) 18)).length + (enc.encode (g6 ((b0 <<< 16) ||| (b1 <<< 8)) 12)).length + (enc.encode (g6 ((b0 <<< 16) ||| (b1 <<< 8)) 6)).length) (j2 + 1 + 1 + 1)
        (((db2.set (j2 % 4) ((g6 ((b0 <<< 16) ||| (b1 <<< 8)) 18 : Fin 64) : Nat)).set ((j2 + 1) % 4) ((g6 ((b0 <<< 16) ||| (b1 <<< 8)) 12 : Fin 64) : Nat)).set ((j2 + 1 + 1) % 4) ((g6 ((b0 <<< 16) ||| (b1 <<< 8)) 6 : Fin 64) : Nat)) out2 ((encodeBlocks enc (b.take (b.length / 3 * 3))).length + (enc.encode (g6 ((b0 <<< 16) ||| (b1 <<< 8)) 18)).length + (enc.encode (g6 ((b0 <<< 16) ||| (b1 <<< 8)) 12)).length + (enc.encode (g6 ((b0 <<< 16) ||| (b1 <<< 8)) 6)).length) [] (Or.inr ⟨(g6 ((b0 <<< 16) ||| (b1 <<< 8)) 6), rfl⟩) (by omega)]
    have e0 : j2 % 4 = 0 := hj2b
    have e1 : (j2 + 1) % 4 = 1 := by omega
    have e2 : (j2 + 1 + 1) % 4 = 2 := by omega
    rw [e0, e1, e2, Dbuf.tail2_chain]
    obtain ⟨hbyte0, hbyte1, hslack⟩ := tail2_arith b0 b1 hb0 hb1
    rw [if_neg (by rintro ⟨-, hs⟩; exact hs hslack)]
    have hout2b : out2 = [] ++ (b.take (b.length / 3 * 3)) := hout2
    rw [hbyte0, hbyte1, hout2b]
    simp only [checkTrailing]
    have hfin : ([] ++ (b.take (b.length / 3 * 3))) ++ [b0, b1] = b := by
      rw [List.nil_append, ← hdrop, List.take_append_drop]
    rw [hfin]

/-! ### Claim C1 -/

/-- C1: for every byte sequence `b` and every valid configuration (64
distinct non-CR/LF scalar values as symbols; padding, if any, a non-CR/LF
scalar value outside the alphabet; strict or not), decoding the encoding of
`b` succeeds with no error and returns exactly `b`. -/
theorem C1_decode_encode_roundtrip (enc : Encoding) (hv : ValidAlphabet enc)
    (b : List Nat) (hb : ∀ x ∈ b, x < 256) :
    enc.Decode (enc.Encode b) = ⟨b, b.length, none⟩ := by
  have hg := hv.good
  have h3 : b.length % 3 = 0 ∨ b.length % 3 = 1 ∨ b.length % 3 = 2 := by omega
  rcases h3 with h | h | h
  · exact roundtrip_case0 hg b hb h
  · exact roundtrip_case1 hg b hb h
  · exact roundtrip_case2 hg b hb h

/-- The standard base64 alphabet as single ASCII bytes (used to build small
concrete configurations for witnesses). -/
def asciiChars : List Nat :=
  [65, 66, 67, 68, 69, 70, 71, 72, 73, 74, 75, 76, 77, 78, 79, 80, 81, 82, 83, 84, 85,
   86, 87, 88, 89, 90, 97, 98, 99, 100, 101, 102, 103, 104, 105, 106, 107, 108, 109,
   110, 111, 112, 113, 114, 115, 116, 117, 118, 119, 120, 121, 122, 48, 49, 50, 51,
   52, 53, 54, 55, 56, 57, 43, 47]

/-- A one-byte-per-symbol configuration: the standard base64 alphabet with
padding `=` (0x3D).  Behaviorally the encoding `NewEncoding` would build from
that alphabet after `WithPadding 61`. -/
def asciiEnc : Encoding :=
  { encode := fun i => [asciiChars.getD i 0]
    decode := []
    maxSize := 1
    padChar := 61
    strict := false }

theorem asciiEnc_valid : ValidAlphabet asciiEnc :=
  ⟨fun i => asciiChars.getD i 0, by decide, by decide, by decide, Or.inr (by decide)⟩

theorem C1_decode_encode_roundtrip_witness :
    asciiEnc.Decode (asciiEnc.Encode [102, 111, 111]) = ⟨[102, 111, 111], 3, none⟩ :=
  C1_decode_encode_roundtrip asciiEnc asciiEnc_valid [102, 111, 111] (by decide)

/-! ### Claim C8: output-size safety of the decoder -/

/-- One loop-body step keeps the stored-bytes count within 3 bytes per
completed quantum, and increments the symbol counter by exactly one. -/
theorem resolveValue_bound (enc : Encoding) (rest : List Nat) (i : Nat) (st : LoopSt)
    (v : Int) (h : st.out.length ≤ 3 * (st.j / 4)) :
    (match resolveValue enc rest i st v with
     | .inl (.err w _) => w.length ≤ 3 * ((st.j + 1) / 4)
     | .inl (.brk st2 _ _) => st2.out.length ≤ 3 * (st2.j / 4) ∧ st2.j = st.j + 1
     | .inl (.done _ _) => False
     | .inr st2 => st2.out.length ≤ 3 * (st2.j / 4) ∧ st2.j = st.j + 1) := by
  generalize hr : resolveValue enc rest i st v = r
  unfold resolveValue at hr
  dsimp only at hr
  repeat' split at hr
  all_goals subst hr
  all_goals
    first
    | (refine ⟨?_, rfl⟩
       first
       | (show (st.out ++ [byte _, byte _, byte _]).length ≤ 3 * ((st.j + 1) / 4)
          simp only [List.length_append, List.length_cons, List.length_nil]
          omega)
       | (show (st.out ++ [byte _, byte _]).length ≤ 3 * ((st.j + 1) / 4)
          simp only [List.length_append, List.length_cons, List.length_nil]
          omega)
       | (show (st.out ++ [byte _]).length ≤ 3 * ((st.j + 1) / 4)
          simp only [List.length_append, List.length_cons, List.length_nil]
          omega)
       | (show st.out.length ≤ 3 * ((st.j + 1) / 4)
          omega))
    | (show (st.out ++ [byte _, byte _]).length ≤ 3 * ((st.j + 1) / 4)
       simp only [List.length_append, List.length_cons, List.length_nil]
       omega)
    | (show (st.out ++ [byte _]).length ≤ 3 * ((st.j + 1) / 4)
       simp only [List.length_append, List.length_cons, List.length_nil]
       omega)
    | (show st.out.length ≤ 3 * ((st.j + 1) / 4)
       omega)

/-- The loop invariant for the whole byte loop: stored bytes stay within 3
per completed quantum, and the symbol count grows by at most the number of
consumed bytes. -/
theorem decodeLoop_bound (enc : Encoding) :
    ∀ (src : List Nat) (i : Nat) (st : LoopSt), st.out.length ≤ 3 * (st.j / 4) →
    (match decodeLoop enc src i st with
     | .err w _ => w.length ≤ 3 * ((st.j + src.length) / 4)
     | .brk st2 _ _ => st2.out.length ≤ 3 * (st2.j / 4) ∧ st2.j ≤ st.j + src.length
     | .done st2 _ => st2.out.length ≤ 3 * (st2.j / 4) ∧ st2.j ≤ st.j + src.length) := by
  intro src
  induction src with
  | nil =>
    intro i st h
    exact ⟨h, by omega⟩
  | cons b rest ih =>
    intro i st h
    cases hstep : enc.step st.n b with
    | none =>
      rw [decodeLoop_cons_reject hstep]
      show st.out.length ≤ 3 * ((st.j + (b :: rest).length) / 4)
      simp only [List.length_cons]
      omega
    | some n2 =>
      by_cases hv : enc.nodeV n2 < 0
      · rw [decodeLoop_cons_continue hstep hv rest i]
        have hmono := ih (i + 1) { st with n := n2 } h
        rcases hrec : decodeLoop enc rest (i + 1) { st with n := n2 } with ⟨w, off⟩ | ⟨st2, i2, r2⟩ | ⟨st2, i2⟩ <;>
          rw [hrec] at hmono
        · have hm : w.length ≤ 3 * ((st.j + rest.length) / 4) := hmono
          show w.length ≤ 3 * ((st.j + (b :: rest).length) / 4)
          simp only [List.length_cons]
          omega
        · have hm : st2.out.length ≤ 3 * (st2.j / 4) ∧ st2.j ≤ st.j + rest.length := hmono
          refine ⟨hm.1, ?_⟩
          show st2.j ≤ st.j + (b :: rest).length
          simp only [List.length_cons]
          omega
        · have hm : st2.out.length ≤ 3 * (st2.j / 4) ∧ st2.j ≤ st.j + rest.length := hmono
          refine ⟨hm.1, ?_⟩
          show st2.j ≤ st.j + (b :: rest).length
          simp only [List.length_cons]
          omega
      · rw [decodeLoop_cons_resolve hstep hv rest i]
        have hres := resolveValue_bound enc rest i { st with n := n2 } (enc.nodeV n2) h
        rcases hrv : resolveValue enc rest i { st with n := n2 } (enc.nodeV n2) with r | st2 <;>
          rw [hrv] at hres
        · rcases r with ⟨w, off⟩ | ⟨st3, i3, r3⟩ | ⟨st3, i3⟩
          · have hm : w.length ≤ 3 * ((st.j + 1) / 4) := hres
            show w.length ≤ 3 * ((st.j + (b :: rest).length) / 4)
            simp only [List.length_cons]
            omega
          · have hm : st3.out.length ≤ 3 * (st3.j / 4) ∧ st3.j = st.j + 1 := hres
            refine ⟨hm.1, ?_⟩
            show st3.j ≤ st.j + (b :: rest).length
            simp only [List.length_cons]
            omega
          · exact absurd hres (by simp)
        · have hm : st2.out.length ≤ 3 * (st2.j / 4) ∧ st2.j = st.j + 1 := hres
          have hmono := ih (i + 1) st2 hm.1
          have hcont : contOf enc rest (i + 1) (Sum.inr st2) = decodeLoop enc rest (i + 1) st2 := rfl
          rw [hcont]
          rcases hrec : decodeLoop enc rest (i + 1) st2 with ⟨w, off⟩ | ⟨st3, i3, r3⟩ | ⟨st3, i3⟩ <;>
            rw [hrec] at hmono
          · have hm2 : w.length ≤ 3 * ((st2.j + rest.length) / 4) := hmono
            show w.length ≤ 3 * ((st.j + (b :: rest).length) / 4)
            simp only [List.length_cons]
            omega
          · have hm2 : st3.out.length ≤ 3 * (st3.j / 4) ∧ st3.j ≤ st2.j + rest.length := hmono
            refine ⟨hm2.1, ?_⟩
            show st3.j ≤ st.j + (b :: rest).length
            simp only [List.length_cons]
            omega
          · have hm2 : st3.out.length ≤ 3 * (st3.j / 4) ∧ st3.j ≤ st2.j + rest.length := hmono
            refine ⟨hm2.1, ?_⟩
            show st3.j ≤ st.j + (b :: rest).length
            simp only [List.length_cons]
            omega

/-- C8: the one-shot decoder stores at most `DecodedLen n` bytes into the
destination for every input of length `n`, valid or not (so a destination
sized by `DecodedLen` is never overrun), and `DecodedLen` is `n*6/8` without
padding and `n/4*3` with padding. -/
theorem C8_decoded_len_bound (enc : Encoding) (src : List Nat) :
    (enc.Decode src).written.length ≤ enc.DecodedLen src.length ∧
    (enc.padChar = NoPadding → enc.DecodedLen src.length = src.length * 6 / 8) ∧
    (enc.padChar ≠ NoPadding → enc.DecodedLen src.length = src.length / 4 * 3) := by
  refine ⟨?_, fun h => by unfold Encoding.DecodedLen; rw [if_pos h],
    fun h => by unfold Encoding.DecodedLen; rw [if_neg h]⟩
  have hbound := decodeLoop_bound enc src 0 ⟨.root, 0, 0, 0, 0, ⟨0, 0, 0, 0⟩, []⟩ (by simp)
  unfold Encoding.Decode
  rcases hrec : decodeLoop enc src 0 ⟨.root, 0, 0, 0, 0, ⟨0, 0, 0, 0⟩, []⟩ with
    ⟨w, off⟩ | ⟨st2, i2, r2⟩ | ⟨st2, i2⟩ <;> rw [hrec] at hbound
  · have hb : w.length ≤ 3 * ((0 + src.length) / 4) := hbound
    show w.length ≤ enc.DecodedLen src.length
    unfold Encoding.DecodedLen
    split <;> omega
  · obtain ⟨h1, h2⟩ := hbound
    have h1x : st2.out.length ≤ 3 * (st2.j / 4) := h1
    have h2x : st2.j ≤ 0 + src.length := h2
    dsimp only
    repeat' split
    all_goals
      first
      | (show st2.out.length ≤ enc.DecodedLen src.length
         unfold Encoding.DecodedLen
         split <;> omega)
      | (show (st2.out ++ [byte _]).length ≤ enc.DecodedLen src.length
         simp only [List.length_append, List.length_cons, List.length_nil]
         unfold Encoding.DecodedLen
         split <;> omega)
      | (show (st2.out ++ [byte _, byte _]).length ≤ enc.DecodedLen src.length
         simp only [List.length_append, List.length_cons, List.length_nil]
         unfold Encoding.DecodedLen
         split <;> omega)
  · obtain ⟨h1, h2⟩ := hbound
    have h1x : st2.out.length ≤ 3 * (st2.j / 4) := h1
    have h2x : st2.j ≤ 0 + src.length := h2
    dsimp only
    repeat' split
    all_goals
      first
      | (show st2.out.length ≤ enc.DecodedLen src.length
         unfold Encoding.DecodedLen
         split <;> omega)
      | (show (st2.out ++ [byte _]).length ≤ enc.DecodedLen src.length
         simp only [List.length_append, List.length_cons, List.length_nil]
         unfold Encoding.DecodedLen
         split <;> omega)
      | (show (st2.out ++ [byte _, byte _]).length ≤ enc.DecodedLen src.length
         simp only [List.length_append, List.length_cons, List.length_nil]
         unfold Encoding.DecodedLen
         split <;> omega)

/-! ### Claim C10: error implies zero count -/

theorem Decode_ok_or_err (enc : Encoding) (src : List Nat) :
    (enc.Decode src).ret = 0 ∨ (enc.Decode src).err = none := by
  unfold Encoding.Decode
  rcases hrec : decodeLoop enc src 0 ⟨.root, 0, 0, 0, 0, ⟨0, 0, 0, 0⟩, []⟩ with
    ⟨w, off⟩ | ⟨st2, i2, r2⟩ | ⟨st2, i2⟩ <;> dsimp only <;> repeat' split
  all_goals first | exact Or.inl rfl | exact Or.inr rfl

/-- C10: whenever `Decode` reports an error, the returned count is 0 (even
though completed quanta were already stored in `dst`), so `DecodeString`
returns the empty slice together with the error. -/
theorem C10_error_implies_zero (enc : Encoding) (src : List Nat)
    (h : (enc.Decode src).err.isSome) :
    (enc.Decode src).ret = 0 ∧ enc.DecodeString src = ([], (enc.Decode src).err) := by
  have hr : (enc.Decode src).ret = 0 := by
    rcases Decode_ok_or_err enc src with h0 | hnone
    · exact h0
    · rw [hnone] at h
      simp at h
  refine ⟨hr, ?_⟩
  unfold Encoding.DecodeString
  show ((enc.Decode src).written.take (enc.Decode src).ret, (enc.Decode src).err) =
    ([], (enc.Decode src).err)
  rw [hr]
  simp

theorem C10_error_implies_zero_witness :
    (asciiEnc.Decode [65]).err.isSome ∧
    ((asciiEnc.Decode [65]).ret = 0 ∧
      asciiEnc.DecodeString [65] = ([], (asciiEnc.Decode [65]).err)) :=
  ⟨by decide, C10_error_implies_zero asciiEnc [65] (by decide)⟩

/-! ### Claim C7: the encoded-length formula bounds the encoder output -/

theorem mul_glue {a b A c K m : Nat} (ha : a ≤ A * m) (hb : b ≤ c * m) (hK : A + c ≤ K) :
    a + b ≤ K * m :=
  calc a + b ≤ A * m + c * m := Nat.add_le_add ha hb
    _ = (A + c) * m := by ring
    _ ≤ K * m := Nat.mul_le_mul hK (Nat.le_refl m)

theorem encodeBlocks_length (enc : Encoding)
    (hsym : ∀ i : Fin 64, (enc.encode i).length ≤ enc.maxSize) :
    ∀ (k : Nat) (l : List Nat), l.length ≤ k →
      (encodeBlocks enc l).length ≤ l.length / 3 * 4 * enc.maxSize := by
  intro k
  induction k with
  | zero =>
    intro l h
    have : l = [] := List.eq_nil_of_length_eq_zero (by omega)
    subst this
    simp [encodeBlocks]
  | succ k ih =>
    intro l h
    match l with
    | [] => simp [encodeBlocks]
    | [a] => simp [encodeBlocks]
    | [a, b] => simp [encodeBlocks]
    | a :: b :: c :: rest =>
      rw [encodeBlocks_cons]
      simp only [List.length_append, List.length_cons]
      have e1 := hsym (g6 (((a <<< 16) ||| (b <<< 8)) ||| c) 18)
      have e2 := hsym (g6 (((a <<< 16) ||| (b <<< 8)) ||| c) 12)
      have e3 := hsym (g6 (((a <<< 16) ||| (b <<< 8)) ||| c) 6)
      have e4 := hsym (g6 (((a <<< 16) ||| (b <<< 8)) ||| c) 0)
      have hrest : rest.length ≤ k := by
        simp only [List.length_cons] at h
        omega
      have hr := ih rest hrest
      have hsum : (enc.encode (g6 (((a <<< 16) ||| (b <<< 8)) ||| c) 18)).length +
          ((enc.encode (g6 (((a <<< 16) ||| (b <<< 8)) ||| c) 12)).length +
          ((enc.encode (g6 (((a <<< 16) ||| (b <<< 8)) ||| c) 6)).length +
          ((enc.encode (g6 (((a <<< 16) ||| (b <<< 8)) ||| c) 0)).length +
            (encodeBlocks enc rest).length))) ≤
          enc.maxSize + (enc.maxSize + (enc.maxSize + (enc.maxSize +
            rest.length / 3 * 4 * enc.maxSize))) := by
        exact Nat.add_le_add e1 (Nat.add_le_add e2 (Nat.add_le_add e3 (Nat.add_le_add e4 hr)))
      refine le_trans hsum (le_of_eq ?_)
      have hk3 : (rest.length + 1 + 1 + 1) / 3 * 4 = rest.length / 3 * 4 + 4 := by omega
      rw [hk3]
      ring

/-- C7: `EncodedLen` is `ceil(n/3)*4*maxSize` with padding and
`ceil(n*8/6)*maxSize` without, and — whenever every alphabet symbol and the
padding encoding fit in `maxSize` bytes, as the constructors guarantee —
`Encode` writes at most `EncodedLen n` bytes for an `n`-byte source. -/
theorem C7_encoded_len (enc : Encoding) (src : List Nat) (n : Nat)
    (hsym : ∀ i : Fin 64, (enc.encode i).length ≤ enc.maxSize)
    (hpad : enc.padBytes.length ≤ enc.maxSize) :
    (enc.padChar ≠ NoPadding → enc.EncodedLen n = (n + 2) / 3 * 4 * enc.maxSize) ∧
    (enc.padChar = NoPadding → enc.EncodedLen n = (n * 8 + 5) / 6 * enc.maxSize) ∧
    (enc.Encode src).length ≤ enc.EncodedLen src.length := by
  refine ⟨fun h => by unfold Encoding.EncodedLen; rw [if_neg h],
    fun h => by unfold Encoding.EncodedLen; rw [if_pos h], ?_⟩
  have hbl := encodeBlocks_length enc hsym (src.take (src.length / 3 * 3)).length
    (src.take (src.length / 3 * 3)) (le_refl _)
  have htk : (src.take (src.length / 3 * 3)).length = src.length / 3 * 3 := by
    rw [List.length_take]
    omega
  rw [htk] at hbl
  have hbl2 : (encodeBlocks enc (src.take (src.length / 3 * 3))).length ≤
      src.length / 3 * 4 * enc.maxSize := by
    have h33 : src.length / 3 * 3 / 3 * 4 = src.length / 3 * 4 := by omega
    rw [h33] at hbl
    exact hbl
  have hdl : (src.drop (src.length / 3 * 3)).length = src.length % 3 := by
    rw [List.length_drop]
    omega
  unfold Encoding.Encode
  simp only [List.length_append]
  rcases ht : src.drop (src.length / 3 * 3) with _ | ⟨b0, t2⟩
  · rw [ht] at hdl
    simp only [List.length_nil] at hdl
    simp only [encodeTail, List.length_nil, Nat.add_zero]
    unfold Encoding.EncodedLen
    split
    · exact le_trans hbl2 (Nat.mul_le_mul (by omega) (Nat.le_refl enc.maxSize))
    · exact le_trans hbl2 (Nat.mul_le_mul (by omega) (Nat.le_refl enc.maxSize))
  · rcases t2 with _ | ⟨b1, t3⟩
    · rw [ht] at hdl
      simp only [List.length_cons, List.length_nil] at hdl
      have e1 := hsym (g6 (b0 <<< 16) 18)
      have e2 := hsym (g6 (b0 <<< 16) 12)
      simp only [encodeTail, List.length_append]
      by_cases hp : enc.padChar = NoPadding
      · have hne : ¬ (enc.padChar ≠ NoPadding) := fun hc => hc hp
        rw [if_neg hne]
        unfold Encoding.EncodedLen
        rw [if_pos hp]
        simp only [List.length_nil]
        exact mul_glue hbl2 (show _ ≤ 2 * enc.maxSize by omega) (by omega)
      · rw [if_pos hp]
        unfold Encoding.EncodedLen
        rw [if_neg hp]
        simp only [List.length_append]
        exact mul_glue hbl2 (show _ ≤ 4 * enc.maxSize by omega) (by omega)
    · rw [ht] at hdl
      simp only [List.length_cons] at hdl
      have hdl2 : src.length % 3 = 2 := by omega
      have e1 := hsym (g6 ((b0 <<< 16) ||| (b1 <<< 8)) 18)
      have e2 := hsym (g6 ((b0 <<< 16) ||| (b1 <<< 8)) 12)
      have e3 := hsym (g6 ((b0 <<< 16) ||| (b1 <<< 8)) 6)
      simp only [encodeTail, List.length_append]
      by_cases hp : enc.padChar = NoPadding
      · have hne : ¬ (enc.padChar ≠ NoPadding) := fun hc => hc hp
        rw [if_neg hne]
        unfold Encoding.EncodedLen
        rw [if_pos hp]
        simp only [List.length_nil]
        exact mul_glue hbl2 (show _ ≤ 3 * enc.maxSize by omega) (by omega)
      · rw [if_pos hp]
        unfold Encoding.EncodedLen
        rw [if_neg hp]
        exact mul_glue hbl2 (show _ ≤ 4 * enc.maxSize by omega) (by omega)

theorem C7_encoded_len_witness :
    ((asciiEnc.padChar ≠ NoPadding →
        asciiEnc.EncodedLen 5 = (5 + 2) / 3 * 4 * asciiEnc.maxSize) ∧
     (asciiEnc.padChar = NoPadding →
        asciiEnc.EncodedLen 5 = (5 * 8 + 5) / 6 * asciiEnc.maxSize) ∧
     (asciiEnc.Encode [102, 111]).length ≤ asciiEnc.EncodedLen ([102, 111] : List Nat).length) :=
  C7_encoded_len asciiEnc [102, 111] 5 (by decide) (by decide)

/-! ### Claim C4: padded decoding of a dangling partial quantum -/

/-- C4: with padding enabled, an input that ends in an incomplete quantum is
rejected; the offset is the last complete-quantum boundary when the dangling
quantum held no padding (1, 2 or 3 bare symbols), and the end of the input
when it held a padding symbol. -/
theorem C4_incomplete_quantum (enc : Encoding) (hv : ValidAlphabet enc)
    (hpad : enc.padChar ≠ NoPadding)
    (b3 : List Nat) (h3 : b3.length % 3 = 0) (hb : ∀ x ∈ b3, x < 256)
    (g0 g1 g2 : Fin 64) :
    (enc.Decode (encodeBlocks enc b3 ++ enc.encode g0)).err
        = some (encodeBlocks enc b3).length ∧
    (enc.Decode (encodeBlocks enc b3 ++ enc.encode g0)).ret = 0 ∧
    (enc.Decode (encodeBlocks enc b3 ++ (enc.encode g0 ++ enc.encode g1))).err
        = some (encodeBlocks enc b3).length ∧
    (enc.Decode (encodeBlocks enc b3 ++ (enc.encode g0 ++ enc.encode g1))).ret = 0 ∧
    (enc.Decode (encodeBlocks enc b3 ++ (enc.encode g0 ++ (enc.encode g1 ++ enc.encode g2)))).err
        = some (encodeBlocks enc b3).length ∧
    (enc.Decode (encodeBlocks enc b3 ++ (enc.encode g0 ++ (enc.encode g1 ++ enc.encode g2)))).ret = 0 ∧
    (enc.Decode (encodeBlocks enc b3 ++ (enc.encode g0 ++ (enc.encode g1 ++ enc.padBytes)))).err
        = some (encodeBlocks enc b3 ++ (enc.encode g0 ++ (enc.encode g1 ++ enc.padBytes))).length ∧
    (enc.Decode (encodeBlocks enc b3 ++ (enc.encode g0 ++ (enc.encode g1 ++ enc.padBytes)))).ret = 0 := by
  have hg := hv.good
  have hD1 : enc.Decode (encodeBlocks enc b3 ++ enc.encode g0) =
      ⟨b3, 0, some (encodeBlocks enc b3).length⟩ := by
    obtain ⟨⟨n2, pc2, lb2, lr2, j2, db2, out2⟩, heq, hr2, hj2, hpc2, hout2, hnil, hne⟩ :=
      decode_blocks hg b3 h3 hb .root 0 0 0 ⟨0, 0, 0, 0⟩ [] 0 (enc.encode g0 ++ []) (Or.inl rfl) (by omega)
    have hpc2b : pc2 = 0 := hpc2
    subst hpc2b
    have hj2b : j2 % 4 = 0 := hj2
    have hlb : lb2 = (encodeBlocks enc b3).length := by
      by_cases hb3 : b3 = []
      · have h0 := hnil hb3
        subst hb3
        have h3x : lb2 = 0 := congrArg LoopSt.lastBlock h0
        simp [h3x, encodeBlocks]
      · have h2 : lb2 = 0 + (encodeBlocks enc b3).length := (hne hb3).1
        omega

    rw [show encodeBlocks enc b3 ++ enc.encode g0
        = encodeBlocks enc b3 ++ (enc.encode g0 ++ []) from by simp]
    unfold Encoding.Decode
    rw [heq]
    simp only [Nat.zero_add]
    rw [consume_dataE hg g0 n2 0 lb2 lr2 j2 db2 out2 ((encodeBlocks enc b3).length) [] hr2 (by omega)]
    simp only [decodeLoop]
    rw [if_neg (rootLike_nodeV (Or.inr ⟨g0, rfl⟩)), if_pos (show (j2 + 1) % 4 ≠ 0 by omega),
        if_pos hpad]
    have hout2b : out2 = [] ++ b3 := hout2
    rw [hout2b, hlb]
    simp
  have hD2 : enc.Decode (encodeBlocks enc b3 ++ (enc.encode g0 ++ enc.encode g1)) =
      ⟨b3, 0, some (encodeBlocks enc b3).length⟩ := by
    obtain ⟨⟨n2, pc2, lb2, lr2, j2, db2, out2⟩, heq, hr2, hj2, hpc2, hout2, hnil, hne⟩ :=
      decode_blocks hg b3 h3 hb .root 0 0 0 ⟨0, 0, 0, 0⟩ [] 0 (enc.encode g0 ++ (enc.encode g1 ++ [])) (Or.inl rfl) (by omega)
    have hpc2b : pc2 = 0 := hpc2
    subst hpc2b
    have hj2b : j2 % 4 = 0 := hj2
    have hlb : lb2 = (encodeBlocks enc b3).length := by
      by_cases hb3 : b3 = []
      · have h0 := hnil hb3
        subst hb3
        have h3x : lb2 = 0 := congrArg LoopSt.lastBlock h0
        simp [h3x, encodeBlocks]
      · have h2 : lb2 = 0 + (encodeBlocks enc b3).length := (hne hb3).1
        omega

    rw [show encodeBlocks enc b3 ++ (enc.encode g0 ++ enc.encode g1)
        = encodeBlocks enc b3 ++ (enc.encode g0 ++ (enc.encode g1 ++ [])) from by simp]
    unfold Encoding.Decode
    rw [heq]
    simp only [Nat.zero_add]
    rw [consume_dataE hg g0 n2 0 lb2 lr2 j2 db2 out2 ((encodeBlocks enc b3).length) (enc.encode g1 ++ []) hr2 (by omega)]
    rw [consume_dataE hg g1 (.term g0) 0 lb2 ((encodeBlocks enc b3).length + (enc.encode g0).length) (j2 + 1)
        (db2.set (j2 % 4) (g0 : Nat)) out2 ((encodeBlocks enc b3).length + (enc.encode g0).length) [] (Or.inr ⟨g0, rfl⟩) (by omega)]
    simp only [decodeLoop]
    rw [if_neg (rootLike_nodeV (Or.inr ⟨g1, rfl⟩)), if_pos (show (j2 + 1 + 1) % 4 ≠ 0 by omega),
        if_pos hpad]
    have hout2b : out2 = [] ++ b3 := hout2
    rw [hout2b, hlb]
    simp
  have hD3 : enc.Decode (encodeBlocks enc b3 ++ (enc.encode g0 ++ (enc.encode g1 ++ enc.encode g2))) =
      ⟨b3, 0, some (encodeBlocks enc b3).length⟩ := by
    obtain ⟨⟨n2, pc2, lb2, lr2, j2, db2, out2⟩, heq, hr2, hj2, hpc2, hout2, hnil, hne⟩ :=
      decode_blocks hg b3 h3 hb .root 0 0 0 ⟨0, 0, 0, 0⟩ [] 0 (enc.encode g0 ++ (enc.encode g1 ++ (enc.encode g2 ++ []))) (Or.inl rfl) (by omega)
    have hpc2b : pc2 = 0 := hpc2
    subst hpc2b
    have hj2b : j2 % 4 = 0 := hj2
    have hlb : lb2 = (encodeBlocks enc b3).length := by
      by_cases hb3 : b3 = []
      · have h0 := hnil hb3
        subst hb3
        have h3x : lb2 = 0 := congrArg LoopSt.lastBlock h0
        simp [h3x, encodeBlocks]
      · have h2 : lb2 = 0 + (encodeBlocks enc b3).length := (hne hb3).1
        omega

    rw [show encodeBlocks enc b3 ++ (enc.encode g0 ++ (enc.encode g1 ++ enc.encode g2))
        = encodeBlocks enc b3 ++ (enc.encode g0 ++ (enc.encode g1 ++ (enc.encode g2 ++ []))) from by simp]
    unfold Encoding.Decode
    rw [heq]
    simp only [Nat.zero_add]
    rw [consume_dataE hg g0 n2 0 lb2 lr2 j2 db2 out2 ((encodeBlocks enc b3).length) (enc.encode g1 ++ (enc.encode g2 ++ [])) hr2 (by omega)]
    rw [consume_dataE hg g1 (.term g0) 0 lb2 ((encodeBlocks enc b3).length + (enc.encode g0).length) (j2 + 1)
        (db2.set (j2 % 4) (g0 : Nat)) out2 ((encodeBlocks enc b3).length + (enc.encode g0).length) (enc.encode g2 ++ []) (Or.inr ⟨g0, rfl⟩) (by omega)]
    rw [consume_dataE hg g2 (.term g1) 0 lb2 ((encodeBlocks enc b3).length + (enc.encode g0).length + (enc.encode g1).length) (j2 + 1 + 1)
        ((db2.set (j2 % 4) (g0 : Nat)).set ((j2 + 1) % 4) (g1 : Nat)) out2
        ((encodeBlocks enc b3).length + (enc.encode g0).length + (enc.encode g1).length) [] (Or.inr ⟨g1, rfl⟩) (by omega)]
    simp only [decodeLoop]
    rw [if_neg (rootLike_nodeV (Or.inr ⟨g2, rfl⟩)), if_pos (show (j2 + 1 + 1 + 1) % 4 ≠ 0 by omega),
        if_pos hpad]
    have hout2b : out2 = [] ++ b3 := hout2
    rw [hout2b, hlb]
    simp
  have hD4 : enc.Decode (encodeBlocks enc b3 ++ (enc.encode g0 ++ (enc.encode g1 ++ enc.padBytes))) =
      ⟨b3, 0, some ((encodeBlocks enc b3).length + (enc.encode g0).length + (enc.encode g1).length + enc.padBytes.length)⟩ := by
    obtain ⟨⟨n2, pc2, lb2, lr2, j2, db2, out2⟩, heq, hr2, hj2, hpc2, hout2, hnil, hne⟩ :=
      decode_blocks hg b3 h3 hb .root 0 0 0 ⟨0, 0, 0, 0⟩ [] 0 (enc.encode g0 ++ (enc.encode g1 ++ (enc.padBytes ++ []))) (Or.inl rfl) (by omega)
    have hpc2b : pc2 = 0 := hpc2
    subst hpc2b
    have hj2b : j2 % 4 = 0 := hj2
    have hlb : lb2 = (encodeBlocks enc b3).length := by
      by_cases hb3 : b3 = []
      · have h0 := hnil hb3
        subst hb3
        have h3x : lb2 = 0 := congrArg LoopSt.lastBlock h0
        simp [h3x, encodeBlocks]
      · have h2 : lb2 = 0 + (encodeBlocks enc b3).length := (hne hb3).1
        omega

    rw [show encodeBlocks enc b3 ++ (enc.encode g0 ++ (enc.encode g1 ++ enc.padBytes))
        = encodeBlocks enc b3 ++ (enc.encode g0 ++ (enc.encode g1 ++ (enc.padBytes ++ []))) from by simp]
    unfold Encoding.Decode
    rw [heq]
    simp only [Nat.zero_add]
    rw [consume_dataE hg g0 n2 0 lb2 lr2 j2 db2 out2 ((encodeBlocks enc b3).length) (enc.encode g1 ++ (enc.padBytes ++ [])) hr2 (by omega)]
    rw [consume_dataE hg g1 (.term g0) 0 lb2 ((encodeBlocks enc b3).length + (enc.encode g0).length) (j2 + 1)
        (db2.set (j2 % 4) (g0 : Nat)) out2 ((encodeBlocks enc b3).length + (enc.encode g0).length) (enc.padBytes ++ []) (Or.inr ⟨g0, rfl⟩) (by omega)]
    rw [consume_pad_slot2E hg hpad (.term g1) 0 lb2 ((encodeBlocks enc b3).length + (enc.encode g0).length + (enc.encode g1).length) (j2 + 1 + 1)
        ((db2.set (j2 % 4) (g0 : Nat)).set ((j2 + 1) % 4) (g1 : Nat)) out2
        ((encodeBlocks enc b3).length + (enc.encode g0).length + (enc.encode g1).length) [] (Or.inr ⟨g1, rfl⟩) (by omega)]
    simp only [decodeLoop]
    rw [if_neg (pad_nodeV_ok enc), if_pos (show (j2 + 1 + 1 + 1) % 4 ≠ 0 by omega),
        if_pos hpad]
    have hout2b : out2 = [] ++ b3 := hout2
    rw [hout2b]
    simp
  refine ⟨by rw [hD1], by rw [hD1], by rw [hD2], by rw [hD2], by rw [hD3], by rw [hD3], ?_, by rw [hD4]⟩
  rw [hD4]
  simp only [List.length_append, Option.some.injEq]
  show (encodeBlocks enc b3).length + (enc.encode g0).length + (enc.encode g1).length + enc.padBytes.length = _
  omega

theorem C4_incomplete_quantum_witness :
    (asciiEnc.Decode (encodeBlocks asciiEnc [] ++ asciiEnc.encode 0)).err
        = some (encodeBlocks asciiEnc []).length ∧
    (asciiEnc.Decode (encodeBlocks asciiEnc [] ++ asciiEnc.encode 0)).ret = 0 ∧
    (asciiEnc.Decode (encodeBlocks asciiEnc [] ++ (asciiEnc.encode 0 ++ asciiEnc.encode 1))).err
        = some (encodeBlocks asciiEnc []).length ∧
    (asciiEnc.Decode (encodeBlocks asciiEnc [] ++ (asciiEnc.encode 0 ++ asciiEnc.encode 1))).ret = 0 ∧
    (asciiEnc.Decode (encodeBlocks asciiEnc [] ++
        (asciiEnc.encode 0 ++ (asciiEnc.encode 1 ++ asciiEnc.encode 2)))).err
        = some (encodeBlocks asciiEnc []).length ∧
    (asciiEnc.Decode (encodeBlocks asciiEnc [] ++
        (asciiEnc.encode 0 ++ (asciiEnc.encode 1 ++ asciiEnc.encode 2)))).ret = 0 ∧
    (asciiEnc.Decode (encodeBlocks asciiEnc [] ++
        (asciiEnc.encode 0 ++ (asciiEnc.encode 1 ++ asciiEnc.padBytes)))).err
        = some (encodeBlocks asciiEnc [] ++
            (asciiEnc.encode 0 ++ (asciiEnc.encode 1 ++ asciiEnc.padBytes))).length ∧
    (asciiEnc.Decode (encodeBlocks asciiEnc [] ++
        (asciiEnc.encode 0 ++ (asciiEnc.encode 1 ++ asciiEnc.padBytes)))).ret = 0 :=
  C4_incomplete_quantum asciiEnc asciiEnc_valid (by decide) [] (by decide) (by simp) 0 1 2

/-! ### Claim C5: strict mode rejects non-zero slack, non-strict accepts it -/

theorem encodeBlocks_strict (enc : Encoding) :
    ∀ (k : Nat) (l : List Nat), l.length ≤ k →
      encodeBlocks enc.Strict l = encodeBlocks enc l := by
  intro k
  induction k with
  | zero =>
    intro l h
    have : l = [] := List.eq_nil_of_length_eq_zero (by omega)
    subst this
    rfl
  | succ k ih =>
    intro l h
    match l with
    | [] => rfl
    | [a] => rfl
    | [a, b] => rfl
    | a :: b :: c :: rest =>
      rw [encodeBlocks_cons, encodeBlocks_cons,
        ih rest (by simp only [List.length_cons] at h; omega)]
      rfl

/-- A 4-symbol quantum `g0 g1 P P` after any number of complete blocks:
non-strict decoding emits one byte, strict decoding checks the 16 slack
bits of the packed value. -/
theorem slack_pad22 (enc : Encoding) (hg : Good enc) (hpad : enc.padChar ≠ NoPadding)
    (b3 : List Nat) (h3 : b3.length % 3 = 0) (hb : ∀ x ∈ b3, x < 256) (g0 g1 : Fin 64) :
    enc.Decode (encodeBlocks enc b3 ++
        (enc.encode g0 ++ (enc.encode g1 ++ (enc.padBytes ++ enc.padBytes)))) =
      if enc.strict = true ∧ (Dbuf.mk (g0 : Nat) (g1 : Nat) 0 0).val &&& 65535 ≠ 0 then
        ⟨b3 ++ [byte ((Dbuf.mk (g0 : Nat) (g1 : Nat) 0 0).val >>> 16)], 0,
         some ((encodeBlocks enc b3).length + (enc.encode g0).length + (enc.encode g1).length)⟩
      else
        ⟨b3 ++ [byte ((Dbuf.mk (g0 : Nat) (g1 : Nat) 0 0).val >>> 16)],
         (b3 ++ [byte ((Dbuf.mk (g0 : Nat) (g1 : Nat) 0 0).val >>> 16)]).length, none⟩ := by
  obtain ⟨⟨n2, pc2, lb2, lr2, j2, db2, out2⟩, heq, hr2, hj2, hpc2, hout2, hnil, hne⟩ :=
    decode_blocks hg b3 h3 hb .root 0 0 0 ⟨0, 0, 0, 0⟩ [] 0 (enc.encode g0 ++ (enc.encode g1 ++ (enc.padBytes ++ (enc.padBytes ++ [])))) (Or.inl rfl) (by omega)
  have hpc2b : pc2 = 0 := hpc2
  subst hpc2b
  have hj2b : j2 % 4 = 0 := hj2

  rw [show encodeBlocks enc b3 ++ (enc.encode g0 ++ (enc.encode g1 ++ (enc.padBytes ++ enc.padBytes)))
      = encodeBlocks enc b3 ++ (enc.encode g0 ++ (enc.encode g1 ++ (enc.padBytes ++ (enc.padBytes ++ [])))) from by simp]
  unfold Encoding.Decode
  rw [heq]
  simp only [Nat.zero_add]
  rw [consume_dataE hg g0 n2 0 lb2 lr2 j2 db2 out2 ((encodeBlocks enc b3).length) (enc.encode g1 ++ (enc.padBytes ++ (enc.padBytes ++ []))) hr2 (by omega)]
  rw [consume_dataE hg g1 (.term g0) 0 lb2 ((encodeBlocks enc b3).length + (enc.encode g0).length) (j2 + 1)
      (db2.set (j2 % 4) (g0 : Nat)) out2 ((encodeBlocks enc b3).length + (enc.encode g0).length) (enc.padBytes ++ (enc.padBytes ++ [])) (Or.inr ⟨g0, rfl⟩) (by omega)]
  rw [consume_pad_slot2E hg hpad (.term g1) 0 lb2 ((encodeBlocks enc b3).length + (enc.encode g0).length + (enc.encode g1).length) (j2 + 1 + 1)
      ((db2.set (j2 % 4) (g0 : Nat)).set ((j2 + 1) % 4) (g1 : Nat)) out2
      ((encodeBlocks enc b3).length + (enc.encode g0).length + (enc.encode g1).length) (enc.padBytes ++ []) (Or.inr ⟨g1, rfl⟩) (by omega)]
  simp only [Nat.zero_add]
  rw [consume_pad_slot3_padE hg hpad lb2 ((encodeBlocks enc b3).length + (enc.encode g0).length + (enc.encode g1).length) (j2 + 1 + 1 + 1)
      (((db2.set (j2 % 4) (g0 : Nat)).set ((j2 + 1) % 4) (g1 : Nat)).set 2 0) out2
      ((encodeBlocks enc b3).length + (enc.encode g0).length + (enc.encode g1).length + enc.padBytes.length) [] (by omega)]
  have e0 : j2 % 4 = 0 := hj2b
  have e1 : (j2 + 1) % 4 = 1 := by omega
  rw [e0, e1, Dbuf.tail1_chain]
  have hout2b : out2 = [] ++ b3 := hout2
  rw [hout2b]
  by_cases hsc : enc.strict = true ∧ (Dbuf.mk (g0 : Nat) (g1 : Nat) 0 0).val &&& 65535 ≠ 0
  · rw [if_pos hsc]
    simp [hsc]
  · rw [if_neg hsc]
    simp [hsc, checkTrailing]

/-- A 4-symbol quantum `g0 g1 g2 P` after any number of complete blocks:
non-strict decoding emits two bytes, strict decoding checks the 8 slack
bits of the packed value. -/
theorem slack_pad23 (enc : Encoding) (hg : Good enc) (hpad : enc.padChar ≠ NoPadding)
    (b3 : List Nat) (h3 : b3.length % 3 = 0) (hb : ∀ x ∈ b3, x < 256) (g0 g1 g2 : Fin 64) :
    enc.Decode (encodeBlocks enc b3 ++
        (enc.encode g0 ++ (enc.encode g1 ++ (enc.encode g2 ++ enc.padBytes)))) =
      if enc.strict = true ∧ (Dbuf.mk (g0 : Nat) (g1 : Nat) (g2 : Nat) 0).val &&& 255 ≠ 0 then
        ⟨b3 ++ [byte ((Dbuf.mk (g0 : Nat) (g1 : Nat) (g2 : Nat) 0).val >>> 16),
                byte ((Dbuf.mk (g0 : Nat) (g1 : Nat) (g2 : Nat) 0).val >>> 8)], 0,
         some ((encodeBlocks enc b3).length + (enc.encode g0).length + (enc.encode g1).length + (enc.encode g2).length)⟩
      else
        ⟨b3 ++ [byte ((Dbuf.mk (g0 : Nat) (g1 : Nat) (g2 : Nat) 0).val >>> 16),
                byte ((Dbuf.mk (g0 : Nat) (g1 : Nat) (g2 : Nat) 0).val >>> 8)],
         (b3 ++ [byte ((Dbuf.mk (g0 : Nat) (g1 : Nat) (g2 : Nat) 0).val >>> 16),
                 byte ((Dbuf.mk (g0 : Nat) (g1 : Nat) (g2 : Nat) 0).val >>> 8)]).length, none⟩ := by
  obtain ⟨⟨n2, pc2, lb2, lr2, j2, db2, out2⟩, heq, hr2, hj2, hpc2, hout2, hnil, hne⟩ :=
    decode_blocks hg b3 h3 hb .root 0 0 0 ⟨0, 0, 0, 0⟩ [] 0 (enc.encode g0 ++ (enc.encode g1 ++ (enc.encode g2 ++ (enc.padBytes ++ [])))) (Or.inl rfl) (by omega)
  have hpc2b : pc2 = 0 := hpc2
  subst hpc2b
  have hj2b : j2 % 4 = 0 := hj2

  rw [show encodeBlocks enc b3 ++ (enc.encode g0 ++ (enc.encode g1 ++ (enc.encode g2 ++ enc.padBytes)))
      = encodeBlocks enc b3 ++ (enc.encode g0 ++ (enc.encode g1 ++ (enc.encode g2 ++ (enc.padBytes ++ [])))) from by simp]
  unfold Encoding.Decode
  rw [heq]
  simp only [Nat.zero_add]
  rw [consume_dataE hg g0 n2 0 lb2 lr2 j2 db2 out2 ((encodeBlocks enc b3).length) (enc.encode g1 ++ (enc.encode g2 ++ (enc.padBytes ++ []))) hr2 (by omega)]
  rw [consume_dataE hg g1 (.term g0) 0 lb2 ((encodeBlocks enc b3).length + (enc.encode g0).length) (j2 + 1)
      (db2.set (j2 % 4) (g0 : Nat)) out2 ((encodeBlocks enc b3).length + (enc.encode g0).length) (enc.encode g2 ++ (enc.padBytes ++ [])) (Or.inr ⟨g0, rfl⟩) (by omega)]
  rw [consume_dataE hg g2 (.term g1) 0 lb2 ((encodeBlocks enc b3).length + (enc.encode g0).length + (enc.encode g1).length) (j2 + 1 + 1)
      ((db2.set (j2 % 4) (g0 : Nat)).set ((j2 + 1) % 4) (g1 : Nat)) out2
      ((encodeBlocks enc b3).length + (enc.encode g0).length + (enc.encode g1).length) (enc.padBytes ++ []) (Or.inr ⟨g1, rfl⟩) (by omega)]
  rw [consume_pad_slot3_rootE hg hpad (.term g2) lb2 ((encodeBlocks enc b3).length + (enc.encode g0).length + (enc.encode g1).length + (enc.encode g2).length) (j2 + 1 + 1 + 1)
      (((db2.set (j2 % 4) (g0 : Nat)).set ((j2 + 1) % 4) (g1 : Nat)).set ((j2 + 1 + 1) % 4) (g2 : Nat)) out2
      ((encodeBlocks enc b3).length + (enc.encode g0).length + (enc.encode g1).length + (enc.encode g2).length) [] (Or.inr ⟨g2, rfl⟩) (by omega)]
  have e0 : j2 % 4 = 0 := hj2b
  have e1 : (j2 + 1) % 4 = 1 := by omega
  have e2 : (j2 + 1 + 1) % 4 = 2 := by omega
  rw [e0, e1, e2, Dbuf.tail2_chain]
  have hout2b : out2 = [] ++ b3 := hout2
  rw [hout2b]
  by_cases hsc : enc.strict = true ∧ (Dbuf.mk (g0 : Nat) (g1 : Nat) (g2 : Nat) 0).val &&& 255 ≠ 0
  · rw [if_pos hsc]
    simp [hsc]
  · rw [if_neg hsc]
    simp [hsc, checkTrailing]

/-- A dangling unpadded pair of symbols `g0 g1`: non-strict decoding emits
one byte, strict decoding checks the 16 slack bits. -/
theorem slack_nopad2 (enc : Encoding) (hg : Good enc) (hpadN : enc.padChar = NoPadding)
    (b3 : List Nat) (h3 : b3.length % 3 = 0) (hb : ∀ x ∈ b3, x < 256) (g0 g1 : Fin 64) :
    enc.Decode (encodeBlocks enc b3 ++ (enc.encode g0 ++ enc.encode g1)) =
      if enc.strict = true ∧ (Dbuf.mk (g0 : Nat) (g1 : Nat) 0 0).val &&& 65535 ≠ 0 then
        ⟨b3 ++ [byte ((Dbuf.mk (g0 : Nat) (g1 : Nat) 0 0).val >>> 16)], 0,
         some ((encodeBlocks enc b3).length + (enc.encode g0).length + (enc.encode g1).length)⟩
      else
        ⟨b3 ++ [byte ((Dbuf.mk (g0 : Nat) (g1 : Nat) 0 0).val >>> 16)],
         (b3 ++ [byte ((Dbuf.mk (g0 : Nat) (g1 : Nat) 0 0).val >>> 16)]).length, none⟩ := by
  obtain ⟨⟨n2, pc2, lb2, lr2, j2, db2, out2⟩, heq, hr2, hj2, hpc2, hout2, hnil, hne⟩ :=
    decode_blocks hg b3 h3 hb .root 0 0 0 ⟨0, 0, 0, 0⟩ [] 0 (enc.encode g0 ++ (enc.encode g1 ++ [])) (Or.inl rfl) (by omega)
  have hpc2b : pc2 = 0 := hpc2
  subst hpc2b
  have hj2b : j2 % 4 = 0 := hj2

  rw [show encodeBlocks enc b3 ++ (enc.encode g0 ++ enc.encode g1)
      = encodeBlocks enc b3 ++ (enc.encode g0 ++ (enc.encode g1 ++ [])) from by simp]
  unfold Encoding.Decode
  rw [heq]
  simp only [Nat.zero_add]
  rw [consume_dataE hg g0 n2 0 lb2 lr2 j2 db2 out2 ((encodeBlocks enc b3).length) (enc.encode g1 ++ []) hr2 (by omega)]
  rw [consume_dataE hg g1 (.term g0) 0 lb2 ((encodeBlocks enc b3).length + (enc.encode g0).length) (j2 + 1)
      (db2.set (j2 % 4) (g0 : Nat)) out2 ((encodeBlocks enc b3).length + (enc.encode g0).length) [] (Or.inr ⟨g0, rfl⟩) (by omega)]
  simp only [decodeLoop]
  rw [if_neg (rootLike_nodeV (Or.inr ⟨g1, rfl⟩)), if_pos (show (j2 + 1 + 1) % 4 ≠ 0 by omega),
      if_neg (fun hcon => hcon hpadN)]
  have e0 : j2 % 4 = 0 := hj2b
  have e1 : (j2 + 1) % 4 = 1 := by omega
  have e2 : (j2 + 1 + 1) % 4 = 2 := by omega
  rw [e0, e1, e2, Dbuf.tail1_zchain]
  have hout2b : out2 = [] ++ b3 := hout2
  rw [hout2b]
  by_cases hsc : enc.strict = true ∧ (Dbuf.mk (g0 : Nat) (g1 : Nat) 0 0).val &&& 65535 ≠ 0
  · rw [if_pos hsc]
    simp [hsc]
  · rw [if_neg hsc]
    simp [hsc]

/-- A dangling unpadded triple of symbols `g0 g1 g2`: non-strict decoding
emits two bytes, strict decoding checks the 8 slack bits. -/
theorem slack_nopad3 (enc : Encoding) (hg : Good enc) (hpadN : enc.padChar = NoPadding)
    (b3 : List Nat) (h3 : b3.length % 3 = 0) (hb : ∀ x ∈ b3, x < 256) (g0 g1 g2 : Fin 64) :
    enc.Decode (encodeBlocks enc b3 ++ (enc.encode g0 ++ (enc.encode g1 ++ enc.encode g2))) =
      if enc.strict = true ∧ (Dbuf.mk (g0 : Nat) (g1 : Nat) (g2 : Nat) 0).val &&& 255 ≠ 0 then
        ⟨b3 ++ [byte ((Dbuf.mk (g0 : Nat) (g1 : Nat) (g2 : Nat) 0).val >>> 16),
                byte ((Dbuf.mk (g0 : Nat) (g1 : Nat) (g2 : Nat) 0).val >>> 8)], 0,
         some ((encodeBlocks enc b3).length + (enc.encode g0).length + (enc.encode g1).length + (enc.encode g2).length)⟩
      else
        ⟨b3 ++ [byte ((Dbuf.mk (g0 : Nat) (g1 : Nat) (g2 : Nat) 0).val >>> 16),
                byte ((Dbuf.mk (g0 : Nat) (g1 : Nat) (g2 : Nat) 0).val >>> 8)],
         (b3 ++ [byte ((Dbuf.mk (g0 : Nat) (g1 : Nat) (g2 : Nat) 0).val >>> 16),
                 byte ((Dbuf.mk (g0 : Nat) (g1 : Nat) (g2 : Nat) 0).val >>> 8)]).length, none⟩ := by
  obtain ⟨⟨n2, pc2, lb2, lr2, j2, db2, out2⟩, heq, hr2, hj2, hpc2, hout2, hnil, hne⟩ :=
    decode_blocks hg b3 h3 hb .root 0 0 0 ⟨0, 0, 0, 0⟩ [] 0 (enc.encode g0 ++ (enc.encode g1 ++ (enc.encode g2 ++ []))) (Or.inl rfl) (by omega)
  have hpc2b : pc2 = 0 := hpc2
  subst hpc2b
  have hj2b : j2 % 4 = 0 := hj2

  rw [show encodeBlocks enc b3 ++ (enc.encode g0 ++ (enc.encode g1 ++ enc.encode g2))
      = encodeBlocks enc b3 ++ (enc.encode g0 ++ (enc.encode g1 ++ (enc.encode g2 ++ []))) from by simp]
  unfold Encoding.Decode
  rw [heq]
  simp only [Nat.zero_add]
  rw [consume_dataE hg g0 n2 0 lb2 lr2 j2 db2 out2 ((encodeBlocks enc b3).length) (enc.encode g1 ++ (enc.encode g2 ++ [])) hr2 (by omega)]
  rw [consume_dataE hg g1 (.term g0) 0 lb2 ((encodeBlocks enc b3).length + (enc.encode g0).length) (j2 + 1)
      (db2.set (j2 % 4) (g0 : Nat)) out2 ((encodeBlocks enc b3).length + (enc.encode g0).length) (enc.encode g2 ++ []) (Or.inr ⟨g0, rfl⟩) (by omega)]
  rw [consume_dataE hg g2 (.term g1) 0 lb2 ((encodeBlocks enc b3).length + (enc.encode g0).length + (enc.encode g1).length) (j2 + 1 + 1)
      ((db2.set (j2 % 4) (g0 : Nat)).set ((j2 + 1) % 4) (g1 : Nat)) out2
      ((encodeBlocks enc b3).length + (enc.encode g0).length + (enc.encode g1).length) [] (Or.inr ⟨g1, rfl⟩) (by omega)]
  simp only [decodeLoop]
  rw [if_neg (rootLike_nodeV (Or.inr ⟨g2, rfl⟩)), if_pos (show (j2 + 1 + 1 + 1) % 4 ≠ 0 by omega),
      if_neg (fun hcon => hcon hpadN)]
  have e0 : j2 % 4 = 0 := hj2b
  have e1 : (j2 + 1) % 4 = 1 := by omega
  have e2 : (j2 + 1 + 1) % 4 = 2 := by omega
  have e3 : (j2 + 1 + 1 + 1) % 4 = 3 := by omega
  rw [e0, e1, e2, e3, Dbuf.tail2_zchain]
  have hout2b : out2 = [] ++ b3 := hout2
  rw [hout2b]
  by_cases hsc : enc.strict = true ∧ (Dbuf.mk (g0 : Nat) (g1 : Nat) (g2 : Nat) 0).val &&& 255 ≠ 0
  · rw [if_pos hsc]
    simp [hsc]
  · rw [if_neg hsc]
    simp [hsc]

/-- C5: an encoded text whose final short quantum carries non-zero unused
low bits decodes without error under a non-strict configuration, while the
`Strict` variant of the same configuration rejects it with CorruptInput at
the end offset of the last data symbol of that quantum.  The four final-
quantum shapes are `g0 g1 P P`, `g0 g1 g2 P` (padding enabled) and a
dangling `g0 g1` or `g0 g1 g2` (padding disabled). -/
theorem C5_strict_slack (enc : Encoding) (hv : ValidAlphabet enc) (hstrict : enc.strict = false)
    (b3 : List Nat) (h3 : b3.length % 3 = 0) (hb : ∀ x ∈ b3, x < 256) (g0 g1 g2 : Fin 64)
    (hs1 : (g1 : Nat) % 16 ≠ 0) (hs2 : (g2 : Nat) % 4 ≠ 0) :
    (enc.padChar ≠ NoPadding →
      ((enc.Decode (encodeBlocks enc b3 ++ (enc.encode g0 ++ (enc.encode g1 ++ (enc.padBytes ++ enc.padBytes))))).err = none ∧
       (enc.Strict.Decode (encodeBlocks enc b3 ++ (enc.encode g0 ++ (enc.encode g1 ++ (enc.padBytes ++ enc.padBytes))))).err = some ((encodeBlocks enc b3).length + (enc.encode g0).length + (enc.encode g1).length) ∧
       (enc.Strict.Decode (encodeBlocks enc b3 ++ (enc.encode g0 ++ (enc.encode g1 ++ (enc.padBytes ++ enc.padBytes))))).ret = 0) ∧
      ((enc.Decode (encodeBlocks enc b3 ++ (enc.encode g0 ++ (enc.encode g1 ++ (enc.encode g2 ++ enc.padBytes))))).err = none ∧
       (enc.Strict.Decode (encodeBlocks enc b3 ++ (enc.encode g0 ++ (enc.encode g1 ++ (enc.encode g2 ++ enc.padBytes))))).err = some ((encodeBlocks enc b3).length + (enc.encode g0).length + (enc.encode g1).length + (enc.encode g2).length) ∧
       (enc.Strict.Decode (encodeBlocks enc b3 ++ (enc.encode g0 ++ (enc.encode g1 ++ (enc.encode g2 ++ enc.padBytes))))).ret = 0)) ∧
    (enc.padChar = NoPadding →
      ((enc.Decode (encodeBlocks enc b3 ++ (enc.encode g0 ++ enc.encode g1))).err = none ∧
       (enc.Strict.Decode (encodeBlocks enc b3 ++ (enc.encode g0 ++ enc.encode g1))).err = some ((encodeBlocks enc b3).length + (enc.encode g0).length + (enc.encode g1).length) ∧
       (enc.Strict.Decode (encodeBlocks enc b3 ++ (enc.encode g0 ++ enc.encode g1))).ret = 0) ∧
      ((enc.Decode (encodeBlocks enc b3 ++ (enc.encode g0 ++ (enc.encode g1 ++ enc.encode g2)))).err = none ∧
       (enc.Strict.Decode (encodeBlocks enc b3 ++ (enc.encode g0 ++ (enc.encode g1 ++ enc.encode g2)))).err = some ((encodeBlocks enc b3).length + (enc.encode g0).length + (enc.encode g1).length + (enc.encode g2).length) ∧
       (enc.Strict.Decode (encodeBlocks enc b3 ++ (enc.encode g0 ++ (enc.encode g1 ++ enc.encode g2)))).ret = 0)) := by
  have hg := hv.good
  have hgS : Good enc.Strict := hg
  have hBS : encodeBlocks enc.Strict b3 = encodeBlocks enc b3 :=
    encodeBlocks_strict enc b3.length b3 (Nat.le_refl _)
  have hE0 : enc.Strict.encode g0 = enc.encode g0 := rfl
  have hE1 : enc.Strict.encode g1 = enc.encode g1 := rfl
  have hE2 : enc.Strict.encode g2 = enc.encode g2 := rfl
  have hPB : enc.Strict.padBytes = enc.padBytes := rfl
  have hlt1 := g1.isLt
  have hlt2 := g2.isLt
  have hns : ∀ X : Prop, ¬ (enc.strict = true ∧ X) := by
    intro X hc
    rw [hstrict] at hc
    exact absurd hc.1 (by decide)
  have hval22 : (Dbuf.mk (g0 : Nat) (g1 : Nat) 0 0).val &&& 65535 ≠ 0 := by
    rw [Dbuf.val_eq ⟨(g0 : Nat), (g1 : Nat), 0, 0⟩ g1.isLt
      (by show (0 : Nat) < 64; omega) (by show (0 : Nat) < 64; omega), and_0xFFFF_eq_mod]
    show ((g0 : Nat) * 262144 + (g1 : Nat) * 4096 + 0 * 64 + 0) % 65536 ≠ 0
    omega
  have hval23 : (Dbuf.mk (g0 : Nat) (g1 : Nat) (g2 : Nat) 0).val &&& 255 ≠ 0 := by
    rw [Dbuf.val_eq ⟨(g0 : Nat), (g1 : Nat), (g2 : Nat), 0⟩ g1.isLt g2.isLt
      (by show (0 : Nat) < 64; omega), and_0xFF_eq_mod]
    show ((g0 : Nat) * 262144 + (g1 : Nat) * 4096 + (g2 : Nat) * 64 + 0) % 256 ≠ 0
    omega
  constructor
  · intro hpad
    have hpadS : enc.Strict.padChar ≠ NoPadding := hpad
    constructor
    · have h1 := slack_pad22 enc hg hpad b3 h3 hb g0 g1
      rw [if_neg (hns _)] at h1
      have h2 := slack_pad22 enc.Strict hgS hpadS b3 h3 hb g0 g1
      rw [hBS, hE0, hE1, hPB] at h2
      rw [if_pos ⟨rfl, hval22⟩] at h2
      exact ⟨by rw [h1], by rw [h2], by rw [h2]⟩
    · have h1 := slack_pad23 enc hg hpad b3 h3 hb g0 g1 g2
      rw [if_neg (hns _)] at h1
      have h2 := slack_pad23 enc.Strict hgS hpadS b3 h3 hb g0 g1 g2
      rw [hBS, hE0, hE1, hE2, hPB] at h2
      rw [if_pos ⟨rfl, hval23⟩] at h2
      exact ⟨by rw [h1], by rw [h2], by rw [h2]⟩
  · intro hpadN
    have hpadNS : enc.Strict.padChar = NoPadding := hpadN
    constructor
    · have h1 := slack_nopad2 enc hg hpadN b3 h3 hb g0 g1
      rw [if_neg (hns _)] at h1
      have h2 := slack_nopad2 enc.Strict hgS hpadNS b3 h3 hb g0 g1
      rw [hBS, hE0, hE1] at h2
      rw [if_pos ⟨rfl, hval22⟩] at h2
      exact ⟨by rw [h1], by rw [h2], by rw [h2]⟩
    · have h1 := slack_nopad3 enc hg hpadN b3 h3 hb g0 g1 g2
      rw [if_neg (hns _)] at h1
      have h2 := slack_nopad3 enc.Strict hgS hpadNS b3 h3 hb g0 g1 g2
      rw [hBS, hE0, hE1, hE2] at h2
      rw [if_pos ⟨rfl, hval23⟩] at h2
      exact ⟨by rw [h1], by rw [h2], by rw [h2]⟩

theorem C5_strict_slack_witness :
    (asciiEnc.padChar ≠ NoPadding →
      ((asciiEnc.Decode (encodeBlocks asciiEnc [] ++ (asciiEnc.encode (0 : Fin 64) ++ (asciiEnc.encode (1 : Fin 64) ++ (asciiEnc.padBytes ++ asciiEnc.padBytes))))).err = none ∧
       (asciiEnc.Strict.Decode (encodeBlocks asciiEnc [] ++ (asciiEnc.encode (0 : Fin 64) ++ (asciiEnc.encode (1 : Fin 64) ++ (asciiEnc.padBytes ++ asciiEnc.padBytes))))).err = some ((encodeBlocks asciiEnc []).length + (asciiEnc.encode (0 : Fin 64)).length + (asciiEnc.encode (1 : Fin 64)).length) ∧
       (asciiEnc.Strict.Decode (encodeBlocks asciiEnc [] ++ (asciiEnc.encode (0 : Fin 64) ++ (asciiEnc.encode (1 : Fin 64) ++ (asciiEnc.padBytes ++ asciiEnc.padBytes))))).ret = 0) ∧
      ((asciiEnc.Decode (encodeBlocks asciiEnc [] ++ (asciiEnc.encode (0 : Fin 64) ++ (asciiEnc.encode (1 : Fin 64) ++ (asciiEnc.encode (1 : Fin 64) ++ asciiEnc.padBytes))))).err = none ∧
       (asciiEnc.Strict.Decode (encodeBlocks asciiEnc [] ++ (asciiEnc.encode (0 : Fin 64) ++ (asciiEnc.encode (1 : Fin 64) ++ (asciiEnc.encode (1 : Fin 64) ++ asciiEnc.padBytes))))).err = some ((encodeBlocks asciiEnc []).length + (asciiEnc.encode (0 : Fin 64)).length + (asciiEnc.encode (1 : Fin 64)).length + (asciiEnc.encode (1 : Fin 64)).length) ∧
       (asciiEnc.Strict.Decode (encodeBlocks asciiEnc [] ++ (asciiEnc.encode (0 : Fin 64) ++ (asciiEnc.encode (1 : Fin 64) ++ (asciiEnc.encode (1 : Fin 64) ++ asciiEnc.padBytes))))).ret = 0)) ∧
    (asciiEnc.padChar = NoPadding →
      ((asciiEnc.Decode (encodeBlocks asciiEnc [] ++ (asciiEnc.encode (0 : Fin 64) ++ asciiEnc.encode (1 : Fin 64)))).err = none ∧
       (asciiEnc.Strict.Decode (encodeBlocks asciiEnc [] ++ (asciiEnc.encode (0 : Fin 64) ++ asciiEnc.encode (1 : Fin 64)))).err = some ((encodeBlocks asciiEnc []).length + (asciiEnc.encode (0 : Fin 64)).length + (asciiEnc.encode (1 : Fin 64)).length) ∧
       (asciiEnc.Strict.Decode (encodeBlocks asciiEnc [] ++ (asciiEnc.encode (0 : Fin 64) ++ asciiEnc.encode (1 : Fin 64)))).ret = 0) ∧
      ((asciiEnc.Decode (encodeBlocks asciiEnc [] ++ (asciiEnc.encode (0 : Fin 64) ++ (asciiEnc.encode (1 : Fin 64) ++ asciiEnc.encode (1 : Fin 64))))).err = none ∧
       (asciiEnc.Strict.Decode (encodeBlocks asciiEnc [] ++ (asciiEnc.encode (0 : Fin 64) ++ (asciiEnc.encode (1 : Fin 64) ++ asciiEnc.encode (1 : Fin 64))))).err = some ((encodeBlocks asciiEnc []).length + (asciiEnc.encode (0 : Fin 64)).length + (asciiEnc.encode (1 : Fin 64)).length + (asciiEnc.encode (1 : Fin 64)).length) ∧
       (asciiEnc.Strict.Decode (encodeBlocks asciiEnc [] ++ (asciiEnc.encode (0 : Fin 64) ++ (asciiEnc.encode (1 : Fin 64) ++ asciiEnc.encode (1 : Fin 64))))).ret = 0)) :=
  C5_strict_slack asciiEnc asciiEnc_valid rfl [] (by decide) (by simp) 0 1 1
    (by decide) (by decide)

/-! ### Claim C6: CR/LF transparency at symbol boundaries (refuted between
padding symbols) -/

/-- C6: `"AB=="` (bytes `65 66 61 61` under the one-byte ASCII alphabet)
decodes to one byte with no error, and inserting LF before the symbols,
between data symbols, or after the final padding preserves the result — but
inserting LF **between the two padding symbols** makes `Decode` fail with
CorruptInput at offset 4: the padding node's CR/LF self-loop carries the
padding value 64, so the newline is counted as a third padding symbol.
This refutes newline transparency for the boundary between padding
symbols. -/
theorem C6_newline_between_padding :
    asciiEnc.Decode [65, 66, 61, 61] = ⟨[0], 1, none⟩ ∧
    asciiEnc.Decode [10, 65, 66, 61, 61] = ⟨[0], 1, none⟩ ∧
    asciiEnc.Decode [65, 66, 10, 61, 61] = ⟨[0], 1, none⟩ ∧
    asciiEnc.Decode [65, 66, 61, 61, 10] = ⟨[0], 1, none⟩ ∧
    asciiEnc.Decode [65, 66, 61, 10, 61] = ⟨[0], 0, some 4⟩ := by decide

/-! ### Claim C3: short-input error offsets under a padded alphabet -/

/-- Feeding the padding symbol in quantum slot 0 or 1 is an immediate
corrupt-input error at the last data-symbol end offset. -/
theorem consume_pad_err {enc : Encoding} (hg : Good enc) (hpad : enc.padChar ≠ NoPadding)
    (st : LoopSt) (pos : Nat) (rest : List Nat) (hroot : RootLike st.n)
    (hj : st.j % 4 = 0 ∨ st.j % 4 = 1) :
    decodeLoop enc (enc.padBytes ++ rest) pos st = .err st.out st.lastRune := by
  have hne := (hg.2.2.2 hpad).1
  rw [walk_pad_root hg hpad enc.padBytes [] (by simp) hne st pos rest (Or.inl ⟨rfl, hroot⟩),
      resolveValue_pad_err enc rest (pos + enc.padBytes.length - 1)
        ⟨.pad, st.padCount, st.lastBlock, st.lastRune, st.j, st.dbuf, st.out⟩ hj]
  rfl

/-- C3 counterexample: decoding the single bare symbol `"A"` under the
padded one-byte ASCII alphabet reports CorruptInput at offset 0 (the last
complete-quantum boundary), not at the end-of-input offset 1 stated by the
spec. -/
theorem C3_single_symbol_counterexample :
    (asciiEnc.Decode [65]).err = some 0 ∧
    (asciiEnc.Decode [65]).err ≠ some ([65] : List Nat).length := by decide

/-- C3 (amended): under a valid padded configuration, (a) an input whose
first byte starts no symbol and is not CR/LF/padding fails at offset 0;
(b) one symbol followed by the padding symbol fails at the end offset of
that symbol (padding may not fill quantum slot 1); and (c) exactly one bare
symbol fails with CorruptInput at offset 0 — the last complete-quantum
boundary (`lastBlock`), not the end-of-input offset. -/
theorem C3_short_input_offsets (enc : Encoding) (hv : ValidAlphabet enc)
    (hpad : enc.padChar ≠ NoPadding)
    (x : Nat) (hx : enc.step .root x = none) (rest1 rest2 : List Nat) (g0 : Fin 64) :
    ((enc.Decode (x :: rest1)).err = some 0 ∧ (enc.Decode (x :: rest1)).ret = 0) ∧
    ((enc.Decode (enc.encode g0 ++ (enc.padBytes ++ rest2))).err
        = some (enc.encode g0).length ∧
     (enc.Decode (enc.encode g0 ++ (enc.padBytes ++ rest2))).ret = 0) ∧
    ((enc.Decode (enc.encode g0)).err = some 0 ∧ (enc.Decode (enc.encode g0)).ret = 0) := by
  have hg := hv.good
  have hD1 : enc.Decode (x :: rest1) = ⟨[], 0, some 0⟩ := by
    unfold Encoding.Decode
    rw [decodeLoop_cons_reject hx rest1 0]
  have hD2 : enc.Decode (enc.encode g0 ++ (enc.padBytes ++ rest2)) =
      ⟨[], 0, some (enc.encode g0).length⟩ := by
    unfold Encoding.Decode
    rw [consume_dataE hg g0 .root 0 0 0 0 ⟨0, 0, 0, 0⟩ [] 0 (enc.padBytes ++ rest2)
        (Or.inl rfl) (by omega)]
    simp only [Nat.zero_add]
    rw [consume_pad_err hg hpad
        ⟨.term g0, 0, 0, (enc.encode g0).length, 1, (Dbuf.mk 0 0 0 0).set (0 % 4) (g0 : Nat), []⟩
        ((enc.encode g0).length) rest2 (Or.inr ⟨g0, rfl⟩) (Or.inr rfl)]
  have hD3 : enc.Decode (enc.encode g0) = ⟨[], 0, some 0⟩ := by
    rw [show (enc.encode g0 : List Nat) = enc.encode g0 ++ [] from by simp]
    unfold Encoding.Decode
    rw [consume_dataE hg g0 .root 0 0 0 0 ⟨0, 0, 0, 0⟩ [] 0 [] (Or.inl rfl) (by omega)]
    simp only [Nat.zero_add]
    simp only [decodeLoop]
    rw [if_neg (rootLike_nodeV (Or.inr ⟨g0, rfl⟩))]
    simp [hpad]
  exact ⟨⟨by rw [hD1], by rw [hD1]⟩, ⟨by rw [hD2], by rw [hD2]⟩, ⟨by rw [hD3], by rw [hD3]⟩⟩

theorem C3_short_input_offsets_witness :
    ((asciiEnc.Decode (33 :: [33, 33, 33])).err = some 0 ∧
     (asciiEnc.Decode (33 :: [33, 33, 33])).ret = 0) ∧
    ((asciiEnc.Decode (asciiEnc.encode 0 ++ (asciiEnc.padBytes ++ [61, 61]))).err
        = some (asciiEnc.encode (0 : Fin 64)).length ∧
     (asciiEnc.Decode (asciiEnc.encode 0 ++ (asciiEnc.padBytes ++ [61, 61]))).ret = 0) ∧
    ((asciiEnc.Decode (asciiEnc.encode 0)).err = some 0 ∧
     (asciiEnc.Decode (asciiEnc.encode 0)).ret = 0) :=
  C3_short_input_offsets asciiEnc asciiEnc_valid (by decide) 33 (by decide) [33, 33, 33]
    [61, 61] 0

/-! ### Claim C9: the streaming encoder around Close -/

theorem writeChunks_small (enc : Encoding) (sink p : List Nat) (h : p.length < 3) :
    writeChunks enc sink p = (sink, p) := by
  unfold writeChunks
  rw [dif_pos h]

/-- `Write` on a clean encoder with an empty remainder buffer: no error is
returned and every supplied byte is reported as consumed. -/
theorem encoder.Write_open (enc : Encoding) (sink p : List Nat) :
    (encoder.Write enc ⟨false, [], sink⟩ p) =
      (⟨false, (writeChunks enc sink p).2, (writeChunks enc sink p).1⟩, p.length, false) := by
  unfold encoder.Write
  rcases hw : writeChunks enc sink p with ⟨s2, r2⟩
  simp [hw]

/-- C9 counterexample: write one byte, `Close` (which flushes `"Zg=="`),
then write again: the post-`Close` write returns count 1 with **no error**
and stores the new byte in the remainder buffer — `Close` does not make
subsequent writes fail. -/
theorem C9_write_after_close_counterexample :
    encoder.Write asciiEnc NewEncoder [102] = (⟨false, [102], []⟩, 1, false) ∧
    encoder.Close asciiEnc ⟨false, [102], []⟩ = (⟨false, [], [90, 103, 61, 61]⟩, false) ∧
    encoder.Write asciiEnc ⟨false, [], [90, 103, 61, 61]⟩ [104] =
      (⟨false, [104], [90, 103, 61, 61]⟩, 1, false) := by
  refine ⟨?_, ?_, ?_⟩
  · unfold encoder.Write
    simp [NewEncoder, writeChunks_small]
  · unfold encoder.Close
    rw [if_pos ⟨rfl, by simp⟩]
    rw [show asciiEnc.Encode [102] = [90, 103, 61, 61] from by decide]
    simp
  · unfold encoder.Write
    simp [writeChunks_small]

/-- C9 (amended): `Close` flushes the retained 1–2 byte remainder as a
final quantum into the sink and empties the buffer (and is a no-op on an
empty buffer), but it does **not** inhibit later writes: a `Write` after
`Close` reports every byte consumed and no error. -/
theorem C9_close_then_write (enc : Encoding) (e : encoder) :
    (e.err = false → e.buf ≠ [] →
      encoder.Close enc e = (⟨false, [], e.sink ++ enc.Encode e.buf⟩, false)) ∧
    (e.buf = [] → encoder.Close enc e = (e, e.err)) ∧
    (∀ p : List Nat, e.err = false →
      (encoder.Write enc (encoder.Close enc e).1 p).2.1 = p.length ∧
      (encoder.Write enc (encoder.Close enc e).1 p).2.2 = false) := by
  refine ⟨?_, ?_, ?_⟩
  · intro h1 h2
    unfold encoder.Close
    rw [if_pos ⟨h1, h2⟩]
  · intro h
    unfold encoder.Close
    rw [if_neg (fun hc => hc.2 h)]
  · intro p h1
    obtain ⟨ee, eb, es⟩ := e
    have h1x : ee = false := h1
    subst h1x
    by_cases hb : eb = []
    · subst hb
      have hC : encoder.Close enc ⟨false, [], es⟩ = (⟨false, [], es⟩, false) := by
        unfold encoder.Close
        rw [if_neg (fun hc => hc.2 rfl)]
      rw [hC, encoder.Write_open]
      exact ⟨rfl, rfl⟩
    · have hC : encoder.Close enc ⟨false, eb, es⟩ =
          (⟨false, [], es ++ enc.Encode eb⟩, false) := by
        unfold encoder.Close
        rw [if_pos ⟨rfl, hb⟩]
      rw [hC, encoder.Write_open]
      exact ⟨rfl, rfl⟩

theorem C9_close_then_write_witness :
    ((⟨false, [102], []⟩ : encoder).err = false → (⟨false, [102], []⟩ : encoder).buf ≠ [] →
      encoder.Close asciiEnc ⟨false, [102], []⟩ =
        (⟨false, [], ([] : List Nat) ++ asciiEnc.Encode [102]⟩, false)) ∧
    ((⟨false, [102], []⟩ : encoder).buf = [] →
      encoder.Close asciiEnc ⟨false, [102], []⟩ = (⟨false, [102], []⟩, false)) ∧
    (∀ p : List Nat, (⟨false, [102], []⟩ : encoder).err = false →
      (encoder.Write asciiEnc (encoder.Close asciiEnc ⟨false, [102], []⟩).1 p).2.1 = p.length ∧
      (encoder.Write asciiEnc (encoder.Close asciiEnc ⟨false, [102], []⟩).1 p).2.2 = false) :=
  C9_close_then_write asciiEnc ⟨false, [102], []⟩

/-! ### Claim C2: which alphabets NewEncoding accepts -/

theorem utf8DecodeRune_ascii (b : Nat) (bs : List Nat) (h : b < 128) :
    utf8DecodeRune (b :: bs) = (b, 1) := by
  simp only [utf8DecodeRune]
  rw [if_pos h]

theorem runeSeq_nil : runeSeq [] = [] := by
  unfold runeSeq
  rfl

theorem runeSeq_ascii (b : Nat) (bs : List Nat) (h : b < 128) :
    runeSeq (b :: bs) = (b, 1) :: runeSeq bs := by
  conv_lhs => rw [runeSeq.eq_def]
  simp [utf8DecodeRune_ascii b bs h]

theorem runeSeq_replicate (n : Nat) :
    runeSeq (List.replicate n 97) = List.replicate n (97, 1) := by
  induction n with
  | zero => simpa using runeSeq_nil
  | succ n ih => simp [List.replicate_succ, runeSeq_ascii, ih]

set_option maxRecDepth 20000 in
/-- C2 counterexample: `NewEncoding` accepts the empty alphabet and a
one-code-point alphabet (fewer than 64 code points), and accepts the
64-fold repetition of `"a"` (a repeated code point) — the source never
checks for fewer than 64 code points nor for duplicates. -/
theorem C2_small_and_duplicate_alphabets_accepted :
    (∃ e, NewEncoding [] = .ok e) ∧
    (∃ e, NewEncoding [97] = .ok e) ∧
    (∃ e, NewEncoding (List.replicate 64 97) = .ok e) := by
  have h0 : runeSeq [] = [] := runeSeq_nil
  have h1 : runeSeq [97] = [(97, 1)] := by
    rw [runeSeq_ascii 97 [] (by omega), runeSeq_nil]
  have hd : runeSeq (List.replicate 64 97) = List.replicate 64 (97, 1) :=
    runeSeq_replicate 64
  refine ⟨?_, ?_, ?_⟩
  · unfold NewEncoding
    rw [h0]
    exact ⟨_, rfl⟩
  · unfold NewEncoding
    rw [h1]
    exact ⟨_, rfl⟩
  · unfold NewEncoding
    rw [hd]
    exact ⟨_, rfl⟩

set_option maxRecDepth 20000 in
/-- C2 (amended): `NewEncoding` rejects with the not-64-runes error only
when the text has **more** than 64 code points, rejects invalid UTF-8
(replacement runes), dies with a slice-bounds panic — not an
invalid-alphabet error — on 2 to 63 code points, and accepts everything
else, including alphabets of 0 or 1 code points and alphabets with
repeated code points. -/
theorem C2_new_encoding_acceptance :
    (∃ e, NewEncoding [] = .ok e) ∧
    (∃ e, NewEncoding [98] = .ok e) ∧
    NewEncoding [97, 98] = .error "slice bounds out of range" ∧
    (∃ e, NewEncoding asciiChars = .ok e) ∧
    (∃ e, NewEncoding (List.replicate 64 97) = .ok e) ∧
    NewEncoding (asciiChars ++ [33]) = .error "encoding alphabet is not 64-runes long" ∧
    NewEncoding [255] = .error "encoding alphabet contains invalid UTF-8 sequence" := by
  have h1 : runeSeq [98] = [(98, 1)] := by
    rw [runeSeq_ascii 98 [] (by omega), runeSeq_nil]
  have h2 : runeSeq [97, 98] = [(97, 1), (98, 1)] := by
    rw [runeSeq_ascii 97 [98] (by omega), runeSeq_ascii 98 [] (by omega), runeSeq_nil]
  have hA : runeSeq asciiChars = asciiChars.map (fun b => (b, 1)) := by
    simp [asciiChars, runeSeq_ascii, runeSeq_nil]
  have hd : runeSeq (List.replicate 64 97) = List.replicate 64 (97, 1) :=
    runeSeq_replicate 64
  have hA65 : runeSeq (asciiChars ++ [33]) =
      (asciiChars ++ [33]).map (fun b => (b, 1)) := by
    simp [asciiChars, runeSeq_ascii, runeSeq_nil]
  have h255 : runeSeq [255] = [(0xFFFD, 1)] := by
    unfold runeSeq
    rw [show utf8DecodeRune [255] = (0xFFFD, 1) from by decide]
    simp [runeSeq_nil]
  refine ⟨?_, ?_, ?_, ?_, ?_, ?_, ?_⟩
  · unfold NewEncoding
    rw [runeSeq_nil]
    exact ⟨_, rfl⟩
  · unfold NewEncoding
    rw [h1]
    exact ⟨_, rfl⟩
  · unfold NewEncoding
    rw [h2]
    rfl
  · unfold NewEncoding
    rw [hA]
    exact ⟨_, rfl⟩
  · unfold NewEncoding
    rw [hd]
    exact ⟨_, rfl⟩
  · unfold NewEncoding
    rw [hA65]
    rfl
  · unfold NewEncoding
    rw [h255]
    rfl

end Base64dq